import Mathlib

/-! # QuadTree: a verification development

Shallow embedding of `QuadTree.cpp` (Rect, Collidable, QuadTree) and proofs about it.

Modelling conventions.

* `double` coordinates are exact rationals (`ℚ`); the literal `0.5f` is `1/2`.
* Pointers are natural numbers.  `QuadTree*` values index the node store of a `Heap`
  (`none` when nothing was allocated there), `Collidable*` values index the item
  store; `nullptr` is `none`.
* `new QuadTree` takes the next unused address (`Heap.next`).  Nothing is ever freed
  by the operations modelled here (`clear` does not delete children).
* A dereference the C++ code could not perform (dangling node pointer, `erase` of
  `end()`) and running out of recursion fuel both yield `none`.
* The array `children[4]` is the list of its four entries; `[]` stands for the
  four initial null pointers.
-/

namespace QuadTreeCpp

/-! ## Rect -/

/-- The struct `Rect`. -/
structure Rect where
  x : ℚ
  y : ℚ
  width : ℚ
  height : ℚ
deriving DecidableEq

/-- The method `Rect::contains`. -/
def Rect.contains (r other : Rect) : Bool :=
  if r.x > other.x then false
  else if r.y > other.y then false
  else if r.x + r.width < other.x + other.width then false
  else if r.y + r.height < other.y + other.height then false
  else true

/-- The method `Rect::intersects`. -/
def Rect.intersects (r other : Rect) : Bool :=
  if r.x > other.x + other.width then false
  else if r.x + r.width < other.x then false
  else if r.y > other.y + other.height then false
  else if r.y + r.height < other.y then false
  else true

/-- The method `Rect::getLeft`. -/
def Rect.getLeft (r : Rect) : ℚ := r.x - r.width * (1 / 2)
/-- The method `Rect::getTop`. -/
def Rect.getTop (r : Rect) : ℚ := r.y + r.height * (1 / 2)
/-- The method `Rect::getRight`. -/
def Rect.getRight (r : Rect) : ℚ := r.x + r.width * (1 / 2)
/-- The method `Rect::getBottom`. -/
def Rect.getBottom (r : Rect) : ℚ := r.y - r.height * (1 / 2)

/-! ## Collidable, QuadTree nodes and the heap -/

/-- The struct `Collidable` without its opaque payload: the bound and the private
back pointer `qt` to the node holding the item. -/
structure Collidable where
  bound : Rect
  qt : Option Nat
deriving DecidableEq

/-- The fields of one `QuadTree` object. -/
structure QuadTree where
  isLeaf : Bool
  level : Nat
  capacity : Nat
  maxLevel : Nat
  bounds : Rect
  parent : Option Nat
  children : List Nat
  objects : List Nat
deriving DecidableEq

/-- Memory: the allocated `QuadTree` objects, the next free address, and the
caller's `Collidable` objects. -/
structure Heap where
  nodes : Nat → Option QuadTree
  next : Nat
  items : Nat → Collidable

/-- Overwrite the node stored at address `n`. -/
def Heap.setNode (s : Heap) (n : Nat) (q : QuadTree) : Heap :=
  { s with nodes := fun m => if m = n then some q else s.nodes m }

/-- Assignment `obj->qt = v`. -/
def Heap.setQt (s : Heap) (obj : Nat) (v : Option Nat) : Heap :=
  { s with items := fun j => if j = obj then { bound := (s.items j).bound, qt := v } else s.items j }

/-- Caller-side assignment `obj->bound = r` (the field is public). -/
def Heap.setBound (s : Heap) (obj : Nat) (r : Rect) : Heap :=
  { s with items := fun j => if j = obj then { bound := r, qt := (s.items j).qt } else s.items j }

/-- The statements `objects.push_back(obj); obj->qt = this;` of `insert`, where `q`
holds the fields of `this`. -/
def Heap.link (s : Heap) (this : Nat) (q : QuadTree) (obj : Nat) : Heap :=
  (s.setNode this { q with objects := q.objects ++ [obj] }).setQt obj (some this)

/-- The statements `objects.erase(std::find(..., obj)); obj->qt = nullptr;` of
`remove`, where `q` holds the fields of `this`. -/
def Heap.unlink (s : Heap) (this : Nat) (q : QuadTree) (obj : Nat) : Heap :=
  (s.setNode this { q with objects := q.objects.erase obj }).setQt obj none

/-- The loop `for (auto&& obj : objects) obj->qt = nullptr`. -/
def unlinkAll (s : Heap) : List Nat → Heap
  | [] => s
  | obj :: rest => unlinkAll (s.setQt obj none) rest

/-- The first block of `clear`: under the guard `!objects.empty()`, reset the owner
of every object and empty the list; `q` holds the fields of `this`. -/
def Heap.dropObjects (s : Heap) (this : Nat) (q : QuadTree) : Heap :=
  if q.objects.isEmpty then s
  else (unlinkAll s q.objects).setNode this { q with objects := [] }

/-- The fields of a node after the assignment `isLeaf = true`. -/
def QuadTree.asLeaf (q : QuadTree) : QuadTree := { q with isLeaf := true }

/-- The constructor `QuadTree(_bound, _capacity, _maxLevel)` with the default member
initialisers. -/
def QuadTree.mk0 (bound : Rect) (capacity maxLevel : Nat) : QuadTree :=
  { isLeaf := true, level := 0, capacity := capacity, maxLevel := maxLevel,
    bounds := bound, parent := none, children := [], objects := [] }

/-- A fresh root at address `0`, with the caller's items all untracked. -/
def Heap.init (bound : Rect) (capacity maxLevel : Nat) (bounds : Nat → Rect) : Heap :=
  { nodes := fun m => if m = 0 then some (QuadTree.mk0 bound capacity maxLevel) else none,
    next := 1,
    items := fun j => { bound := bounds j, qt := none } }

/-! ## QuadTree operations -/

/-- The method `QuadTree::getChild`, on the fields of `this`. -/
def getChild (q : QuadTree) (bound : Rect) : Option Nat :=
  let left : Bool := bound.x + bound.width < q.bounds.getRight
  let right : Bool := bound.x > q.bounds.getRight
  if bound.y + bound.height < q.bounds.getTop then
    if left then q.children[1]?
    else if right then q.children[0]?
    else none
  else if bound.y > q.bounds.getTop then
    if left then q.children[2]?
    else if right then q.children[3]?
    else none
  else none

/-- The four entries of `children`, for the range-for loops; dereferencing the
initial null entries is undefined. -/
def QuadTree.kids (q : QuadTree) : Option (List Nat) :=
  if q.children.length = 4 then some q.children else none

/-- Run a heap transformer over a list of node addresses, left to right. -/
def forEach (step : Heap → Nat → Option Heap) : Heap → List Nat → Option Heap
  | s, [] => some s
  | s, c :: rest =>
    match step s c with
    | none => none
    | some s1 => forEach step s1 rest

/-- The method `QuadTree::clear`. -/
def clear : Nat → Heap → Nat → Option Heap
  | 0, _, _ => none
  | fuel + 1, s, this =>
    match s.nodes this with
    | none => none
    | some q =>
      let s1 := s.dropObjects this q
      if q.isLeaf then some s1
      else
        match q.kids with
        | none => none
        | some cs =>
          match forEach (fun st c => clear fuel st c) s1 cs with
          | none => none
          | some s2 =>
            match s2.nodes this with
            | none => none
            | some q2 => some (s2.setNode this q2.asLeaf)

/-- The loop of `discardEmptyBuckets`: `true` when it reaches a child that is not a
leaf or holds objects (the early `return`). -/
def anyBusy (s : Heap) : List Nat → Option Bool
  | [] => some false
  | c :: rest =>
    match s.nodes c with
    | none => none
    | some qc => if !qc.isLeaf || !qc.objects.isEmpty then some true else anyBusy s rest

/-- The method `QuadTree::discardEmptyBuckets`. -/
def discardEmptyBuckets : Nat → Heap → Nat → Option Heap
  | 0, _, _ => none
  | fuel + 1, s, this =>
    match s.nodes this with
    | none => none
    | some q =>
      if !q.objects.isEmpty then some s
      else
        match (if q.isLeaf then some false else q.kids.bind (anyBusy s)) with
        | none => none
        | some true => some s
        | some false =>
          match clear fuel s this with
          | none => none
          | some s1 =>
            match s1.nodes this with
            | none => none
            | some q1 =>
              match q1.parent with
              | none => some s1
              | some p => discardEmptyBuckets fuel s1 p

/-- The method `QuadTree::remove`. -/
def remove : Nat → Heap → Nat → Nat → Option (Bool × Heap)
  | 0, _, _, _ => none
  | fuel + 1, s, this, obj =>
    match (s.items obj).qt with
    | none => some (false, s)
    | some owner =>
      if owner ≠ this then remove fuel s owner obj
      else
        match s.nodes this with
        | none => none
        | some q =>
          if obj ∈ q.objects then
            match discardEmptyBuckets fuel (s.unlink this q obj) this with
            | none => none
            | some s2 => some (true, s2)
          else none

/-- The `switch` of `subdivide`: origin and size of quadrant `i` of `bounds`
(0 top right, 1 top left, 2 bottom left, 3 bottom right). -/
def quadrant (bounds : Rect) (i : Nat) : Rect :=
  let width := bounds.width * (1 / 2)
  let height := bounds.height * (1 / 2)
  match i with
  | 0 => { x := bounds.x + width, y := bounds.y, width := width, height := height }
  | 1 => { x := bounds.x, y := bounds.y, width := width, height := height }
  | 2 => { x := bounds.x, y := bounds.y + height, width := width, height := height }
  | 3 => { x := bounds.x + width, y := bounds.y + height, width := width, height := height }
  | _ => { x := 0, y := 0, width := width, height := height }

/-- The object `new QuadTree({x, y, width, height}, capacity, maxLevel)` of
`subdivide` after `level` and `parent` have been assigned, for quadrant `i` of the
node `q` stored at `this`. -/
def QuadTree.newChild (q : QuadTree) (this i : Nat) : QuadTree :=
  { isLeaf := true, level := q.level + 1, capacity := q.capacity, maxLevel := q.maxLevel,
    bounds := quadrant q.bounds i, parent := some this, children := [], objects := [] }

/-- The method `QuadTree::subdivide`. -/
def subdivide (s : Heap) (this : Nat) : Option Heap :=
  match s.nodes this with
  | none => none
  | some q =>
    let a := s.next
    let s1 : Heap :=
      { s with
        nodes := fun m =>
          if m = a then some (q.newChild this 0)
          else if m = a + 1 then some (q.newChild this 1)
          else if m = a + 2 then some (q.newChild this 2)
          else if m = a + 3 then some (q.newChild this 3)
          else s.nodes m,
        next := a + 4 }
    some (s1.setNode this { q with children := [a, a + 1, a + 2, a + 3], isLeaf := false })

mutual
/-- The method `QuadTree::insert`. -/
def insert : Nat → Heap → Nat → Nat → Option (Bool × Heap)
  | 0, _, _, _ => none
  | fuel + 1, s, this, obj =>
    if (s.items obj).qt.isSome then some (false, s)
    else
      match s.nodes this with
      | none => none
      | some q =>
        match (if q.isLeaf then none else getChild q (s.items obj).bound) with
        | some child => insert fuel s child obj
        | none =>
          let s1 := s.link this q obj
          if q.isLeaf && decide (q.level < q.maxLevel)
              && decide (q.capacity ≤ (q.objects ++ [obj]).length) then
            match subdivide s1 this with
            | none => none
            | some s2 =>
              match update fuel s2 this obj with
              | none => none
              | some r => some (true, r.2)
          else some (true, s1)
/-- The method `QuadTree::update`. -/
def update : Nat → Heap → Nat → Nat → Option (Bool × Heap)
  | 0, _, _, _ => none
  | fuel + 1, s, this, obj =>
    match remove fuel s this obj with
    | none => none
    | some (false, s1) => some (false, s1)
    | some (true, s1) =>
      match s1.nodes this with
      | none => none
      | some q =>
        if q.parent.isSome && !q.bounds.contains (s1.items obj).bound then
          match q.parent with
          | none => none
          | some p => insert fuel s1 p obj
        else
          match (if q.isLeaf then none else getChild q (s1.items obj).bound) with
          | some child => insert fuel s1 child obj
          | none => insert fuel s1 this obj
end

/-- The argument `const Rect &bound` of `getObjectsInBound`: either the `bound`
member of a `Collidable` or a rectangle living elsewhere. -/
inductive RectRef where
  | ofItem (obj : Nat)
  | free (r : Rect)
deriving DecidableEq

/-- The rectangle a reference points to. -/
def RectRef.deref (s : Heap) : RectRef → Rect
  | .ofItem obj => (s.items obj).bound
  | .free r => r

/-- The first loop of `getObjectsInBound`: the direct objects whose `bound` is
another object than the argument and intersects it. -/
def scanObjects (s : Heap) (bound : RectRef) (objects : List Nat) : List Nat :=
  objects.filter fun obj =>
    decide (RectRef.ofItem obj ≠ bound) && (s.items obj).bound.intersects (bound.deref s)

/-- Accumulate a partial list-valued function over node addresses. -/
def collect (step : Nat → Option (List Nat)) : List Nat → Option (List Nat)
  | [] => some []
  | c :: rest =>
    match step c with
    | none => none
    | some r =>
      match collect step rest with
      | none => none
      | some rs => some (r ++ rs)

/-- The method `QuadTree::getObjectsInBound`; the result is the content of
`foundObjects` on return. -/
def getObjectsInBound : Nat → Heap → Nat → RectRef → Option (List Nat)
  | 0, _, _, _ => none
  | fuel + 1, s, this, bound =>
    match s.nodes this with
    | none => none
    | some q =>
      let found := scanObjects s bound q.objects
      if q.isLeaf then some found
      else
        match getChild q (bound.deref s) with
        | some child =>
          match getObjectsInBound fuel s child bound with
          | none => none
          | some r => some (found ++ r)
        | none =>
          match q.kids with
          | none => none
          | some cs =>
            match collect (fun leaf =>
                match s.nodes leaf with
                | none => none
                | some ql =>
                  if ql.bounds.intersects (bound.deref s) then getObjectsInBound fuel s leaf bound
                  else some []) cs with
            | none => none
            | some r => some (found ++ r)

/-- Sum a partial count over node addresses. -/
def sumOver (step : Nat → Option Nat) : List Nat → Option Nat
  | [] => some 0
  | c :: rest =>
    match step c with
    | none => none
    | some k =>
      match sumOver step rest with
      | none => none
      | some t => some (k + t)

/-- The method `QuadTree::totalChildren`. -/
def totalChildren : Nat → Heap → Nat → Option Nat
  | 0, _, _ => none
  | fuel + 1, s, this =>
    match s.nodes this with
    | none => none
    | some q =>
      if q.isLeaf then some 0
      else
        match q.kids with
        | none => none
        | some cs =>
          match sumOver (fun c => totalChildren fuel s c) cs with
          | none => none
          | some total => some (4 + total)

/-- The method `QuadTree::totalObjects`. -/
def totalObjects : Nat → Heap → Nat → Option Nat
  | 0, _, _ => none
  | fuel + 1, s, this =>
    match s.nodes this with
    | none => none
    | some q =>
      if q.isLeaf then some q.objects.length
      else
        match q.kids with
        | none => none
        | some cs =>
          match sumOver (fun c => totalObjects fuel s c) cs with
          | none => none
          | some total => some (q.objects.length + total)

/-! ## Calls made by the owner of the tree -/

/-- One call made by the owner of the root. -/
inductive Call where
  | insert (obj : Nat)
  | remove (obj : Nat)
  | update (obj : Nat)
  | clear
  | setBound (obj : Nat) (r : Rect)

/-- Perform one call on the root (address `0`); the Boolean is the call's result
(`true` for the two calls that return nothing). -/
def Call.run (fuel : Nat) (s : Heap) : Call → Option (Bool × Heap)
  | .insert obj => QuadTreeCpp.insert fuel s 0 obj
  | .remove obj => QuadTreeCpp.remove fuel s 0 obj
  | .update obj => QuadTreeCpp.update fuel s 0 obj
  | .clear => (QuadTreeCpp.clear fuel s 0).map fun s1 => (true, s1)
  | .setBound obj r => some (true, s.setBound obj r)

/-- Perform calls in sequence, collecting the results. -/
def runCalls (fuel : Nat) : Heap → List Call → Option (List Bool × Heap)
  | s, [] => some ([], s)
  | s, c :: rest =>
    match c.run fuel s with
    | none => none
    | some (b, s1) =>
      match runCalls fuel s1 rest with
      | none => none
      | some (bs, s2) => some (b :: bs, s2)

/-- States reachable from `s` by calls that returned and that satisfy `allowed`. -/
inductive Steps (allowed : Call → Prop) : Heap → Heap → Prop where
  | refl (s : Heap) : Steps allowed s s
  | step {s s1 s2 : Heap} (c : Call) (fuel : Nat) (b : Bool) :
      Steps allowed s s1 → allowed c → c.run fuel s1 = some (b, s2) → Steps allowed s s2

/-- States reachable from a fresh, empty root by `insert`, `remove`, `update`,
`clear` on the root and by the owner moving items. -/
def Reach (B : Rect) (C D : Nat) (s : Heap) : Prop :=
  ∃ bounds : Nat → Rect, Steps (fun _ => True) (Heap.init B C D bounds) s

/-- A node that is a leaf and holds no objects. -/
def Idle (s : Heap) (c : Nat) : Prop :=
  ∃ qc, s.nodes c = some qc ∧ qc.isLeaf = true ∧ qc.objects = []

/-- The condition under which `discardEmptyBuckets` goes on to `clear` the node:
no objects, and either a leaf or four idle children. -/
def Collapsible (s : Heap) (q : QuadTree) : Prop :=
  q.objects = [] ∧ (q.isLeaf = true ∨ (q.children.length = 4 ∧ ∀ c ∈ q.children, Idle s c))

/-- The guard of the `if` that calls `subdivide` in `insert`, evaluated after the
`push_back`. -/
def QuadTree.mustSplit (q : QuadTree) : Prop :=
  q.isLeaf = true ∧ q.level < q.maxLevel ∧ q.capacity ≤ q.objects.length + 1

/-- The routing step shared by `insert` and `update`: the child to descend into. -/
def QuadTree.route (q : QuadTree) (bound : Rect) : Option Nat :=
  if q.isLeaf then none else getChild q bound

/-- Bounds of the three items of scenario E1 (every other item is a point at the
origin). -/
def e1Bounds : Nat → Rect
  | 0 => ⟨10, 10, 5, 5⟩
  | 1 => ⟨90, 90, 5, 5⟩
  | 2 => ⟨12, 12, 5, 5⟩
  | _ => ⟨0, 0, 0, 0⟩

/-- The root of scenarios E1 to E3: region `{0,0,100,100}`, capacity 2, max depth 4. -/
def e1Init : Heap := Heap.init ⟨0, 0, 100, 100⟩ 2 4 e1Bounds

/-- Scenario E1: the three inserts, in order. -/
def e1Calls : List Call := [.insert 0, .insert 1, .insert 2]

/-- Scenario E2 after E1: move the third item and update it. -/
def e2Calls : List Call := e1Calls ++ [.setBound 2 ⟨92, 92, 5, 5⟩, .update 2]

/-- What the owner observes after a run: the results of the calls and, on the
final state, `totalObjects()`, `totalChildren()` and a query with a free-standing
rectangle. -/
def observe (fuel : Nat) (s : Heap) (calls : List Call) (query : Rect) :
    Option (List Bool × Option Nat × Option Nat × Option (List Nat)) :=
  (runCalls fuel s calls).map fun r =>
    (r.1, totalObjects fuel r.2 0, totalChildren fuel r.2 0,
      getObjectsInBound fuel r.2 0 (.free query))

/-- The final state of a run, or the initial one when the run did not return. -/
def finalHeap (fuel : Nat) (s : Heap) (calls : List Call) : Heap :=
  ((runCalls fuel s calls).map Prod.snd).getD s

/-- Bounds for the out-of-region example: item 1 lies left of the root's region. -/
def outBounds : Nat → Rect
  | 0 => ⟨10, 10, 5, 5⟩
  | 1 => ⟨-20, 10, 5, 5⟩
  | _ => ⟨0, 0, 0, 0⟩

/-- A node that is not a leaf or holds objects. -/
def QuadTree.busy (q : QuadTree) : Prop := q.isLeaf = false ∨ q.objects ≠ []

/-- The node is the root, or its parent is subdivided and lists it as a child. -/
def Attached (s : Heap) (n : Nat) : Prop :=
  n = 0 ∨ ∃ q p qp, s.nodes n = some q ∧ q.parent = some p ∧ s.nodes p = some qp ∧
    qp.isLeaf = false ∧ n ∈ qp.children

/-- Well-formedness of the store: the structural facts that every call on the root
maintains, for a root built with capacity `C` and max depth `D`. -/
structure WF0 (C D : Nat) (s : Heap) : Prop where
  fresh : ∀ n, s.next ≤ n → s.nodes n = none
  root : ∃ q, s.nodes 0 = some q ∧ q.parent = none ∧ q.level = 0
  conf : ∀ n q, s.nodes n = some q → q.capacity = C ∧ q.maxLevel = D
  par : ∀ n q p, s.nodes n = some q → q.parent = some p →
    ∃ qp, s.nodes p = some qp ∧ q.level = qp.level + 1
  kids : ∀ n q, s.nodes n = some q → q.isLeaf = false →
    q.level < D ∧ q.children.length = 4 ∧ q.children.Nodup ∧
      ∀ c ∈ q.children, ∃ qc, s.nodes c = some qc ∧ qc.parent = some n
  geo : ∀ n q, s.nodes n = some q → q.isLeaf = false →
    ∀ i c, q.children[i]? = some c → ∃ qc, s.nodes c = some qc ∧ qc.bounds = quadrant q.bounds i
  live : ∀ n q, s.nodes n = some q → q.busy → Attached s n
  ownedBy : ∀ i n, (s.items i).qt = some n → ∃ q, s.nodes n = some q ∧ i ∈ q.objects
  owner : ∀ n q i, s.nodes n = some q → i ∈ q.objects → (s.items i).qt = some n
  nodup : ∀ n q, s.nodes n = some q → q.objects.Nodup

/-- Two node records that differ at most in `isLeaf` and `objects`. -/
def SameFrame (q q2 : QuadTree) : Prop :=
  q2.level = q.level ∧ q2.capacity = q.capacity ∧ q2.maxLevel = q.maxLevel ∧
    q2.bounds = q.bounds ∧ q2.parent = q.parent ∧ q2.children = q.children

/-- No subdivided node is in the state that `discardEmptyBuckets` collapses
(no objects and four idle children). -/
def NonVoid (s : Heap) : Prop :=
  ∀ n q, s.nodes n = some q → q.isLeaf = false → ¬ Collapsible s q

/-- The effect of `discardEmptyBuckets`: a chain of nodes, each without objects and
with idle children only at its turn, is marked leaf one after the other. -/
inductive Collapses : Heap → Heap → Prop where
  | refl (s : Heap) : Collapses s s
  | step {s t : Heap} {n : Nat} {q : QuadTree} : s.nodes n = some q → Collapsible s q →
      Collapses (s.setNode n q.asLeaf) t → Collapses s t

/-- What `clear` may do to a store: nodes keep their frame, `isLeaf` may turn `true`,
object lists may be emptied, owner pointers may be reset. -/
def Shrinks (s t : Heap) : Prop :=
  t.next = s.next ∧
  (∀ i, (t.items i).bound = (s.items i).bound ∧
    ((t.items i).qt = (s.items i).qt ∨ (t.items i).qt = none)) ∧
  ∀ m, (s.nodes m = none → t.nodes m = none) ∧
    ∀ qm, s.nodes m = some qm → ∃ qm2, t.nodes m = some qm2 ∧ SameFrame qm qm2 ∧
      (qm2.isLeaf = qm.isLeaf ∨ qm2.isLeaf = true) ∧ (qm2.objects = qm.objects ∨ qm2.objects = [])

/-- The invariant of the reachable states: the store is well-formed, no subdivided
node is collapsible, and either the configuration lets `insert` return (capacity at
least two, or max depth zero) or nothing has ever been inserted. -/
def Inv (C D : Nat) (s : Heap) : Prop :=
  WF0 C D s ∧ NonVoid s ∧ ((2 ≤ C ∨ D = 0) ∨ (Idle s 0 ∧ ∀ i, (s.items i).qt = none))

/-- The nodes of the tree: the root and, recursively, the four children of every node
that is not a leaf. -/
inductive Live (s : Heap) : Nat → Prop where
  | root : Live s 0
  | child {n c : Nat} {q : QuadTree} : Live s n → s.nodes n = some q → q.isLeaf = false →
      c ∈ q.children → Live s c

/-- Two node records with the same level, configuration, bounds and parent. -/
def SameBox (q q2 : QuadTree) : Prop :=
  q2.level = q.level ∧ q2.capacity = q.capacity ∧ q2.maxLevel = q.maxLevel ∧
    q2.bounds = q.bounds ∧ q2.parent = q.parent

/-- The footprint of a call about item `j`: every other item is as before, the bound
of `j` is as before, and every node that existed is still there with the same box
and, apart from `j`, the same objects in the same order. -/
def Eff (j : Nat) (s t : Heap) : Prop :=
  s.next ≤ t.next ∧ (∀ i, i ≠ j → t.items i = s.items i) ∧
  (t.items j).bound = (s.items j).bound ∧
  ∀ n q, s.nodes n = some q → ∃ q2, t.nodes n = some q2 ∧ SameBox q q2 ∧
    q2.objects.filter (fun x => decide (x ≠ j)) = q.objects.filter (fun x => decide (x ≠ j))

/-- The bound `b` straddles the centre of the region `r` on one axis at least
(scenario E4). -/
def Straddles (r b : Rect) : Prop :=
  (b.x ≤ r.x + r.width * (1 / 2) ∧ r.x + r.width * (1 / 2) ≤ b.x + b.width) ∨
  (b.y ≤ r.y + r.height * (1 / 2) ∧ r.y + r.height * (1 / 2) ≤ b.y + b.height)

instance (r b : Rect) : Decidable (Straddles r b) := by
  unfold Straddles; infer_instance

/-- The item is held directly by the root: the root is its owner and lists it. -/
def HeldByRoot (s : Heap) (i : Nat) : Prop :=
  (s.items i).qt = some 0 ∧ ∃ q, s.nodes 0 = some q ∧ i ∈ q.objects

/-- The item is held by the root and listed by no other node. -/
def HeldOnlyByRoot (s : Heap) (i : Nat) : Prop :=
  HeldByRoot s i ∧ ∀ m qm, s.nodes m = some qm → m ≠ 0 → i ∉ qm.objects

/-- A call that is not about item `i`; the owner may still move any item. -/
def Call.avoids (i : Nat) : Call → Prop
  | .insert j => j ≠ i
  | .remove j => j ≠ i
  | .update j => j ≠ i
  | .clear => False
  | .setBound _ _ => True

/-- Bounds for scenario E4: the third item sits on the centre of the region. -/
def e4Bounds : Nat → Rect
  | 0 => ⟨10, 10, 5, 5⟩
  | 1 => ⟨90, 90, 5, 5⟩
  | 2 => ⟨45, 45, 10, 10⟩
  | _ => ⟨0, 0, 0, 0⟩

/-- Scenario E4: a root that two inserts have subdivided. -/
def e4Heap : Heap :=
  finalHeap 10 (Heap.init ⟨0, 0, 100, 100⟩ 2 4 e4Bounds) [.insert 0, .insert 1]

/-- `Below s a n`: following parent pointers from `n` reaches `a` (possibly at once). -/
inductive Below (s : Heap) : Nat → Nat → Prop where
  | refl (n : Nat) : Below s n n
  | step {a n p : Nat} {q : QuadTree} : s.nodes n = some q → q.parent = some p →
      Below s a p → Below s a n

/-- The index into `children` that `getChild` selects for a bound, read off its
comparisons with the centre of `bounds`. -/
def quadrantOf (bounds bound : Rect) : Option Nat :=
  let left : Bool := bound.x + bound.width < bounds.getRight
  let right : Bool := bound.x > bounds.getRight
  if bound.y + bound.height < bounds.getTop then
    if left then some 1
    else if right then some 0
    else none
  else if bound.y > bounds.getTop then
    if left then some 2
    else if right then some 3
    else none
  else none

/-- Along the parent pointers from node `n` up, a bound `b` is routed consistently:
every parent's `getChild` selects the next node down, and every node's bounds contain
`b`. -/
def ChainOK (s : Heap) (n : Nat) (b : Rect) : Prop :=
  (∀ c qc p qp, Below s c n → s.nodes c = some qc → qc.parent = some p → s.nodes p = some qp →
    getChild qp b = some c) ∧
  (∀ a qa, Below s a n → s.nodes a = some qa → qa.bounds.contains b = true)

/-- Every tracked item sits where routing from the root leads its bound. -/
def Routed (s : Heap) : Prop :=
  ∀ i m, (s.items i).qt = some m → ChainOK s m (s.items i).bound

/-- The part of a store that routing reads is kept: parent, bounds, and the children
of subdivided nodes. -/
def KeepsRoutes (s t : Heap) : Prop :=
  ∀ a qa, s.nodes a = some qa → ∃ qa2, t.nodes a = some qa2 ∧ qa2.parent = qa.parent ∧
    qa2.bounds = qa.bounds ∧ (qa.isLeaf = false → qa2.children = qa.children)

/-- The calls considered for query exactness: `insert` of an item whose bound lies
inside the root's region `B` (by `Rect::contains`), `remove`, and `clear`. -/
def Call.inside (B : Rect) (bounds : Nat → Rect) : Call → Prop
  | .insert i => B.contains (bounds i) = true
  | .remove _ => True
  | .clear => True
  | .update _ => False
  | .setBound _ _ => False

/-- The root's region is `B` and the items have the bounds `bounds`. -/
def Framed (B : Rect) (bounds : Nat → Rect) (s : Heap) : Prop :=
  (∃ q, s.nodes 0 = some q ∧ q.bounds = B) ∧ ∀ i, (s.items i).bound = bounds i

/-- The point `(px, py)` lies in the closed box `[x, x+width] × [y, y+height]`. -/
def Rect.covers (r : Rect) (px py : ℚ) : Prop :=
  r.x ≤ px ∧ px ≤ r.x + r.width ∧ r.y ≤ py ∧ py ≤ r.y + r.height

/-- Bounds for the boundary example: item 3 fills the top-left quadrant of the region
`{0,0,100,100}` exactly. -/
def edgeBounds : Nat → Rect
  | 0 => ⟨10, 10, 5, 5⟩
  | 1 => ⟨90, 90, 5, 5⟩
  | 2 => ⟨12, 12, 5, 5⟩
  | 3 => ⟨0, 0, 50, 50⟩
  | _ => ⟨0, 0, 0, 0⟩

/-- The state of scenario E1 with a fourth, still untracked item on the boundary. -/
def edgeHeap : Heap :=
  finalHeap 10 (Heap.init ⟨0, 0, 100, 100⟩ 2 4 edgeBounds) [.insert 0, .insert 1, .insert 2]

/-- The root's record after scenario E1. -/
def e1Root : QuadTree :=
  { isLeaf := false, level := 0, capacity := 2, maxLevel := 4, bounds := ⟨0, 0, 100, 100⟩,
    parent := none, children := [1, 2, 3, 4], objects := [0] }

/-- The record of the root's top-left child (address 2) after scenario E1. -/
def e1TopLeft : QuadTree :=
  { isLeaf := true, level := 1, capacity := 2, maxLevel := 4, bounds := ⟨0, 0, 50, 50⟩,
    parent := some 0, children := [], objects := [2] }

/-- `Lands s b n m`: routing the bound `b` from node `n` downwards (the loop that
`insert` runs through `getChild`) stops at node `m`, which keeps the bound. -/
inductive Lands (s : Heap) (b : Rect) : Nat → Nat → Prop where
  | here {n : Nat} {q : QuadTree} : s.nodes n = some q → q.route b = none → Lands s b n n
  | down {n c m : Nat} {q : QuadTree} : s.nodes n = some q → q.route b = some c →
      Lands s b c m → Lands s b n m

/-- The primitive transitions that the calls on the root are made of.  `free` says
whether the owner may write the bound of a tracked item; `ok` is a condition on the
bound of an item at the moment it is pushed onto a node. -/
inductive Prim (C D : Nat) (free : Prop) (ok : Rect → Prop) : Heap → Heap → Prop where
  | unlink {s : Heap} {n i : Nat} {q : QuadTree} : WF0 C D s → s.nodes n = some q →
      i ∈ q.objects → Prim C D free ok s (s.unlink n q i)
  | flip {s : Heap} {n : Nat} {q : QuadTree} : WF0 C D s → s.nodes n = some q →
      Collapsible s q → Prim C D free ok s (s.setNode n q.asLeaf)
  | split {s t : Heap} {m : Nat} {q : QuadTree} : WF0 C D s → s.nodes m = some q →
      q.mustSplit → 2 ≤ C → Attached s m → subdivide s m = some t → Prim C D free ok s t
  | link {s : Heap} {n i : Nat} {q : QuadTree} : WF0 C D s → (s.items i).qt = none →
      s.nodes n = some q → ¬ q.mustSplit → Lands s (s.items i).bound 0 n →
      ok (s.items i).bound → Prim C D free ok s (s.link n q i)
  | clear {s t : Heap} : WF0 C D s → WF0 C D t → Idle t 0 → Shrinks s t →
      Prim C D free ok s t
  | setBound {s : Heap} {i : Nat} {r : Rect} : WF0 C D s → (free ∨ (s.items i).qt = none) →
      Prim C D free ok s (s.setBound i r)

/-- Sequences of primitive transitions. -/
inductive Prims (C D : Nat) (free : Prop) (ok : Rect → Prop) : Heap → Heap → Prop where
  | refl (s : Heap) : Prims C D free ok s s
  | step {s t u : Heap} : Prim C D free ok s t → Prims C D free ok t u → Prims C D free ok s u

/-- Capacity and depth bounds on every node of the store: a leaf below max depth holds
at most `C - 1` objects, and no node lies deeper than `D`. -/
def Cap (C D : Nat) (s : Heap) : Prop :=
  ∀ n q, s.nodes n = some q →
    q.level ≤ D ∧ (q.isLeaf = true → q.level < D → q.objects.length ≤ C - 1)

/-- States reached from `s` by calls on the root while the owner keeps the tree
informed of every move: the bound of an item is written only while the item is
untracked, or right before `update` is called for it (`update` with the bound `r`
written first; `r` may be the bound the item already has).  `ok` is a condition on the
bound that an item has when `insert` or `update` is called for it. -/
inductive Runs (ok : Rect → Prop) : Heap → Heap → Prop where
  | refl (s : Heap) : Runs ok s s
  | insert {s s1 s2 : Heap} {i f : Nat} {b : Bool} : Runs ok s s1 → ok (s1.items i).bound →
      insert f s1 0 i = some (b, s2) → Runs ok s s2
  | remove {s s1 s2 : Heap} {i f : Nat} {b : Bool} : Runs ok s s1 →
      remove f s1 0 i = some (b, s2) → Runs ok s s2
  | update {s s1 s2 : Heap} {i f : Nat} {b : Bool} {r : Rect} : Runs ok s s1 → ok r →
      update f (s1.setBound i r) 0 i = some (b, s2) → Runs ok s s2
  | clear {s s1 s2 : Heap} {f : Nat} : Runs ok s s1 → clear f s1 0 = some s2 → Runs ok s s2
  | setBound {s s1 : Heap} {i : Nat} {r : Rect} : Runs ok s s1 → (s1.items i).qt = none →
      Runs ok s (s1.setBound i r)

/-- The item `j` is one that `getChild` of the node would route to a child. -/
def fits (s : Heap) (q : QuadTree) (j : Nat) : Bool :=
  (getChild q (s.items j).bound).isSome

/-- Every subdivided node holds at most `C - 1` direct items that `getChild` would
route to a child. -/
def Fit (C : Nat) (s : Heap) : Prop :=
  ∀ n q, s.nodes n = some q → q.isLeaf = false → (q.objects.filter (fits s q)).length ≤ C - 1

/-- Along the parent pointers from node `n` up, every parent's `getChild` selects the
next node down for the bound `b`. -/
def PathOK (s : Heap) (n : Nat) (b : Rect) : Prop :=
  ∀ c qc p qp, Below s c n → s.nodes c = some qc → qc.parent = some p →
    s.nodes p = some qp → getChild qp b = some c

/-- Every tracked item is held in the subtree that routing from the root selects, level
by level, for its bound. -/
def Pathed (s : Heap) : Prop :=
  ∀ i m, (s.items i).qt = some m → PathOK s m (s.items i).bound

/-- The root's region is `B`. -/
def RootBox (B : Rect) (s : Heap) : Prop := ∃ q, s.nodes 0 = some q ∧ q.bounds = B

/-! ## Basic facts about the store -/

@[simp] theorem setNode_nodes (s : Heap) (n : Nat) (q : QuadTree) (m : Nat) :
    (s.setNode n q).nodes m = if m = n then some q else s.nodes m := rfl
@[simp] theorem setNode_items (s : Heap) (n : Nat) (q : QuadTree) : (s.setNode n q).items = s.items := rfl
@[simp] theorem setNode_next (s : Heap) (n : Nat) (q : QuadTree) : (s.setNode n q).next = s.next := rfl
@[simp] theorem setQt_nodes (s : Heap) (i : Nat) (v : Option Nat) : (s.setQt i v).nodes = s.nodes := rfl
@[simp] theorem setQt_next (s : Heap) (i : Nat) (v : Option Nat) : (s.setQt i v).next = s.next := rfl
@[simp] theorem setQt_qt (s : Heap) (i : Nat) (v : Option Nat) (j : Nat) :
    ((s.setQt i v).items j).qt = if j = i then v else (s.items j).qt := by
  unfold Heap.setQt; by_cases h : j = i <;> simp [h]
@[simp] theorem setQt_bound (s : Heap) (i : Nat) (v : Option Nat) (j : Nat) :
    ((s.setQt i v).items j).bound = (s.items j).bound := by
  unfold Heap.setQt; by_cases h : j = i <;> simp [h]

/-! ### Fuel monotonicity -/

theorem forEach_mono {step step2 : Heap → Nat → Option Heap}
    (h : ∀ s c r, step s c = some r → step2 s c = some r) :
    ∀ (cs : List Nat) (s r : Heap), forEach step s cs = some r → forEach step2 s cs = some r := by
  intro cs
  induction cs with
  | nil => intro s r hr; simpa [forEach] using hr
  | cons c rest ih =>
    intro s r hr
    simp only [forEach] at hr ⊢
    cases hc : step s c with
    | none => simp [hc] at hr
    | some s1 =>
      rw [hc] at hr
      rw [h s c s1 hc]
      exact ih s1 r hr

theorem clear_mono : ∀ (f : Nat) (s : Heap) (n : Nat) (r : Heap),
    clear f s n = some r → clear (f + 1) s n = some r := by
  intro f
  induction f with
  | zero => intro s n r h; simp [clear] at h
  | succ f ih =>
    intro s n r h
    rw [clear] at h ⊢
    split at h
    · exact absurd h (by simp)
    · dsimp only at h ⊢
      split at h
      · rename_i hl; rw [if_pos hl]; exact h
      · rename_i hl; rw [if_neg hl]
        split at h
        · exact absurd h (by simp)
        · split at h
          · exact absurd h (by simp)
          · rename_i s2 hfe
            rw [forEach_mono (fun s c r hr => ih s c r hr) _ _ s2 hfe]
            exact h

theorem clear_mono_le {f g : Nat} (hfg : f ≤ g) {s : Heap} {n : Nat} {r : Heap}
    (h : clear f s n = some r) : clear g s n = some r := by
  induction hfg with
  | refl => exact h
  | step _ ih => exact clear_mono _ _ _ _ ih

theorem discard_mono : ∀ (f : Nat) (s : Heap) (n : Nat) (r : Heap),
    discardEmptyBuckets f s n = some r → discardEmptyBuckets (f + 1) s n = some r := by
  intro f
  induction f with
  | zero => intro s n r h; simp [discardEmptyBuckets] at h
  | succ f ih =>
    intro s n r h
    rw [discardEmptyBuckets] at h ⊢
    split at h
    · exact absurd h (by simp)
    · split at h
      · rename_i hl; rw [if_pos hl]; exact h
      · rename_i hl; rw [if_neg hl]
        split at h
        · exact absurd h (by simp)
        · exact h
        · split at h
          · exact absurd h (by simp)
          · rename_i s1 hc
            rw [clear_mono _ _ _ _ hc]; dsimp only
            split at h
            · exact absurd h (by simp)
            · split at h
              · exact h
              · exact ih _ _ _ h

theorem remove_mono : ∀ (f : Nat) (s : Heap) (n obj : Nat) (r : Bool × Heap),
    remove f s n obj = some r → remove (f + 1) s n obj = some r := by
  intro f
  induction f with
  | zero => intro s n obj r h; simp [remove] at h
  | succ f ih =>
    intro s n obj r h
    rw [remove] at h ⊢
    split at h
    · exact h
    · split at h
      · rename_i hl; rw [if_pos hl]; exact ih _ _ _ _ h
      · rename_i hl; rw [if_neg hl]
        split at h
        · exact absurd h (by simp)
        · split at h
          · rename_i hm; rw [if_pos hm]
            split at h
            · exact absurd h (by simp)
            · rename_i s2 hd
              rw [discard_mono _ _ _ _ hd]; exact h
          · exact absurd h (by simp)

theorem insert_update_mono : ∀ (f : Nat),
    (∀ (s : Heap) (n obj : Nat) (r : Bool × Heap),
      insert f s n obj = some r → insert (f + 1) s n obj = some r) ∧
    (∀ (s : Heap) (n obj : Nat) (r : Bool × Heap),
      update f s n obj = some r → update (f + 1) s n obj = some r) := by
  intro f
  induction f with
  | zero => constructor <;> intro s n obj r h <;> simp [insert, update] at h
  | succ f ih =>
    constructor
    · intro s n obj r h
      rw [insert] at h ⊢
      split at h
      · rename_i hl; rw [if_pos hl]; exact h
      · rename_i hl; rw [if_neg hl]
        split at h
        · exact absurd h (by simp)
        · split at h
          · exact ih.1 _ _ _ _ h
          · dsimp only at h ⊢
            split at h
            · rename_i hc; rw [if_pos hc]
              split at h
              · exact absurd h (by simp)
              · split at h
                · exact absurd h (by simp)
                · rename_i r2 hu
                  rw [ih.2 _ _ _ _ hu]; exact h
            · rename_i hc; rw [if_neg hc]; exact h
    · intro s n obj r h
      rw [update] at h ⊢
      split at h
      · exact absurd h (by simp)
      · rename_i s1 hr
        rw [remove_mono _ _ _ _ _ hr]; exact h
      · rename_i s1 hr
        rw [remove_mono _ _ _ _ _ hr]; dsimp only
        split at h
        · exact absurd h (by simp)
        · split at h
          · rename_i hc; rw [if_pos hc]
            split at h
            · exact absurd h (by simp)
            · exact ih.1 _ _ _ _ h
          · rename_i hc; rw [if_neg hc]
            split at h
            · exact ih.1 _ _ _ _ h
            · exact ih.1 _ _ _ _ h

theorem heap_ext {s t : Heap} (h1 : ∀ n, s.nodes n = t.nodes n) (h2 : s.next = t.next)
    (h3 : ∀ i, s.items i = t.items i) : s = t := by
  cases s; cases t
  simp only [Heap.mk.injEq]
  exact ⟨funext h1, h2, funext h3⟩

theorem setNode_same {s : Heap} {n : Nat} {q : QuadTree} (h : s.nodes n = some q) :
    s.setNode n q = s := by
  apply heap_ext
  · intro m; by_cases hm : m = n <;> simp [hm, h]
  · rfl
  · intro i; rfl

theorem kids_eq_some {q : QuadTree} {cs : List Nat} :
    q.kids = some cs ↔ q.children.length = 4 ∧ cs = q.children := by
  unfold QuadTree.kids
  by_cases h : q.children.length = 4 <;> simp [h, eq_comm]

theorem isEmpty_eq_true_iff {l : List Nat} : l.isEmpty = true ↔ l = [] := by
  cases l <;> simp

theorem dropObjects_empty (s : Heap) (n : Nat) {q : QuadTree} (he : q.objects = []) :
    s.dropObjects n q = s := by
  unfold Heap.dropObjects; simp [he]

theorem clear_leaf_empty {s : Heap} {n : Nat} {q : QuadTree} (hq : s.nodes n = some q)
    (hl : q.isLeaf = true) (he : q.objects = []) (f : Nat) : clear (f + 1) s n = some s := by
  rw [clear]; simp [hq, hl, dropObjects_empty s n he]

theorem clear_idle {s : Heap} {n : Nat} (h : Idle s n) (f : Nat) : clear (f + 1) s n = some s := by
  obtain ⟨q, hq, hl, he⟩ := h
  exact clear_leaf_empty hq hl he f

theorem forEach_clear_idle (f : Nat) (s : Heap) :
    ∀ cs : List Nat, (∀ c ∈ cs, Idle s c) →
      forEach (fun st c => clear (f + 1) st c) s cs = some s := by
  intro cs
  induction cs with
  | nil => intro _; rfl
  | cons c rest ih =>
    intro h
    simp only [forEach]
    rw [clear_idle (h c (List.mem_cons_self _ _)) f]
    exact ih fun c hc => h c (List.mem_cons_of_mem _ hc)

theorem anyBusy_false {s : Heap} : ∀ {cs : List Nat},
    anyBusy s cs = some false ↔ ∀ c ∈ cs, Idle s c := by
  intro cs
  induction cs with
  | nil => simp [anyBusy]
  | cons c rest ih =>
    rw [anyBusy]
    simp only [List.mem_cons, forall_eq_or_imp]
    cases hc : s.nodes c with
    | none => simp [Idle, hc]
    | some qc =>
      by_cases hl : qc.isLeaf = true
      · cases hqo : qc.objects with
        | nil =>
          simp only [hl, hqo, Bool.not_true, List.isEmpty_nil, Bool.or_self, Bool.false_eq_true,
            if_false, ih]
          exact ⟨fun h => ⟨⟨qc, hc, hl, hqo⟩, h⟩, fun h => h.2⟩
        | cons a l =>
          simp only [hl, hqo, Bool.not_true, List.isEmpty_cons, Bool.not_false, Bool.or_true,
            if_true]
          constructor
          · intro h; simp at h
          · rintro ⟨⟨q2, h2, _, he⟩, _⟩
            rw [hc] at h2; cases h2
            rw [hqo] at he; cases he
      · have hl2 : qc.isLeaf = false := by simpa using hl
        simp only [hl2, Bool.not_false, Bool.true_or, if_true]
        constructor
        · intro h; simp at h
        · rintro ⟨⟨q2, h2, hl3, _⟩, _⟩
          rw [hc] at h2; cases h2
          exact absurd hl3 hl

theorem clear_collapsible {s : Heap} {n : Nat} {q : QuadTree} (hq : s.nodes n = some q)
    (hc : Collapsible s q) (f : Nat) :
    clear (f + 2) s n = some (s.setNode n q.asLeaf) := by
  obtain ⟨he, hk⟩ := hc
  rw [clear]
  simp only [hq, dropObjects_empty s n he]
  by_cases hl : q.isLeaf = true
  · simp only [hl, if_true]
    have : q.asLeaf = q := by cases q; simp_all [QuadTree.asLeaf]
    rw [this, setNode_same hq]
  · rcases hk with hk | ⟨h4, hk⟩
    · exact absurd hk hl
    · have hkids : q.kids = some q.children := kids_eq_some.2 ⟨h4, rfl⟩
      simp only [hl, hkids, forEach_clear_idle f s q.children hk, hq]
      rfl

theorem clear_collapsible_inv {s s1 : Heap} {n : Nat} {q : QuadTree} (hq : s.nodes n = some q)
    (hc : Collapsible s q) {f : Nat} (h : clear f s n = some s1) :
    s1 = s.setNode n q.asLeaf := by
  have h1 := clear_mono_le (Nat.le_add_right f 2) h
  have h2 := clear_mono_le (Nat.le_add_left 2 f) (clear_collapsible hq hc 0)
  rw [h1] at h2
  exact Option.some.inj h2

theorem discard_inv {f : Nat} {s s2 : Heap} {n : Nat}
    (h : discardEmptyBuckets (f + 1) s n = some s2) :
    ∃ q, s.nodes n = some q ∧
      ((¬ Collapsible s q ∧ s2 = s) ∨
       (Collapsible s q ∧
          ((q.parent = none ∧ s2 = s.setNode n q.asLeaf) ∨
           ∃ p, q.parent = some p ∧ discardEmptyBuckets f (s.setNode n q.asLeaf) p = some s2))) := by
  rw [discardEmptyBuckets] at h
  split at h
  · exact absurd h (by simp)
  · rename_i q hq
    refine ⟨q, hq, ?_⟩
    split at h
    · rename_i hne
      left
      refine ⟨fun hc => ?_, (Option.some.inj h).symm⟩
      simp [hc.1] at hne
    · rename_i hne
      have he : q.objects = [] := by
        cases hqo : q.objects with
        | nil => rfl
        | cons a l => simp [hqo] at hne
      split at h
      · exact absurd h (by simp)
      · rename_i hb
        left
        refine ⟨fun hc => ?_, (Option.some.inj h).symm⟩
        rcases hc.2 with hl | ⟨h4, hk⟩
        · simp [hl] at hb
        · by_cases hl : q.isLeaf = true
          · simp [hl] at hb
          · simp only [hl, if_false, kids_eq_some.2 ⟨h4, rfl⟩, Option.some_bind] at hb
            rw [anyBusy_false.2 hk] at hb
            simp at hb
      · rename_i hb
        have hc : Collapsible s q := by
          refine ⟨he, ?_⟩
          by_cases hl : q.isLeaf = true
          · exact Or.inl hl
          · right
            simp only [hl, if_false] at hb
            cases hk : q.kids with
            | none => simp [hk] at hb
            | some cs =>
              obtain ⟨h4, rfl⟩ := kids_eq_some.1 hk
              simp only [hk, Option.some_bind] at hb
              exact ⟨h4, anyBusy_false.1 hb⟩
        right
        refine ⟨hc, ?_⟩
        split at h
        · exact absurd h (by simp)
        · rename_i s1 hcl
          have hs1 := clear_collapsible_inv hq hc hcl
          subst hs1
          simp only [setNode_nodes, if_true] at h
          cases hp : q.parent with
          | none =>
            left
            have hpar : q.asLeaf.parent = none := hp
            simp only [hpar] at h
            exact ⟨rfl, (Option.some.inj h).symm⟩
          | some p =>
            right
            have hpar : q.asLeaf.parent = some p := hp
            simp only [hpar] at h
            exact ⟨p, rfl, h⟩

theorem subdivide_nodes {s s2 : Heap} {n : Nat} (h : subdivide s n = some s2) :
    ∃ q, s.nodes n = some q ∧ s2.next = s.next + 4 ∧ s2.items = s.items ∧
      s2.nodes n = some { q with children := [s.next, s.next + 1, s.next + 2, s.next + 3],
                                 isLeaf := false } ∧
      (∀ m, m ≠ n → m < s.next → s2.nodes m = s.nodes m) ∧
      (∀ m, s.next + 4 ≤ m → m ≠ n → s2.nodes m = s.nodes m) ∧
      (∀ i, i < 4 → s.next + i ≠ n → s2.nodes (s.next + i) = some (q.newChild n i)) := by
  unfold subdivide at h
  split at h
  · exact absurd h (by simp)
  · rename_i q hq
    refine ⟨q, hq, ?_⟩
    have h2 := (Option.some.inj h).symm
    subst h2
    refine ⟨rfl, rfl, by simp, ?_, ?_, ?_⟩
    · intro m hm hlt
      have h0 : m ≠ s.next := by omega
      have h1 : m ≠ s.next + 1 := by omega
      have h2 : m ≠ s.next + 2 := by omega
      have h3 : m ≠ s.next + 3 := by omega
      simp [hm, h0, h1, h2, h3]
    · intro m hlt hm
      have h0 : m ≠ s.next := by omega
      have h1 : m ≠ s.next + 1 := by omega
      have h2 : m ≠ s.next + 2 := by omega
      have h3 : m ≠ s.next + 3 := by omega
      simp [hm, h0, h1, h2, h3]
    · intro i hi hne
      have hi4 : i = 0 ∨ i = 1 ∨ i = 2 ∨ i = 3 := by omega
      rcases hi4 with rfl | rfl | rfl | rfl <;> simp_all

theorem subdivide_isSome {s : Heap} {n : Nat} {q : QuadTree} (h : s.nodes n = some q) :
    ∃ s2, subdivide s n = some s2 := by
  unfold subdivide; rw [h]; exact ⟨_, rfl⟩

@[simp] theorem link_nodes (s : Heap) (n : Nat) (q : QuadTree) (obj m : Nat) :
    (s.link n q obj).nodes m =
      if m = n then some { q with objects := q.objects ++ [obj] } else s.nodes m := rfl

@[simp] theorem link_next (s : Heap) (n : Nat) (q : QuadTree) (obj : Nat) :
    (s.link n q obj).next = s.next := rfl

@[simp] theorem link_qt (s : Heap) (n : Nat) (q : QuadTree) (obj j : Nat) :
    ((s.link n q obj).items j).qt = if j = obj then some n else (s.items j).qt := by
  unfold Heap.link; simp

@[simp] theorem link_bound (s : Heap) (n : Nat) (q : QuadTree) (obj j : Nat) :
    ((s.link n q obj).items j).bound = (s.items j).bound := by
  unfold Heap.link; simp

@[simp] theorem unlink_nodes (s : Heap) (n : Nat) (q : QuadTree) (obj m : Nat) :
    (s.unlink n q obj).nodes m =
      if m = n then some { q with objects := q.objects.erase obj } else s.nodes m := rfl

@[simp] theorem unlink_next (s : Heap) (n : Nat) (q : QuadTree) (obj : Nat) :
    (s.unlink n q obj).next = s.next := rfl

@[simp] theorem unlink_qt (s : Heap) (n : Nat) (q : QuadTree) (obj j : Nat) :
    ((s.unlink n q obj).items j).qt = if j = obj then none else (s.items j).qt := by
  unfold Heap.unlink; simp

@[simp] theorem unlink_bound (s : Heap) (n : Nat) (q : QuadTree) (obj j : Nat) :
    ((s.unlink n q obj).items j).bound = (s.items j).bound := by
  unfold Heap.unlink; simp

theorem remove_inv {f : Nat} {s : Heap} {this obj : Nat} {r : Bool × Heap}
    (h : remove (f + 1) s this obj = some r) :
    ((s.items obj).qt = none ∧ r = (false, s)) ∨
    (∃ owner, (s.items obj).qt = some owner ∧ owner ≠ this ∧ remove f s owner obj = some r) ∨
    ((s.items obj).qt = some this ∧ ∃ q s2, s.nodes this = some q ∧ obj ∈ q.objects ∧
      discardEmptyBuckets f (s.unlink this q obj) this = some s2 ∧ r = (true, s2)) := by
  rw [remove] at h
  split at h
  · rename_i hqt
    exact Or.inl ⟨hqt, (Option.some.inj h).symm⟩
  · rename_i owner hqt
    right
    split at h
    · rename_i hne
      exact Or.inl ⟨owner, hqt, hne, h⟩
    · rename_i hne
      have hne : owner = this := by simpa using hne
      subst hne
      right
      refine ⟨hqt, ?_⟩
      split at h
      · exact absurd h (by simp)
      · rename_i q hq
        split at h
        · rename_i hm
          split at h
          · exact absurd h (by simp)
          · rename_i s2 hd
            exact ⟨q, s2, hq, hm, hd, (Option.some.inj h).symm⟩
        · exact absurd h (by simp)

theorem insert_inv {f : Nat} {s : Heap} {this obj : Nat} {r : Bool × Heap}
    (h : insert (f + 1) s this obj = some r) :
    ((s.items obj).qt.isSome = true ∧ r = (false, s)) ∨
    ((s.items obj).qt = none ∧ ∃ q, s.nodes this = some q ∧
      ((∃ c, q.route (s.items obj).bound = some c ∧ insert f s c obj = some r) ∨
       (q.route (s.items obj).bound = none ∧
         ((¬ q.mustSplit ∧ r = (true, s.link this q obj)) ∨
          (q.mustSplit ∧ ∃ s2 r2, subdivide (s.link this q obj) this = some s2 ∧
             update f s2 this obj = some r2 ∧ r = (true, r2.2)))))) := by
  rw [insert] at h
  split at h
  · rename_i hqt
    exact Or.inl ⟨hqt, (Option.some.inj h).symm⟩
  · rename_i hqt
    right
    refine ⟨by simpa using hqt, ?_⟩
    split at h
    · exact absurd h (by simp)
    · rename_i q hq
      refine ⟨q, hq, ?_⟩
      split at h
      · rename_i c hc
        exact Or.inl ⟨c, hc, h⟩
      · rename_i hc
        right
        refine ⟨hc, ?_⟩
        dsimp only at h
        split at h
        · rename_i hcond
          right
          simp only [Bool.and_eq_true, decide_eq_true_eq, List.length_append,
            List.length_singleton] at hcond
          refine ⟨⟨hcond.1.1, hcond.1.2, hcond.2⟩, ?_⟩
          split at h
          · exact absurd h (by simp)
          · rename_i s2 hsub
            split at h
            · exact absurd h (by simp)
            · rename_i r2 hu
              exact ⟨s2, r2, hsub, hu, (Option.some.inj h).symm⟩
        · rename_i hcond
          left
          simp only [Bool.and_eq_true, decide_eq_true_eq, List.length_append,
            List.length_singleton] at hcond
          exact ⟨fun hm => hcond ⟨⟨hm.1, hm.2.1⟩, hm.2.2⟩, (Option.some.inj h).symm⟩

theorem update_inv {f : Nat} {s : Heap} {this obj : Nat} {r : Bool × Heap}
    (h : update (f + 1) s this obj = some r) :
    ∃ b s1, remove f s this obj = some (b, s1) ∧
      ((b = false ∧ r = (false, s1)) ∨
       (b = true ∧ ∃ q, s1.nodes this = some q ∧
         ((∃ p, q.parent = some p ∧ q.bounds.contains (s1.items obj).bound = false ∧
             insert f s1 p obj = some r) ∨
          ((q.parent = none ∨ q.bounds.contains (s1.items obj).bound = true) ∧
            ((∃ c, q.route (s1.items obj).bound = some c ∧ insert f s1 c obj = some r) ∨
             (q.route (s1.items obj).bound = none ∧ insert f s1 this obj = some r)))))) := by
  rw [update] at h
  split at h
  · exact absurd h (by simp)
  · rename_i s1 hr
    exact ⟨false, s1, hr, Or.inl ⟨rfl, (Option.some.inj h).symm⟩⟩
  · rename_i s1 hr
    refine ⟨true, s1, hr, Or.inr ⟨rfl, ?_⟩⟩
    split at h
    · exact absurd h (by simp)
    · rename_i q hq
      refine ⟨q, hq, ?_⟩
      split at h
      · rename_i hcond
        simp only [Bool.and_eq_true, Bool.not_eq_true'] at hcond
        left
        split at h
        · exact absurd h (by simp)
        · rename_i p hp
          exact ⟨p, hp, hcond.2, h⟩
      · rename_i hcond
        right
        constructor
        · simp only [Bool.and_eq_true, Bool.not_eq_true', not_and, Bool.not_eq_false] at hcond
          cases hp : q.parent with
          | none => exact Or.inl rfl
          | some p => exact Or.inr (hcond (by simp [hp]))
        · split at h
          · rename_i c hc
            exact Or.inl ⟨c, hc, h⟩
          · rename_i hc
            exact Or.inr ⟨hc, h⟩

theorem route_leaf {q : QuadTree} (h : q.isLeaf = true) (b : Rect) : q.route b = none := by
  simp [QuadTree.route, h]

theorem insert_root_no_result : ∀ (f : Nat) (s : Heap) (obj : Nat) (q : QuadTree)
    (r : Bool × Heap), insert f s 0 obj = some r →
    s.nodes 0 = some q → q.isLeaf = true → q.objects = [] → q.parent = none →
    q.level < q.maxLevel → q.capacity ≤ 1 → (s.items obj).qt = none → 0 < s.next → False := by
  intro f
  induction f using Nat.strong_induction_on with
  | _ f ih =>
      intro s obj q r hres hq hl he hp hlev hcap hqt hnext
      cases f with
      | zero => simp [insert] at hres
      | succ f =>
      rcases insert_inv hres with ⟨h1, _⟩ | ⟨_, q', hq', hcase⟩
      · simp [hqt] at h1
      rw [hq] at hq'; cases hq'
      rw [route_leaf hl] at hcase
      rcases hcase with ⟨c, hc, _⟩ | ⟨_, hcase⟩
      · simp at hc
      rcases hcase with ⟨hns, _⟩ | ⟨_, s2, r2, hsub, hupd, _⟩
      · exact hns ⟨hl, hlev, by simp [he]; exact hcap⟩
      obtain ⟨q1, hq1, hn2, hi2, hq2, _, _, hkids⟩ := subdivide_nodes hsub
      simp only [link_nodes, if_true, he, List.nil_append] at hq1
      cases hq1
      simp only [link_next] at hn2 hq2 hkids
      cases f with
      | zero => simp [update] at hupd
      | succ f =>
      obtain ⟨b, s4, hrem, hcase⟩ := update_inv hupd
      cases f with
      | zero => simp [remove] at hrem
      | succ f =>
      have hqt2 : (s2.items obj).qt = some 0 := by rw [hi2]; simp
      rcases remove_inv hrem with ⟨h1, _⟩ | ⟨o, h1, h2, _⟩ | ⟨_, q2, s4', hq2', hmem, hdis, hr⟩
      · rw [hqt2] at h1; cases h1
      · rw [hqt2] at h1; cases h1; exact h2 rfl
      rw [hq2] at hq2'; cases hq2'
      cases hr
      cases f with
      | zero => simp [discardEmptyBuckets] at hdis
      | succ f =>
      obtain ⟨q3, hq3, hcase3⟩ := discard_inv hdis
      simp only [unlink_nodes, if_true, List.erase_cons_head] at hq3
      cases hq3
      have hcol : Collapsible (s2.unlink 0
          { q with objects := [obj], children := [s.next, s.next + 1, s.next + 2, s.next + 3],
                   isLeaf := false } obj)
          { q with objects := [], children := [s.next, s.next + 1, s.next + 2, s.next + 3],
                   isLeaf := false } := by
        refine ⟨rfl, Or.inr ⟨rfl, ?_⟩⟩
        intro c hc
        have hc0 : c ≠ 0 := by
          simp only [List.mem_cons, List.mem_singleton, List.not_mem_nil, or_false] at hc
          omega
        have hci : ∃ i, i < 4 ∧ c = s.next + i := by
          simp only [List.mem_cons, List.mem_singleton, List.not_mem_nil, or_false] at hc
          rcases hc with rfl | rfl | rfl | rfl
          · exact ⟨0, by omega, rfl⟩
          · exact ⟨1, by omega, rfl⟩
          · exact ⟨2, by omega, rfl⟩
          · exact ⟨3, by omega, rfl⟩
        obtain ⟨i, hi, rfl⟩ := hci
        have hk := hkids i hi hc0
        exact ⟨_, by rw [unlink_nodes, if_neg hc0]; exact hk, rfl, rfl⟩
      rcases hcase3 with ⟨hnc, _⟩ | ⟨_, hcase3⟩
      · exact hnc hcol
      rcases hcase3 with ⟨_, hs4⟩ | ⟨p, hp', _⟩
      swap
      · rw [hp] at hp'; cases hp'
      subst hs4
      rcases hcase with ⟨hb, _⟩ | ⟨_, q4, hq4, hcase⟩
      · cases hb
      simp only [setNode_nodes, if_true] at hq4
      cases hq4
      rcases hcase with ⟨p, hp', _⟩ | ⟨_, hcase⟩
      · simp [QuadTree.asLeaf, hp] at hp'
      rcases hcase with ⟨c, hc, _⟩ | ⟨_, hins⟩
      · simp [QuadTree.route, QuadTree.asLeaf] at hc
      exact ih (f + 1 + 1) (by omega) _ obj _ _ hins
        (setNode_nodes _ 0 _ 0 |>.trans (if_pos rfl)) rfl rfl hp hlev hcap
        (by simp) (by simp [hn2])

/-- With capacity at most one, `insert` on an empty leaf root that may still
subdivide never returns: the `update` that follows `subdivide` discards the fresh
children again, and the re-insertion starts over. -/
theorem insert_root_diverges (f : Nat) (s : Heap) (obj : Nat) (q : QuadTree)
    (hq : s.nodes 0 = some q) (hl : q.isLeaf = true) (he : q.objects = [])
    (hp : q.parent = none) (hlev : q.level < q.maxLevel) (hcap : q.capacity ≤ 1)
    (hqt : (s.items obj).qt = none) (hnext : 0 < s.next) : insert f s 0 obj = none := by
  cases hres : insert f s 0 obj with
  | none => rfl
  | some r => exact (insert_root_no_result f s obj q r hres hq hl he hp hlev hcap hqt hnext).elim

/-- C5. Rejected operations are atomic: `insert` of an item that is already tracked
returns `false`, `remove` and `update` of an untracked item return `false`, and the
state returned is the state the call started from (every node, every list, every
owner). -/
theorem C5_rejected_calls_leave_state (fuel : Nat) (s : Heap) (this obj : Nat) :
    ((s.items obj).qt ≠ none → insert (fuel + 1) s this obj = some (false, s)) ∧
    ((s.items obj).qt = none →
      remove (fuel + 1) s this obj = some (false, s) ∧
      update (fuel + 2) s this obj = some (false, s)) := by
  constructor
  · intro h
    rw [insert]
    cases hq : (s.items obj).qt with
    | none => exact absurd hq h
    | some n => simp
  · intro h
    have hr : ∀ f, remove (f + 1) s this obj = some (false, s) := by
      intro f; rw [remove]; simp [h]
    refine ⟨hr fuel, ?_⟩
    rw [update, hr fuel]

theorem C5_witness :
    insert 1 (finalHeap 10 e1Init e1Calls) 0 2 = some (false, finalHeap 10 e1Init e1Calls) ∧
    remove 1 e1Init 0 2 = some (false, e1Init) ∧ update 2 e1Init 0 2 = some (false, e1Init) :=
  ⟨(C5_rejected_calls_leave_state 0 (finalHeap 10 e1Init e1Calls) 0 2).1 (by decide!),
   (C5_rejected_calls_leave_state 0 e1Init 0 2).2 (by decide!)⟩

/-- C9. Scenario E1-E2: after the three inserts (all returning `true`)
`totalObjects()` is 3 and `totalChildren()` is 4; after moving the third item to
`{92,92,5,5}` and `update` on the root (returning `true`), the query over
`{85,85,20,20}` returns exactly the second and third items, and not the first. -/
theorem C9_scenario_E1_E2 :
    (observe 10 e1Init e1Calls ⟨85, 85, 20, 20⟩).map (fun o => (o.1, o.2.1, o.2.2.1))
      = some ([true, true, true], some 3, some 4) ∧
    (observe 10 e1Init e2Calls ⟨85, 85, 20, 20⟩).map (fun o => (o.1, o.2.2.2))
      = some ([true, true, true, true, true], some [1, 2]) := by
  constructor <;> decide!

/-- C3. With capacity 1 and max depth 1, `insert` of the first item into the empty
root does not return, whatever the recursion budget. -/
theorem C3_insert_capacity_one_diverges (fuel : Nat) :
    insert fuel (Heap.init ⟨0, 0, 100, 100⟩ 1 1 fun _ => ⟨10, 10, 5, 5⟩) 0 0 = none :=
  insert_root_diverges fuel _ 0 _ rfl rfl rfl rfl (by decide) (by decide) rfl (by decide)

/-- C1, as stated, fails for an item outside the root's region: after inserting the
items `{10,10,5,5}` and `{-20,10,5,5}` (both inserts return `true`) the query with
the free-standing rectangle `{-30,10,20,60}` returns nothing, although the second
item is tracked and its bound intersects the rectangle. -/
theorem C1_counterexample :
    (observe 10 (Heap.init ⟨0, 0, 100, 100⟩ 2 4 outBounds) [.insert 0, .insert 1]
        ⟨-30, 10, 20, 60⟩).map (fun o => (o.1, o.2.2.2)) = some ([true, true], some []) ∧
    ((finalHeap 10 (Heap.init ⟨0, 0, 100, 100⟩ 2 4 outBounds) [.insert 0, .insert 1]).items 1).qt
      ≠ none ∧
    ((finalHeap 10 (Heap.init ⟨0, 0, 100, 100⟩ 2 4 outBounds)
        [.insert 0, .insert 1]).items 1).bound.intersects ⟨-30, 10, 20, 60⟩ = true := by
  refine ⟨?_, ?_, ?_⟩ <;> decide!

theorem sameFrame_refl (q : QuadTree) : SameFrame q q :=
  ⟨Eq.refl _, Eq.refl _, Eq.refl _, Eq.refl _, Eq.refl _, Eq.refl _⟩

theorem WF0.parent_ne {C D : Nat} {s : Heap} (h : WF0 C D s) {n : Nat} {q : QuadTree}
    (hq : s.nodes n = some q) : q.parent ≠ some n := by
  intro hp
  obtain ⟨qp, hqp, hlev⟩ := h.par n q n hq hp
  rw [hq] at hqp; cases hqp
  omega

/-- Replacing the `isLeaf` flag and the object list of one node, together with the
owner pointers, keeps the store well-formed when ownership stays consistent, a
node that becomes a leaf has idle children only, and a busy node is attached. -/
theorem WF0.modify {C D : Nat} {s t : Heap} (h : WF0 C D s) {n : Nat} {q w : QuadTree}
    (hq : s.nodes n = some q) (hnodes : ∀ m, t.nodes m = if m = n then some w else s.nodes m)
    (hnext : t.next = s.next) (hframe : SameFrame q w)
    (hleaf : w.isLeaf = q.isLeaf ∨ (w.isLeaf = true ∧ ∀ c ∈ q.children, Idle s c))
    (hbusy : w.busy → Attached s n) (hnodup : w.objects.Nodup)
    (hown1 : ∀ i, (t.items i).qt = some n → i ∈ w.objects)
    (hown2 : ∀ i m, m ≠ n → ((t.items i).qt = some m ↔ (s.items i).qt = some m))
    (hown3 : ∀ i, i ∈ w.objects → (t.items i).qt = some n) : WF0 C D t := by
  obtain ⟨hlv, hcap, hmax, hbd, hpar, hch⟩ := hframe
  have hnode : ∀ m qm, t.nodes m = some qm →
      (m = n ∧ qm = w) ∨ (m ≠ n ∧ s.nodes m = some qm) := by
    intro m qm hm
    rw [hnodes] at hm
    by_cases hmn : m = n
    · rw [if_pos hmn] at hm; exact Or.inl ⟨hmn, (Option.some.inj hm).symm⟩
    · rw [if_neg hmn] at hm; exact Or.inr ⟨hmn, hm⟩
  have hvalid : ∀ m qm, s.nodes m = some qm → ∃ qm2, t.nodes m = some qm2 ∧ SameFrame qm qm2 := by
    intro m qm hm
    by_cases hmn : m = n
    · subst hmn
      rw [hq] at hm; cases hm
      exact ⟨w, by rw [hnodes, if_pos rfl], hlv, hcap, hmax, hbd, hpar, hch⟩
    · exact ⟨qm, by rw [hnodes, if_neg hmn]; exact hm, sameFrame_refl _⟩
  have hold : ∀ m qm, t.nodes m = some qm → ∃ qm0, s.nodes m = some qm0 ∧ SameFrame qm0 qm ∧
      (qm.isLeaf = false → qm0.isLeaf = false) := by
    intro m qm hm
    rcases hnode m qm hm with ⟨rfl, rfl⟩ | ⟨_, hs⟩
    · refine ⟨q, hq, ⟨hlv, hcap, hmax, hbd, hpar, hch⟩, fun hl => ?_⟩
      rcases hleaf with h1 | ⟨h1, _⟩
      · rw [← h1]; exact hl
      · rw [h1] at hl; cases hl
    · exact ⟨qm, hs, sameFrame_refl _, id⟩
  have hatt : ∀ m qm, t.nodes m = some qm → qm.busy → Attached s m → Attached t m := by
    intro m qm hm hb hatt
    rcases hatt with h0 | ⟨qm0, p, qp, hm0, hp, hqp, hpl, hmem⟩
    · exact Or.inl h0
    · right
      obtain ⟨qm', hm', hf'⟩ := hvalid m qm0 hm0
      rw [hm] at hm'; cases hm'
      by_cases hpn : p = n
      · subst hpn
        rw [hq] at hqp; cases hqp
        refine ⟨qm, p, w, hm, hf'.2.2.2.2.1.trans hp, by rw [hnodes, if_pos rfl], ?_,
          by rw [hch]; exact hmem⟩
        rcases hleaf with h1 | ⟨_, hidle⟩
        · rw [h1]; exact hpl
        · exfalso
          obtain ⟨qc, hqc, hcl, hce⟩ := hidle m hmem
          have hmp : m ≠ p := by
            intro hmp; subst hmp
            rw [hq] at hm0; cases hm0
            exact h.parent_ne hq hp
          rw [hnodes, if_neg hmp, hqc] at hm; cases hm
          rcases hb with hb | hb
          · rw [hcl] at hb; cases hb
          · exact hb hce
      · exact ⟨qm, p, qp, hm, hf'.2.2.2.2.1.trans hp, by rw [hnodes, if_neg hpn]; exact hqp,
          hpl, hmem⟩
  constructor
  · intro m hm
    rw [hnodes]
    rw [hnext] at hm
    have hmn : m ≠ n := by
      intro hmn; subst hmn
      rw [h.fresh m hm] at hq; cases hq
    rw [if_neg hmn]; exact h.fresh m hm
  · obtain ⟨q0, hq0, hp0, hl0⟩ := h.root
    obtain ⟨q02, hq02, hf⟩ := hvalid 0 q0 hq0
    exact ⟨q02, hq02, hf.2.2.2.2.1.trans hp0, hf.1.trans hl0⟩
  · intro m qm hm
    obtain ⟨qm0, hm0, hf, _⟩ := hold m qm hm
    obtain ⟨h1, h2⟩ := h.conf m qm0 hm0
    exact ⟨hf.2.1.trans h1, hf.2.2.1.trans h2⟩
  · intro m qm p hm hp
    obtain ⟨qm0, hm0, hf, _⟩ := hold m qm hm
    obtain ⟨qp, hqp, hlev⟩ := h.par m qm0 p hm0 (hf.2.2.2.2.1.symm.trans hp)
    obtain ⟨qp2, hqp2, hfp⟩ := hvalid p qp hqp
    exact ⟨qp2, hqp2, by rw [hf.1, hfp.1]; exact hlev⟩
  · intro m qm hm hl
    obtain ⟨qm0, hm0, hf, hl0⟩ := hold m qm hm
    obtain ⟨h1, h2, h3, h4⟩ := h.kids m qm0 hm0 (hl0 hl)
    refine ⟨by rw [hf.1]; exact h1, by rw [hf.2.2.2.2.2]; exact h2,
      by rw [hf.2.2.2.2.2]; exact h3, fun c hc => ?_⟩
    rw [hf.2.2.2.2.2] at hc
    obtain ⟨qc, hqc, hcp⟩ := h4 c hc
    obtain ⟨qc2, hqc2, hfc⟩ := hvalid c qc hqc
    exact ⟨qc2, hqc2, hfc.2.2.2.2.1.trans hcp⟩
  · intro m qm hm hl i c hic
    obtain ⟨qm0, hm0, hf, hl0⟩ := hold m qm hm
    rw [hf.2.2.2.2.2] at hic
    obtain ⟨qc, hqc, hcb⟩ := h.geo m qm0 hm0 (hl0 hl) i c hic
    obtain ⟨qc2, hqc2, hfc⟩ := hvalid c qc hqc
    exact ⟨qc2, hqc2, by rw [hfc.2.2.2.1, hf.2.2.2.1]; exact hcb⟩
  · intro m qm hm hb
    rcases hnode m qm hm with ⟨rfl, rfl⟩ | ⟨hmn, hs⟩
    · exact hatt m qm hm hb (hbusy hb)
    · exact hatt m qm hm hb (h.live m qm hs hb)
  · intro i m hi
    by_cases hmn : m = n
    · subst hmn
      exact ⟨w, by rw [hnodes, if_pos rfl], hown1 i hi⟩
    · obtain ⟨qm, hqm, hmem⟩ := h.ownedBy i m ((hown2 i m hmn).1 hi)
      exact ⟨qm, by rw [hnodes, if_neg hmn]; exact hqm, hmem⟩
  · intro m qm i hm hi
    rcases hnode m qm hm with ⟨rfl, rfl⟩ | ⟨hmn, hs⟩
    · exact hown3 i hi
    · exact (hown2 i m hmn).2 (h.owner m qm i hs hi)
  · intro m qm hm
    rcases hnode m qm hm with ⟨rfl, rfl⟩ | ⟨hmn, hs⟩
    · exact hnodup
    · exact h.nodup m qm hs

theorem WF0.flip {C D : Nat} {s : Heap} (h : WF0 C D s) {n : Nat} {q : QuadTree}
    (hq : s.nodes n = some q) (hc : Collapsible s q) : WF0 C D (s.setNode n q.asLeaf) := by
  refine h.modify hq (fun m => rfl) rfl (sameFrame_refl q) ?_ ?_ ?_ ?_ (fun i m _ => Iff.rfl) ?_
  · by_cases hl : q.isLeaf = true
    · left; rw [hl]; rfl
    · right
      rcases hc.2 with h1 | ⟨_, h2⟩
      · exact absurd h1 hl
      · exact ⟨rfl, h2⟩
  · rintro (hb | hb)
    · cases hb
    · exact absurd hc.1 hb
  · exact h.nodup n q hq
  · intro i hi
    obtain ⟨q', hq', hmem⟩ := h.ownedBy i n hi
    rw [hq] at hq'; cases hq'
    exact hmem
  · intro i hi
    exact h.owner n q i hq hi

theorem WF0.wf_unlink {C D : Nat} {s : Heap} (h : WF0 C D s) {n : Nat} {q : QuadTree}
    (hq : s.nodes n = some q) {i : Nat} (hi : i ∈ q.objects) : WF0 C D (s.unlink n q i) := by
  have hnd := h.nodup n q hq
  refine h.modify (w := { q with objects := q.objects.erase i }) hq (fun m => rfl) rfl
    ⟨rfl, rfl, rfl, rfl, rfl, rfl⟩ (Or.inl rfl) ?_ (hnd.erase i) ?_ ?_ ?_
  · rintro (hb | hb)
    · exact h.live n q hq (Or.inl hb)
    · refine h.live n q hq (Or.inr ?_)
      intro he
      simp [he] at hb
  · intro j hj
    rw [unlink_qt] at hj
    by_cases hji : j = i
    · simp [hji] at hj
    · rw [if_neg hji] at hj
      obtain ⟨q', hq', hmem⟩ := h.ownedBy j n hj
      rw [hq] at hq'; cases hq'
      exact (List.mem_erase_of_ne hji).2 hmem
  · intro j m hmn
    rw [unlink_qt]
    by_cases hji : j = i
    · subst hji
      simp only [if_true]
      have := h.owner n q j hq hi
      rw [this]
      constructor
      · intro h1; cases h1
      · intro h1; exact absurd (Option.some.inj h1).symm hmn
    · rw [if_neg hji]
  · intro j hj
    have hji : j ≠ i := fun hji => by
      subst hji
      exact (List.Nodup.not_mem_erase hnd) hj
    rw [unlink_qt, if_neg hji]
    exact h.owner n q j hq (List.mem_of_mem_erase hj)

theorem WF0.wf_link {C D : Nat} {s : Heap} (h : WF0 C D s) {n : Nat} {q : QuadTree}
    (hq : s.nodes n = some q) {i : Nat} (hi : (s.items i).qt = none) (ha : Attached s n) :
    WF0 C D (s.link n q i) := by
  have hnotin : ∀ m qm, s.nodes m = some qm → i ∉ qm.objects := by
    intro m qm hm hmem
    rw [h.owner m qm i hm hmem] at hi; cases hi
  refine h.modify (w := { q with objects := q.objects ++ [i] }) hq (fun m => rfl) rfl
    ⟨rfl, rfl, rfl, rfl, rfl, rfl⟩ (Or.inl rfl) (fun _ => ha) ?_ ?_ ?_ ?_
  · refine List.Nodup.append (h.nodup n q hq) (List.nodup_singleton i) ?_
    intro a ha1 ha2
    rw [List.mem_singleton] at ha2
    subst ha2
    exact hnotin n q hq ha1
  · intro j hj
    rw [link_qt] at hj
    by_cases hji : j = i
    · simp [hji]
    · rw [if_neg hji] at hj
      obtain ⟨q', hq', hmem⟩ := h.ownedBy j n hj
      rw [hq] at hq'; cases hq'
      exact List.mem_append_left _ hmem
  · intro j m hmn
    rw [link_qt]
    by_cases hji : j = i
    · subst hji
      simp only [if_true, hi]
      constructor
      · intro h1; exact absurd (Option.some.inj h1).symm hmn
      · intro h1; cases h1
    · rw [if_neg hji]
  · intro j hj
    rw [link_qt]
    by_cases hji : j = i
    · rw [if_pos hji]
    · rw [if_neg hji]
      simp only [List.mem_append, List.mem_singleton, hji, or_false] at hj
      exact h.owner n q j hq hj

theorem anyBusy_isSome {s : Heap} : ∀ {cs : List Nat},
    (∀ c ∈ cs, ∃ qc, s.nodes c = some qc) → ∃ b, anyBusy s cs = some b := by
  intro cs
  induction cs with
  | nil => intro _; exact ⟨false, rfl⟩
  | cons c rest ih =>
    intro h
    obtain ⟨qc, hqc⟩ := h c (List.mem_cons_self _ _)
    rw [anyBusy, hqc]
    by_cases hb : (!qc.isLeaf || !qc.objects.isEmpty) = true
    · exact ⟨true, by simp only [hb, if_true]⟩
    · simp only [hb, if_false]
      exact ih fun c hc => h c (List.mem_cons_of_mem _ hc)

theorem discard_eq_same {s : Heap} {n : Nat} {q : QuadTree} (hq : s.nodes n = some q)
    (hc : ¬ Collapsible s q)
    (hk : q.isLeaf = false → q.children.length = 4 ∧ ∀ c ∈ q.children, ∃ qc, s.nodes c = some qc)
    (f : Nat) : discardEmptyBuckets (f + 1) s n = some s := by
  rw [discardEmptyBuckets]
  simp only [hq]
  cases hqo : q.objects with
  | cons a l => simp
  | nil =>
    simp only [List.isEmpty_nil, Bool.not_true, Bool.false_eq_true, if_false]
    by_cases hl : q.isLeaf = true
    · exact absurd ⟨hqo, Or.inl hl⟩ hc
    · have hl2 : q.isLeaf = false := by simpa using hl
      obtain ⟨h4, hv⟩ := hk hl2
      simp only [hl, if_false, kids_eq_some.2 ⟨h4, rfl⟩, Option.some_bind]
      obtain ⟨b, hb⟩ := anyBusy_isSome hv
      cases b with
      | true => simp [hb]
      | false => exact absurd ⟨hqo, Or.inr ⟨h4, anyBusy_false.1 hb⟩⟩ hc

theorem discard_eq_flip {s : Heap} {n : Nat} {q : QuadTree} (hq : s.nodes n = some q)
    (hc : Collapsible s q) (f : Nat) :
    discardEmptyBuckets (f + 3) s n =
      match q.parent with
      | none => some (s.setNode n q.asLeaf)
      | some p => discardEmptyBuckets (f + 2) (s.setNode n q.asLeaf) p := by
  rw [discardEmptyBuckets]
  simp only [hq, hc.1, List.isEmpty_nil, Bool.not_true, Bool.false_eq_true, if_false]
  have hb : (if q.isLeaf = true then some false else q.kids.bind (anyBusy s)) = some false := by
    by_cases hl : q.isLeaf = true
    · simp [hl]
    · rcases hc.2 with h1 | ⟨h4, hk⟩
      · exact absurd h1 hl
      · simp only [hl, if_false, kids_eq_some.2 ⟨h4, rfl⟩, Option.some_bind]
        exact anyBusy_false.2 hk
  simp only [hb, clear_collapsible hq hc f, setNode_nodes, if_true]
  rfl

theorem Collapses.collapses_trans {s t u : Heap} (h1 : Collapses s t) (h2 : Collapses t u) :
    Collapses s u := by
  induction h1 with
  | refl => exact h2
  | step hq hc _ ih => exact Collapses.step hq hc (ih h2)

theorem Collapses.wf0 {C D : Nat} {s t : Heap} (h : Collapses s t) (hw : WF0 C D s) :
    WF0 C D t := by
  induction h with
  | refl => exact hw
  | step hq hc _ ih => exact ih (hw.flip hq hc)

theorem idle_setNode_asLeaf {s : Heap} {n : Nat} {q : QuadTree}
    {c : Nat} (hcn : c ≠ n) : Idle (s.setNode n q.asLeaf) c ↔ Idle s c := by
  unfold Idle
  simp only [setNode_nodes, if_neg hcn]

/-- After marking a collapsible node `n` a leaf, the only subdivided node that can
have become collapsible is the parent of `n`. -/
theorem collapsible_after_flip {C D : Nat} {s : Heap} (hw : WF0 C D s) {n : Nat}
    {q : QuadTree} (hq : s.nodes n = some q) {m : Nat} {qm : QuadTree}
    (hm : s.nodes m = some qm) (hl : qm.isLeaf = false)
    (hcm : Collapsible (s.setNode n q.asLeaf) qm) : Collapsible s qm ∨ q.parent = some m := by
  by_cases hmem : n ∈ qm.children
  · right
    obtain ⟨_, _, _, hk⟩ := hw.kids m qm hm hl
    obtain ⟨qc, hqc, hp⟩ := hk n hmem
    rw [hq] at hqc; cases hqc
    exact hp
  · left
    refine ⟨hcm.1, ?_⟩
    rcases hcm.2 with h1 | ⟨h4, hk⟩
    · exact Or.inl h1
    · refine Or.inr ⟨h4, fun c hc => ?_⟩
      have hcn : c ≠ n := fun h => hmem (h ▸ hc)
      exact (idle_setNode_asLeaf hcn).1 (hk c hc)

theorem discard_spec {C D : Nat} : ∀ (k : Nat) (s : Heap) (n : Nat) (q : QuadTree),
    WF0 C D s → s.nodes n = some q → q.level ≤ k →
    (∀ m qm, s.nodes m = some qm → qm.isLeaf = false → Collapsible s qm →
      m = n ∨ (q.parent = some m ∧ Idle s n)) →
    ∃ t, discardEmptyBuckets (k + 3) s n = some t ∧ Collapses s t ∧ NonVoid t := by
  intro k
  induction k with
  | zero =>
    intro s n q hw hq hlev hex
    by_cases hc : Collapsible s q
    · have hpar : q.parent = none := by
        cases hp : q.parent with
        | none => rfl
        | some p =>
          obtain ⟨qp, _, hl⟩ := hw.par n q p hq hp
          omega
      refine ⟨s.setNode n q.asLeaf, ?_, Collapses.step hq hc (Collapses.refl _), ?_⟩
      · rw [discard_eq_flip hq hc 0, hpar]
      · intro m qm hm hl hcm
        simp only [setNode_nodes] at hm
        by_cases hmn : m = n
        · rw [if_pos hmn] at hm; cases hm; cases hl
        · rw [if_neg hmn] at hm
          rcases collapsible_after_flip hw hq hm hl hcm with h1 | h1
          · rcases hex m qm hm hl h1 with h2 | ⟨h2, _⟩
            · exact hmn h2
            · rw [hpar] at h2; cases h2
          · rw [hpar] at h1; cases h1
    · refine ⟨s, ?_, Collapses.refl _, ?_⟩
      · exact discard_eq_same hq hc (fun hl => by
          obtain ⟨_, h4, _, hk⟩ := hw.kids n q hq hl
          exact ⟨h4, fun c hc => (hk c hc).imp fun _ h => h.1⟩) 2
      · intro m qm hm hl hcm
        rcases hex m qm hm hl hcm with h2 | ⟨_, qn, hqn, hnl, hne⟩
        · subst h2; rw [hq] at hm; cases hm; exact hc hcm
        · rw [hq] at hqn; cases hqn
          exact hc ⟨hne, Or.inl hnl⟩
  | succ k ih =>
    intro s n q hw hq hlev hex
    by_cases hc : Collapsible s q
    · have hw1 := hw.flip hq hc
      have hpost : ∀ m qm, (s.setNode n q.asLeaf).nodes m = some qm → qm.isLeaf = false →
          Collapsible (s.setNode n q.asLeaf) qm → q.parent = some m := by
        intro m qm hm hl hcm
        simp only [setNode_nodes] at hm
        by_cases hmn : m = n
        · rw [if_pos hmn] at hm; cases hm; cases hl
        · rw [if_neg hmn] at hm
          rcases collapsible_after_flip hw hq hm hl hcm with h1 | h1
          · rcases hex m qm hm hl h1 with h2 | ⟨h2, _⟩
            · exact absurd h2 hmn
            · exact h2
          · exact h1
      cases hp : q.parent with
      | none =>
        refine ⟨s.setNode n q.asLeaf, ?_, Collapses.step hq hc (Collapses.refl _), ?_⟩
        · rw [discard_eq_flip hq hc (k + 1), hp]
        · intro m qm hm hl hcm
          have := hpost m qm hm hl hcm
          rw [hp] at this; cases this
      | some p =>
        obtain ⟨qp, hqp, hl⟩ := hw.par n q p hq hp
        have hpn : p ≠ n := by
          intro h; subst h; exact hw.parent_ne hq hp
        have hqp1 : (s.setNode n q.asLeaf).nodes p = some qp := by
          simp only [setNode_nodes, if_neg hpn]; exact hqp
        obtain ⟨t, ht, hct, hnv⟩ := ih (s.setNode n q.asLeaf) p qp hw1 hqp1 (by omega)
          (fun m qm hm hl hcm => Or.inl (Option.some.inj ((hpost m qm hm hl hcm).symm.trans hp)))
        refine ⟨t, ?_, Collapses.step hq hc hct, hnv⟩
        rw [discard_eq_flip hq hc (k + 1), hp]
        exact ht
    · refine ⟨s, ?_, Collapses.refl _, ?_⟩
      · exact discard_eq_same hq hc (fun hl => by
          obtain ⟨_, h4, _, hk⟩ := hw.kids n q hq hl
          exact ⟨h4, fun c hc => (hk c hc).imp fun _ h => h.1⟩) (k + 1 + 2)
      · intro m qm hm hl hcm
        rcases hex m qm hm hl hcm with h2 | ⟨_, qn, hqn, hnl, hne⟩
        · subst h2; rw [hq] at hm; cases hm; exact hc hcm
        · rw [hq] at hqn; cases hqn
          exact hc ⟨hne, Or.inl hnl⟩

theorem discard_mono_le {f g : Nat} (hfg : f ≤ g) {s : Heap} {n : Nat} {r : Heap}
    (h : discardEmptyBuckets f s n = some r) : discardEmptyBuckets g s n = some r := by
  induction hfg with
  | refl => exact h
  | step _ ih => exact discard_mono _ _ _ _ ih

theorem remove_mono_le {f g : Nat} (hfg : f ≤ g) {s : Heap} {n obj : Nat} {r : Bool × Heap}
    (h : remove f s n obj = some r) : remove g s n obj = some r := by
  induction hfg with
  | refl => exact h
  | step _ ih => exact remove_mono _ _ _ _ _ ih

theorem insert_mono_le {f g : Nat} (hfg : f ≤ g) {s : Heap} {n obj : Nat} {r : Bool × Heap}
    (h : insert f s n obj = some r) : insert g s n obj = some r := by
  induction hfg with
  | refl => exact h
  | step _ ih => exact (insert_update_mono _).1 _ _ _ _ ih

theorem update_mono_le {f g : Nat} (hfg : f ≤ g) {s : Heap} {n obj : Nat} {r : Bool × Heap}
    (h : update f s n obj = some r) : update g s n obj = some r := by
  induction hfg with
  | refl => exact h
  | step _ ih => exact (insert_update_mono _).2 _ _ _ _ ih

/-- What a chain of collapses leaves alone: the items, the allocation pointer, and of
every node everything but the `isLeaf` flag, which can only turn `true`, and only
on a node without objects. -/
theorem Collapses.frame {s t : Heap} (h : Collapses s t) :
    t.items = s.items ∧ t.next = s.next ∧
    ∀ m, (s.nodes m = none → t.nodes m = none) ∧
      ∀ qm, s.nodes m = some qm → ∃ qm2, t.nodes m = some qm2 ∧ SameFrame qm qm2 ∧
        qm2.objects = qm.objects ∧
        (qm2.isLeaf = qm.isLeaf ∨ (qm2.isLeaf = true ∧ qm.objects = [])) := by
  induction h with
  | refl s =>
    exact ⟨rfl, rfl, fun m => ⟨id, fun qm hm => ⟨qm, hm, sameFrame_refl _, rfl, Or.inl rfl⟩⟩⟩
  | @step s t n q hq hc _ ih =>
    obtain ⟨h1, h2, h3⟩ := ih
    refine ⟨h1, h2, fun m => ⟨fun hm => ?_, fun qm hm => ?_⟩⟩
    · have hmn : m ≠ n := by
        intro h; subst h; rw [hq] at hm; cases hm
      exact (h3 m).1 (by simp only [setNode_nodes, if_neg hmn]; exact hm)
    · by_cases hmn : m = n
      · subst hmn
        rw [hq] at hm; cases hm
        obtain ⟨qm2, hm2, hf, ho, hl⟩ := (h3 m).2 q.asLeaf (by simp)
        refine ⟨qm2, hm2, hf, ho, Or.inr ⟨?_, hc.1⟩⟩
        rcases hl with hl | hl
        · rw [hl]; rfl
        · exact hl.1
      · exact (h3 m).2 qm (by simp only [setNode_nodes, if_neg hmn]; exact hm)

theorem remove_eq_direct {s t : Heap} {n i : Nat} {q : QuadTree} {f : Nat}
    (hi : (s.items i).qt = some n) (hq : s.nodes n = some q) (hmem : i ∈ q.objects)
    (hd : discardEmptyBuckets f (s.unlink n q i) n = some t) :
    remove (f + 1) s n i = some (true, t) := by
  rw [remove]
  simp only [hi, ne_eq, not_true_eq_false, if_false, hq, hmem, if_true, hd]

theorem remove_eq_indirect {s : Heap} {n this i : Nat} (f : Nat)
    (hi : (s.items i).qt = some n) (hne : n ≠ this) :
    remove (f + 1) s this i = remove f s n i := by
  rw [remove]
  simp only [hi, ne_eq, hne, not_false_eq_true, if_true]

theorem WF0.level_le {C D : Nat} {s : Heap} (h : WF0 C D s) {n : Nat} {q : QuadTree}
    (hq : s.nodes n = some q) (hb : q.busy) : q.level ≤ D := by
  rcases h.live n q hq hb with h0 | ⟨q', p, qp, hq', hp, hqp, hpl, _⟩
  · subst h0
    obtain ⟨q0, hq0, _, hl0⟩ := h.root
    rw [hq] at hq0; cases hq0
    omega
  · rw [hq] at hq'; cases hq'
    obtain ⟨qp', hqp', hl⟩ := h.par n q p hq hp
    rw [hqp] at hqp'; cases hqp'
    have := (h.kids p qp hqp hpl).1
    omega

/-- `remove` of a tracked item, from any node: it returns `true`, and the new state
is the old one with the item unlinked from its owner and a chain of collapses. -/
theorem remove_spec {C D : Nat} {s : Heap} (hw : WF0 C D s) (hnv : NonVoid s) {i n : Nat}
    (hi : (s.items i).qt = some n) :
    ∃ q t, s.nodes n = some q ∧ i ∈ q.objects ∧ Collapses (s.unlink n q i) t ∧
      WF0 C D t ∧ NonVoid t ∧ ∀ this f, remove (f + D + 5) s this i = some (true, t) := by
  obtain ⟨q, hq, hmem⟩ := hw.ownedBy i n hi
  have hw1 := hw.wf_unlink hq hmem
  have hq1 : (s.unlink n q i).nodes n = some { q with objects := q.objects.erase i } := by simp
  have hlev : q.level ≤ D := hw.level_le hq (Or.inr (List.ne_nil_of_mem hmem))
  obtain ⟨t, ht, hct, hnvt⟩ := discard_spec D (s.unlink n q i) n _ hw1 hq1 hlev (by
    intro m qm hm hl hcm
    by_cases hmn : m = n
    · exact Or.inl hmn
    · right
      simp only [unlink_nodes, if_neg hmn] at hm
      have hnc := hnv m qm hm hl
      obtain ⟨_, h4, _, hk⟩ := hw.kids m qm hm hl
      rcases hcm.2 with h1 | ⟨_, hidle⟩
      · rw [hl] at h1; cases h1
      · by_cases hmemn : n ∈ qm.children
        · obtain ⟨qc, hqc, hp⟩ := hk n hmemn
          rw [hq] at hqc; cases hqc
          exact ⟨hp, hidle n hmemn⟩
        · exfalso
          apply hnc
          refine ⟨hcm.1, Or.inr ⟨h4, fun c hc => ?_⟩⟩
          have hcn : c ≠ n := fun h => hmemn (h ▸ hc)
          obtain ⟨qc, hqc, h1, h2⟩ := hidle c hc
          simp only [unlink_nodes, if_neg hcn] at hqc
          exact ⟨qc, hqc, h1, h2⟩)
  refine ⟨q, t, hq, hmem, hct, hct.wf0 hw1, hnvt, fun this f => ?_⟩
  by_cases hne : n = this
  · subst hne
    exact remove_eq_direct hi hq hmem (discard_mono_le (by omega) ht)
  · rw [show f + D + 5 = (f + D + 4) + 1 from rfl, remove_eq_indirect _ hi hne]
    exact remove_eq_direct hi hq hmem (discard_mono_le (by omega) ht)

/-- Any result of `remove` is the one described by `remove_spec`. -/
theorem remove_outcome {C D : Nat} {s : Heap} (hw : WF0 C D s) (hnv : NonVoid s)
    {f this i : Nat} {b : Bool} {t : Heap} (h : remove f s this i = some (b, t)) :
    ((s.items i).qt = none ∧ b = false ∧ t = s) ∨
    (∃ n q, (s.items i).qt = some n ∧ s.nodes n = some q ∧ i ∈ q.objects ∧ b = true ∧
      Collapses (s.unlink n q i) t ∧ WF0 C D t ∧ NonVoid t) := by
  cases hqt : (s.items i).qt with
  | none =>
    left
    cases f with
    | zero => simp [remove] at h
    | succ f =>
      rw [remove] at h
      simp only [hqt] at h
      cases h
      exact ⟨rfl, rfl, rfl⟩
  | some n =>
    right
    obtain ⟨q, t2, hq, hmem, hct, hwt, hnvt, hrem⟩ := remove_spec hw hnv hqt
    have h1 := remove_mono_le (Nat.le_add_right f (D + 5)) h
    have h2 := hrem this f
    rw [show f + D + 5 = f + (D + 5) from rfl, h1] at h2
    cases h2
    exact ⟨n, q, rfl, hq, hmem, rfl, hct, hwt, hnvt⟩

theorem getChild_mem {q : QuadTree} {b : Rect} {c : Nat} (h : getChild q b = some c) :
    c ∈ q.children := by
  unfold getChild at h
  dsimp only at h
  split at h
  · split at h
    · exact List.getElem?_mem h
    · split at h
      · exact List.getElem?_mem h
      · cases h
  · split at h
    · split at h
      · exact List.getElem?_mem h
      · split at h
        · exact List.getElem?_mem h
        · cases h
    · cases h

theorem route_some {q : QuadTree} {b : Rect} {c : Nat} (h : q.route b = some c) :
    q.isLeaf = false ∧ c ∈ q.children := by
  unfold QuadTree.route at h
  by_cases hl : q.isLeaf = true
  · simp [hl] at h
  · simp only [hl, if_false] at h
    exact ⟨by simpa using hl, getChild_mem h⟩

theorem WF0.attached_child {C D : Nat} {s : Heap} (h : WF0 C D s) {n c : Nat} {q : QuadTree}
    (hq : s.nodes n = some q) (hl : q.isLeaf = false) (hc : c ∈ q.children) : Attached s c := by
  obtain ⟨qc, hqc, hp⟩ := (h.kids n q hq hl).2.2.2 c hc
  exact Or.inr ⟨qc, n, q, hqc, hp, hq, hl, hc⟩

theorem WF0.lt_next {C D : Nat} {s : Heap} (h : WF0 C D s) {n : Nat} {q : QuadTree}
    (hq : s.nodes n = some q) : n < s.next := by
  by_contra hlt
  rw [h.fresh n (by omega)] at hq; cases hq

theorem NonVoid.of_le {C D : Nat} {s t : Heap} (hw : WF0 C D s) (hnv : NonVoid s)
    (hidle : ∀ c qc, s.nodes c = some qc → Idle t c → Idle s c)
    (hint : ∀ m qm, t.nodes m = some qm → qm.isLeaf = false → qm.objects ≠ [] ∨
      ∃ qm0, s.nodes m = some qm0 ∧ qm0.isLeaf = false ∧ qm0.children = qm.children ∧
        (qm.objects = [] → qm0.objects = [])) : NonVoid t := by
  intro m qm hm hl hc
  rcases hint m qm hm hl with h1 | ⟨qm0, hm0, hl0, hch, hobj⟩
  · exact h1 hc.1
  · apply hnv m qm0 hm0 hl0
    refine ⟨hobj hc.1, ?_⟩
    rcases hc.2 with h1 | ⟨h4, hk⟩
    · rw [hl] at h1; cases h1
    · refine Or.inr ⟨by rw [hch]; exact h4, fun c hcm => ?_⟩
      obtain ⟨qc, hqc, _⟩ := (hw.kids m qm0 hm0 hl0).2.2.2 c hcm
      exact hidle c qc hqc (hk c (by rw [← hch]; exact hcm))

theorem NonVoid.nv_link {C D : Nat} {s : Heap} (hw : WF0 C D s) (hnv : NonVoid s) {n : Nat}
    (q : QuadTree) (i : Nat) : NonVoid (s.link n q i) := by
  refine NonVoid.of_le hw hnv ?_ ?_
  · rintro c qc hqc ⟨qc2, hqc2, h1, h2⟩
    simp only [link_nodes] at hqc2
    by_cases hcn : c = n
    · rw [if_pos hcn] at hqc2; cases hqc2
      simp at h2
    · rw [if_neg hcn] at hqc2
      exact ⟨qc2, hqc2, h1, h2⟩
  · intro m qm hm hl
    simp only [link_nodes] at hm
    by_cases hmn : m = n
    · rw [if_pos hmn] at hm; cases hm
      left; simp
    · rw [if_neg hmn] at hm
      exact Or.inr ⟨qm, hm, hl, rfl, id⟩

/-- The nodes after `subdivide`, in a well-formed store. -/
theorem WF0.wf_subdivide_nodes {C D : Nat} {s s2 : Heap} (h : WF0 C D s) {n : Nat} {q : QuadTree}
    (hq : s.nodes n = some q) (hs : subdivide s n = some s2) :
    s2.next = s.next + 4 ∧ s2.items = s.items ∧
    s2.nodes n = some { q with children := [s.next, s.next + 1, s.next + 2, s.next + 3],
                               isLeaf := false } ∧
    (∀ i, i < 4 → s2.nodes (s.next + i) = some (q.newChild n i)) ∧
    (∀ m, m ≠ n → m < s.next → s2.nodes m = s.nodes m) ∧
    (∀ m, s.next + 4 ≤ m → s2.nodes m = none) := by
  obtain ⟨q', hq', h1, h2, h3, h4, h5, h6⟩ := QuadTreeCpp.subdivide_nodes hs
  rw [hq] at hq'; cases hq'
  have hn := h.lt_next hq
  refine ⟨h1, h2, h3, fun i hi => h6 i hi (by omega), h4, fun m hm => ?_⟩
  rw [h5 m hm (by omega)]
  exact h.fresh m (by omega)

theorem WF0.wf_subdivide {C D : Nat} {s s2 : Heap} (h : WF0 C D s) {n : Nat} {q : QuadTree}
    (hq : s.nodes n = some q) (hl : q.isLeaf = true) (hlev : q.level < D) (ha : Attached s n)
    (hs : subdivide s n = some s2) : WF0 C D s2 := by
  obtain ⟨hnext, hitems, hn2, hnew, hold, hfresh⟩ := h.wf_subdivide_nodes hq hs
  have hn := h.lt_next hq
  have hcase : ∀ m qm, s2.nodes m = some qm →
      (m = n ∧ qm = { q with children := [s.next, s.next + 1, s.next + 2, s.next + 3],
                             isLeaf := false }) ∨
      (∃ i, i < 4 ∧ m = s.next + i ∧ qm = q.newChild n i) ∨
      (m ≠ n ∧ m < s.next ∧ s.nodes m = some qm) := by
    intro m qm hm
    by_cases hmn : m = n
    · subst hmn
      rw [hn2] at hm
      exact Or.inl ⟨rfl, (Option.some.inj hm).symm⟩
    · by_cases hlt : m < s.next
      · rw [hold m hmn hlt] at hm
        exact Or.inr (Or.inr ⟨hmn, hlt, hm⟩)
      · by_cases hge : s.next + 4 ≤ m
        · rw [hfresh m hge] at hm; cases hm
        · right; left
          refine ⟨m - s.next, by omega, by omega, ?_⟩
          have := hnew (m - s.next) (by omega)
          rw [show s.next + (m - s.next) = m by omega, hm] at this
          exact Option.some.inj this
  have hvalid : ∀ m qm, s.nodes m = some qm → ∃ qm2, s2.nodes m = some qm2 ∧ (qm2.level = qm.level ∧ qm2.capacity = qm.capacity ∧ qm2.maxLevel = qm.maxLevel ∧ qm2.bounds = qm.bounds ∧ qm2.parent = qm.parent) := by
    intro m qm hm
    by_cases hmn : m = n
    · subst hmn
      rw [hq] at hm; cases hm
      exact ⟨_, hn2, rfl, rfl, rfl, rfl, rfl⟩
    · exact ⟨qm, by rw [hold m hmn (h.lt_next hm)]; exact hm, rfl, rfl, rfl, rfl, rfl⟩
  have hkid : ∀ c, c ∈ [s.next, s.next + 1, s.next + 2, s.next + 3] →
      ∃ i, i < 4 ∧ c = s.next + i := by
    intro c hc
    simp only [List.mem_cons, List.mem_singleton, List.not_mem_nil, or_false] at hc
    rcases hc with rfl | rfl | rfl | rfl
    · exact ⟨0, by omega, rfl⟩
    · exact ⟨1, by omega, rfl⟩
    · exact ⟨2, by omega, rfl⟩
    · exact ⟨3, by omega, rfl⟩
  have hatt : ∀ m, Attached s m → Attached s2 m := by
    intro m hm
    rcases hm with h0 | ⟨qm, p, qp, hqm, hp, hqp, hpl, hmem⟩
    · exact Or.inl h0
    · have hpn : p ≠ n := by
        intro hpn; subst hpn
        rw [hq] at hqp; cases hqp
        rw [hl] at hpl; cases hpl
      obtain ⟨qm2, hqm2, hf⟩ := hvalid m qm hqm
      exact Or.inr ⟨qm2, p, qp, hqm2, hf.2.2.2.2.trans hp,
        by rw [hold p hpn (h.lt_next hqp)]; exact hqp, hpl, hmem⟩
  constructor
  · intro m hm
    exact hfresh m (by omega)
  · obtain ⟨q0, hq0, hp0, hl0⟩ := h.root
    obtain ⟨q02, hq02, hf⟩ := hvalid 0 q0 hq0
    exact ⟨q02, hq02, hf.2.2.2.2.trans hp0, hf.1.trans hl0⟩
  · intro m qm hm
    rcases hcase m qm hm with ⟨rfl, rfl⟩ | ⟨i, _, rfl, rfl⟩ | ⟨_, _, hs⟩
    · exact h.conf m q hq
    · exact h.conf n q hq
    · exact h.conf m qm hs
  · intro m qm p hm hp
    rcases hcase m qm hm with ⟨rfl, rfl⟩ | ⟨i, _, rfl, rfl⟩ | ⟨_, _, hs⟩
    · obtain ⟨qp, hqp, hlv⟩ := h.par m q p hq hp
      obtain ⟨qp2, hqp2, hf⟩ := hvalid p qp hqp
      exact ⟨qp2, hqp2, by rw [hf.1]; exact hlv⟩
    · cases hp
      exact ⟨_, hn2, rfl⟩
    · obtain ⟨qp, hqp, hlv⟩ := h.par m qm p hs hp
      obtain ⟨qp2, hqp2, hf⟩ := hvalid p qp hqp
      exact ⟨qp2, hqp2, by rw [hf.1]; exact hlv⟩
  · intro m qm hm hml
    rcases hcase m qm hm with ⟨rfl, rfl⟩ | ⟨i, _, rfl, rfl⟩ | ⟨_, _, hs⟩
    · refine ⟨hlev, rfl, by simp, fun c hc => ?_⟩
      obtain ⟨i, hi, rfl⟩ := hkid c hc
      exact ⟨_, hnew i hi, rfl⟩
    · cases hml
    · obtain ⟨h1, h2, h3, h4⟩ := h.kids m qm hs hml
      refine ⟨h1, h2, h3, fun c hc => ?_⟩
      obtain ⟨qc, hqc, hcp⟩ := h4 c hc
      obtain ⟨qc2, hqc2, hf⟩ := hvalid c qc hqc
      exact ⟨qc2, hqc2, hf.2.2.2.2.trans hcp⟩
  · intro m qm hm hml i c hic
    rcases hcase m qm hm with ⟨rfl, rfl⟩ | ⟨j, _, rfl, rfl⟩ | ⟨_, _, hs⟩
    · have hi4 : i < 4 := by
        by_contra hi
        have : ([s.next, s.next + 1, s.next + 2, s.next + 3] : List Nat)[i]? = none :=
          List.getElem?_eq_none (by simp; omega)
        simp only [this] at hic
        cases hic
      have hc : c = s.next + i := by
        have hi' : i = 0 ∨ i = 1 ∨ i = 2 ∨ i = 3 := by omega
        rcases hi' with rfl | rfl | rfl | rfl <;> simp at hic <;> omega
      subst hc
      exact ⟨_, hnew i hi4, rfl⟩
    · cases hml
    · obtain ⟨qc, hqc, hcb⟩ := h.geo m qm hs hml i c hic
      obtain ⟨qc2, hqc2, hf⟩ := hvalid c qc hqc
      exact ⟨qc2, hqc2, by rw [hf.2.2.2.1]; exact hcb⟩
  · intro m qm hm hb
    rcases hcase m qm hm with ⟨rfl, rfl⟩ | ⟨j, _, rfl, rfl⟩ | ⟨_, _, hs⟩
    · exact hatt m ha
    · rcases hb with hb | hb
      · cases hb
      · exact absurd rfl hb
    · exact hatt m (h.live m qm hs hb)
  · intro i m hi
    rw [hitems] at hi
    obtain ⟨qm, hqm, hmem⟩ := h.ownedBy i m hi
    by_cases hmn : m = n
    · subst hmn
      rw [hq] at hqm; cases hqm
      exact ⟨_, hn2, hmem⟩
    · exact ⟨qm, by rw [hold m hmn (h.lt_next hqm)]; exact hqm, hmem⟩
  · intro m qm i hm hi
    rw [hitems]
    rcases hcase m qm hm with ⟨rfl, rfl⟩ | ⟨j, _, rfl, rfl⟩ | ⟨_, _, hs⟩
    · exact h.owner m q i hq hi
    · cases hi
    · exact h.owner m qm i hs hi
  · intro m qm hm
    rcases hcase m qm hm with ⟨rfl, rfl⟩ | ⟨j, _, rfl, rfl⟩ | ⟨_, _, hs⟩
    · exact h.nodup m q hq
    · exact List.nodup_nil
    · exact h.nodup m qm hs

theorem NonVoid.nv_subdivide {C D : Nat} {s s2 : Heap} (hw : WF0 C D s) (hnv : NonVoid s)
    {n : Nat} {q : QuadTree} (hq : s.nodes n = some q) (hne : q.objects ≠ [])
    (hs : subdivide s n = some s2) : NonVoid s2 := by
  obtain ⟨_, _, hn2, hnew, hold, hfresh⟩ := hw.wf_subdivide_nodes hq hs
  refine NonVoid.of_le hw hnv ?_ ?_
  · rintro c qc hqc ⟨qc2, hqc2, h1, h2⟩
    by_cases hcn : c = n
    · subst hcn
      rw [hn2] at hqc2; cases hqc2
      cases h1
    · rw [hold c hcn (hw.lt_next hqc)] at hqc2
      exact ⟨qc2, hqc2, h1, h2⟩
  · intro m qm hm hl
    by_cases hmn : m = n
    · subst hmn
      rw [hn2] at hm; cases hm
      exact Or.inl hne
    · by_cases hlt : m < s.next
      · rw [hold m hmn hlt] at hm
        exact Or.inr ⟨qm, hm, hl, rfl, id⟩
      · by_cases hge : s.next + 4 ≤ m
        · rw [hfresh m hge] at hm; cases hm
        · have := hnew (m - s.next) (by omega)
          rw [show s.next + (m - s.next) = m by omega, hm] at this
          cases this
          cases hl

theorem Eff.eff_refl (j : Nat) (s : Heap) : Eff j s s :=
  ⟨Nat.le_refl _, fun _ _ => rfl, rfl, fun _ q hq => ⟨q, hq, ⟨rfl, rfl, rfl, rfl, rfl⟩, rfl⟩⟩

theorem Eff.eff_trans {j : Nat} {s t u : Heap} (h1 : Eff j s t) (h2 : Eff j t u) : Eff j s u := by
  obtain ⟨a1, b1, c1, d1⟩ := h1
  obtain ⟨a2, b2, c2, d2⟩ := h2
  refine ⟨Nat.le_trans a1 a2, fun i hi => (b2 i hi).trans (b1 i hi), c2.trans c1, fun n q hq => ?_⟩
  obtain ⟨q2, hq2, hb2, ho2⟩ := d1 n q hq
  obtain ⟨q3, hq3, hb3, ho3⟩ := d2 n q2 hq2
  exact ⟨q3, hq3, ⟨hb3.1.trans hb2.1, hb3.2.1.trans hb2.2.1, hb3.2.2.1.trans hb2.2.2.1,
    hb3.2.2.2.1.trans hb2.2.2.2.1, hb3.2.2.2.2.trans hb2.2.2.2.2⟩, ho3.trans ho2⟩

theorem filter_ne_append_self (l : List Nat) (j : Nat) :
    (l ++ [j]).filter (fun x => decide (x ≠ j)) = l.filter (fun x => decide (x ≠ j)) := by
  simp [List.filter_append]

theorem filter_ne_erase_self (l : List Nat) (j : Nat) :
    (l.erase j).filter (fun x => decide (x ≠ j)) = l.filter (fun x => decide (x ≠ j)) := by
  induction l with
  | nil => rfl
  | cons a l ih =>
    by_cases ha : a = j
    · subst ha
      simp
    · rw [List.erase_cons_tail (by simpa using ha)]
      simp only [List.filter_cons, ih]

theorem items_eq_of_setQt_ne (s : Heap) {i j : Nat} (v : Option Nat) (h : i ≠ j) :
    (s.setQt j v).items i = s.items i := by
  unfold Heap.setQt; simp [h]

theorem eff_link (s : Heap) (n : Nat) (q : QuadTree) (j : Nat) (hq : s.nodes n = some q) :
    Eff j s (s.link n q j) := by
  refine ⟨Nat.le_refl _, fun i hi => items_eq_of_setQt_ne _ _ hi, by simp, fun m qm hm => ?_⟩
  by_cases hmn : m = n
  · subst hmn
    rw [hq] at hm; cases hm
    exact ⟨{ q with objects := q.objects ++ [j] }, by simp, ⟨rfl, rfl, rfl, rfl, rfl⟩,
      filter_ne_append_self _ _⟩
  · exact ⟨qm, by simp only [link_nodes, if_neg hmn]; exact hm, ⟨rfl, rfl, rfl, rfl, rfl⟩, rfl⟩

theorem eff_unlink (s : Heap) (n : Nat) (q : QuadTree) (j : Nat) (hq : s.nodes n = some q) :
    Eff j s (s.unlink n q j) := by
  refine ⟨Nat.le_refl _, fun i hi => items_eq_of_setQt_ne _ _ hi, by simp, fun m qm hm => ?_⟩
  by_cases hmn : m = n
  · subst hmn
    rw [hq] at hm; cases hm
    exact ⟨{ q with objects := q.objects.erase j }, by simp, ⟨rfl, rfl, rfl, rfl, rfl⟩,
      filter_ne_erase_self _ _⟩
  · exact ⟨qm, by simp only [unlink_nodes, if_neg hmn]; exact hm, ⟨rfl, rfl, rfl, rfl, rfl⟩, rfl⟩

theorem eff_collapses {s t : Heap} (h : Collapses s t) (j : Nat) : Eff j s t := by
  obtain ⟨h1, h2, h3⟩ := h.frame
  refine ⟨by omega, fun i _ => by rw [h1], by rw [h1], fun n q hq => ?_⟩
  obtain ⟨q2, hq2, hf, ho, _⟩ := (h3 n).2 q hq
  exact ⟨q2, hq2, ⟨hf.1, hf.2.1, hf.2.2.1, hf.2.2.2.1, hf.2.2.2.2.1⟩, by rw [ho]⟩

theorem eff_subdivide {C D : Nat} {s s2 : Heap} (hw : WF0 C D s) {n : Nat} {q : QuadTree}
    (hq : s.nodes n = some q) (hs : subdivide s n = some s2) (j : Nat) : Eff j s s2 := by
  obtain ⟨hnext, hitems, hn2, _, hold, _⟩ := hw.wf_subdivide_nodes hq hs
  refine ⟨by omega, fun i _ => by rw [hitems], by rw [hitems], fun m qm hm => ?_⟩
  by_cases hmn : m = n
  · subst hmn
    rw [hq] at hm; cases hm
    exact ⟨_, hn2, ⟨rfl, rfl, rfl, rfl, rfl⟩, rfl⟩
  · exact ⟨qm, by rw [hold m hmn (hw.lt_next hm)]; exact hm, ⟨rfl, rfl, rfl, rfl, rfl⟩, rfl⟩

theorem remove_eff {C D : Nat} {s : Heap} (hw : WF0 C D s) (hnv : NonVoid s)
    {f this i : Nat} {b : Bool} {t : Heap} (h : remove f s this i = some (b, t)) :
    Eff i s t := by
  rcases remove_outcome hw hnv h with ⟨_, _, rfl⟩ | ⟨n, q, _, hq, _, _, hcol, _, _⟩
  · exact Eff.eff_refl _ _
  · exact (eff_unlink s n q i hq).eff_trans (eff_collapses hcol i)

/-- Well-formedness is kept by `insert` (on an attached node) and by `update` (on the
root, or on a node that holds another object), when the capacity is at least two or
the max depth is zero; the footprint of either call is that of its item. -/
theorem insert_update_wf {C D : Nat} (hA : 2 ≤ C ∨ D = 0) : ∀ f : Nat,
    (∀ (s : Heap) (this i : Nat) (r : Bool × Heap), WF0 C D s → NonVoid s →
      Attached s this → insert f s this i = some r →
      WF0 C D r.2 ∧ NonVoid r.2 ∧ Eff i s r.2) ∧
    (∀ (s : Heap) (this i : Nat) (r : Bool × Heap), WF0 C D s → NonVoid s →
      (this = 0 ∨ ∃ q j, s.nodes this = some q ∧ j ∈ q.objects ∧ j ≠ i) →
      update f s this i = some r → WF0 C D r.2 ∧ NonVoid r.2 ∧ Eff i s r.2) := by
  intro f
  induction f with
  | zero =>
    constructor
    · intro s this i r _ _ _ h; simp [insert] at h
    · intro s this i r _ _ _ h; simp [update] at h
  | succ f ih =>
    constructor
    · intro s this i r hw hnv ha h
      rcases insert_inv h with ⟨_, rfl⟩ | ⟨hqt, q, hq, hcase⟩
      · exact ⟨hw, hnv, Eff.eff_refl _ _⟩
      rcases hcase with ⟨c, hc, hins⟩ | ⟨_, hcase⟩
      · obtain ⟨hl, hmem⟩ := route_some hc
        exact ih.1 s c i r hw hnv (hw.attached_child hq hl hmem) hins
      have hw1 := hw.wf_link hq hqt ha
      have hnv1 : NonVoid (s.link this q i) := hnv.nv_link hw q i
      have he1 := eff_link s this q i hq
      rcases hcase with ⟨_, rfl⟩ | ⟨hsplit, s2, r2, hsub, hupd, rfl⟩
      · exact ⟨hw1, hnv1, he1⟩
      obtain ⟨hl, hlev, hcap⟩ := hsplit
      have hq1 : (s.link this q i).nodes this = some { q with objects := q.objects ++ [i] } := by
        simp
      have hD : q.level < D := by rw [← (hw.conf this q hq).2]; exact hlev
      have ha1 : Attached (s.link this q i) this := hw1.live this _ hq1 (Or.inr (by simp))
      have hw2 := hw1.wf_subdivide hq1 hl hD ha1 hsub
      have hnv2 := hnv1.nv_subdivide hw1 hq1 (by simp) hsub
      have he2 := eff_subdivide hw1 hq1 hsub i
      obtain ⟨_, hitems, hn2, _⟩ := hw1.wf_subdivide_nodes hq1 hsub
      obtain ⟨h1, h2, h3⟩ := ih.2 s2 this i r2 hw2 hnv2 (by
        right
        have hC : 2 ≤ C := by
          rcases hA with h2 | h0
          · exact h2
          · omega
        have hlen : 1 ≤ q.objects.length := by
          have := (hw.conf this q hq).1
          omega
        cases hqo : q.objects with
        | nil => rw [hqo] at hlen; simp at hlen
        | cons j l =>
          refine ⟨_, j, hn2, by simp [hqo], ?_⟩
          intro hji; subst hji
          have := hw.owner this q j hq (by simp [hqo])
          rw [this] at hqt; cases hqt) hupd
      exact ⟨h1, h2, (he1.eff_trans he2).eff_trans h3⟩
    · intro s this i r hw hnv hpre h
      obtain ⟨b, s1, hrem, hcase⟩ := update_inv h
      have he1 := remove_eff hw hnv hrem
      rcases remove_outcome hw hnv hrem with ⟨_, rfl, rfl⟩ | ⟨n, qn, hqt, hqn, hmem, rfl, hcol, hw1, hnv1⟩
      · rcases hcase with ⟨_, rfl⟩ | ⟨hb, _⟩
        · exact ⟨hw, hnv, Eff.eff_refl _ _⟩
        · cases hb
      rcases hcase with ⟨hb, _⟩ | ⟨_, q, hq, hcase⟩
      · cases hb
      -- `this` is still attached after the removal
      have hatt : Attached s1 this := by
        rcases hpre with h0 | ⟨q0, j, hq0, hj, hji⟩
        · exact Or.inl h0
        · have hju : ∃ qu, (s.unlink n qn i).nodes this = some qu ∧ j ∈ qu.objects := by
            simp only [unlink_nodes]
            by_cases htn : this = n
            · subst htn
              rw [hqn] at hq0; cases hq0
              exact ⟨_, by rw [if_pos rfl], (List.mem_erase_of_ne hji).2 hj⟩
            · exact ⟨q0, by rw [if_neg htn]; exact hq0, hj⟩
          obtain ⟨qu, hqu, hjm⟩ := hju
          obtain ⟨q2, hq2, _, hobj, _⟩ := (hcol.frame.2.2 this).2 qu hqu
          rw [hq] at hq2; cases hq2
          exact hw1.live this q hq (Or.inr (by rw [hobj]; exact List.ne_nil_of_mem hjm))
      have hfin : ∀ x, Attached s1 x → insert f s1 x i = some r →
          WF0 C D r.2 ∧ NonVoid r.2 ∧ Eff i s r.2 := by
        intro x hx hins
        obtain ⟨h1, h2, h3⟩ := ih.1 s1 x i r hw1 hnv1 hx hins
        exact ⟨h1, h2, he1.eff_trans h3⟩
      rcases hcase with ⟨p, hp, _, hins⟩ | ⟨_, hcase⟩
      · refine hfin p ?_ hins
        rcases hatt with h0 | ⟨q', p', qp, hq', hp', hqp, hpl, _⟩
        · subst h0
          obtain ⟨q0, hq0, hp0, _⟩ := hw1.root
          rw [hq] at hq0; cases hq0
          rw [hp0] at hp; cases hp
        · rw [hq] at hq'; cases hq'
          rw [hp] at hp'; cases hp'
          exact hw1.live p qp hqp (Or.inl hpl)
      rcases hcase with ⟨c, hc, hins⟩ | ⟨_, hins⟩
      · obtain ⟨hl, hmem⟩ := route_some hc
        exact hfin c (hw1.attached_child hq hl hmem) hins
      · exact hfin this hatt hins

theorem Shrinks.shrinks_refl (s : Heap) : Shrinks s s :=
  ⟨rfl, fun _ => ⟨rfl, Or.inl rfl⟩,
    fun _ => ⟨id, fun qm hm => ⟨qm, hm, sameFrame_refl _, Or.inl rfl, Or.inl rfl⟩⟩⟩

theorem SameFrame.frame_trans {a b c : QuadTree} (h1 : SameFrame a b) (h2 : SameFrame b c) :
    SameFrame a c :=
  ⟨h2.1.trans h1.1, h2.2.1.trans h1.2.1, h2.2.2.1.trans h1.2.2.1, h2.2.2.2.1.trans h1.2.2.2.1,
    h2.2.2.2.2.1.trans h1.2.2.2.2.1, h2.2.2.2.2.2.trans h1.2.2.2.2.2⟩

theorem Shrinks.shrinks_trans {s t u : Heap} (h1 : Shrinks s t) (h2 : Shrinks t u) : Shrinks s u := by
  obtain ⟨a1, b1, c1⟩ := h1
  obtain ⟨a2, b2, c2⟩ := h2
  refine ⟨a2.trans a1, fun i => ⟨(b2 i).1.trans (b1 i).1, ?_⟩, fun m => ⟨fun hm => (c2 m).1 ((c1 m).1 hm), fun qm hm => ?_⟩⟩
  · rcases (b2 i).2 with h | h
    · rw [h]; exact (b1 i).2
    · exact Or.inr h
  · obtain ⟨qt, hqt, hf1, hl1, ho1⟩ := (c1 m).2 qm hm
    obtain ⟨qu, hqu, hf2, hl2, ho2⟩ := (c2 m).2 qt hqt
    refine ⟨qu, hqu, hf1.frame_trans hf2, ?_, ?_⟩
    · rcases hl2 with h | h
      · rw [h]; exact hl1
      · exact Or.inr h
    · rcases ho2 with h | h
      · rw [h]; exact ho1
      · exact Or.inr h

theorem Shrinks.idle {s t : Heap} (h : Shrinks s t) {c : Nat} (hc : Idle s c) : Idle t c := by
  obtain ⟨qc, hqc, hl, he⟩ := hc
  obtain ⟨qc2, hqc2, _, hl2, ho2⟩ := (h.2.2 c).2 qc hqc
  refine ⟨qc2, hqc2, ?_, ?_⟩
  · rcases hl2 with h | h
    · rw [h]; exact hl
    · exact h
  · rcases ho2 with h | h
    · rw [h]; exact he
    · exact h

theorem unlinkAll_nodes : ∀ (l : List Nat) (s : Heap), (unlinkAll s l).nodes = s.nodes := by
  intro l
  induction l with
  | nil => intro s; rfl
  | cons a l ih => intro s; rw [unlinkAll, ih]; rfl

theorem unlinkAll_next : ∀ (l : List Nat) (s : Heap), (unlinkAll s l).next = s.next := by
  intro l
  induction l with
  | nil => intro s; rfl
  | cons a l ih => intro s; rw [unlinkAll, ih]; rfl

theorem unlinkAll_bound : ∀ (l : List Nat) (s : Heap) (j : Nat),
    ((unlinkAll s l).items j).bound = (s.items j).bound := by
  intro l
  induction l with
  | nil => intro s j; rfl
  | cons a l ih => intro s j; rw [unlinkAll, ih]; simp

theorem unlinkAll_qt : ∀ (l : List Nat) (s : Heap) (j : Nat),
    ((unlinkAll s l).items j).qt = if j ∈ l then none else (s.items j).qt := by
  intro l
  induction l with
  | nil => intro s j; simp [unlinkAll]
  | cons a l ih =>
    intro s j
    rw [unlinkAll, ih]
    by_cases hjl : j ∈ l
    · simp [hjl]
    · by_cases hja : j = a
      · simp [hja]
      · simp [hjl, hja]

/-- The first block of `clear`, whether or not the guard `!objects.empty()` holds. -/
theorem dropObjects_eq {s : Heap} {n : Nat} {q : QuadTree} (hq : s.nodes n = some q) :
    s.dropObjects n q = (unlinkAll s q.objects).setNode n { q with objects := [] } := by
  unfold Heap.dropObjects
  cases hqo : q.objects with
  | cons a l => simp
  | nil =>
    simp only [List.isEmpty_nil, if_true, unlinkAll]
    have : ({ q with objects := [] } : QuadTree) = q := by
      cases q; simp_all
    rw [this, setNode_same hq]

theorem WF0.dropObjects {C D : Nat} {s : Heap} (h : WF0 C D s) {n : Nat} {q : QuadTree}
    (hq : s.nodes n = some q) :
    WF0 C D ((unlinkAll s q.objects).setNode n { q with objects := [] }) := by
  refine h.modify (w := { q with objects := [] }) hq
    (fun m => by simp [unlinkAll_nodes]) (by simp [unlinkAll_next])
    ⟨rfl, rfl, rfl, rfl, rfl, rfl⟩ (Or.inl rfl) ?_ List.nodup_nil ?_ ?_ ?_
  · rintro (hb | hb)
    · exact h.live n q hq (Or.inl hb)
    · exact absurd rfl hb
  · intro j hj
    simp only [setNode_items, unlinkAll_qt] at hj
    by_cases hjm : j ∈ q.objects
    · simp [hjm] at hj
    · rw [if_neg hjm] at hj
      obtain ⟨q', hq', hmem⟩ := h.ownedBy j n hj
      rw [hq] at hq'; cases hq'
      exact absurd hmem hjm
  · intro j m hmn
    simp only [setNode_items, unlinkAll_qt]
    by_cases hjm : j ∈ q.objects
    · rw [if_pos hjm, h.owner n q j hq hjm]
      constructor
      · intro h1; cases h1
      · intro h1; exact absurd (Option.some.inj h1).symm hmn
    · rw [if_neg hjm]
  · intro j hj
    cases hj

theorem shrinks_dropObjects {s : Heap} {n : Nat} {q : QuadTree} (hq : s.nodes n = some q) :
    Shrinks s ((unlinkAll s q.objects).setNode n { q with objects := [] }) := by
  refine ⟨by simp [unlinkAll_next], fun i => ⟨by simp [unlinkAll_bound], ?_⟩, fun m => ⟨?_, ?_⟩⟩
  · simp only [setNode_items, unlinkAll_qt]
    by_cases hjm : i ∈ q.objects
    · exact Or.inr (by rw [if_pos hjm])
    · exact Or.inl (by rw [if_neg hjm])
  · intro hm
    have hmn : m ≠ n := by
      intro h; subst h; rw [hq] at hm; cases hm
    simp only [setNode_nodes, if_neg hmn, unlinkAll_nodes]
    exact hm
  · intro qm hm
    by_cases hmn : m = n
    · subst hmn
      rw [hq] at hm; cases hm
      exact ⟨{ q with objects := [] }, by simp, ⟨rfl, rfl, rfl, rfl, rfl, rfl⟩, Or.inl rfl,
        Or.inr rfl⟩
    · exact ⟨qm, by simp only [setNode_nodes, if_neg hmn, unlinkAll_nodes]; exact hm,
        sameFrame_refl _, Or.inl rfl, Or.inl rfl⟩

theorem shrinks_asLeaf {s : Heap} {n : Nat} {q : QuadTree} (hq : s.nodes n = some q) :
    Shrinks s (s.setNode n q.asLeaf) := by
  refine ⟨rfl, fun i => ⟨rfl, Or.inl rfl⟩, fun m => ⟨?_, ?_⟩⟩
  · intro hm
    have hmn : m ≠ n := by
      intro h; subst h; rw [hq] at hm; cases hm
    simp only [setNode_nodes, if_neg hmn]
    exact hm
  · intro qm hm
    by_cases hmn : m = n
    · subst hmn
      rw [hq] at hm; cases hm
      exact ⟨q.asLeaf, by simp, ⟨rfl, rfl, rfl, rfl, rfl, rfl⟩, Or.inr rfl, Or.inl rfl⟩
    · exact ⟨qm, by simp only [setNode_nodes, if_neg hmn]; exact hm,
        sameFrame_refl _, Or.inl rfl, Or.inl rfl⟩

/-- The loop `for (QuadTree *child : children) child->clear()`, given that each call
succeeds on the stores the loop can reach. -/
theorem forEach_clear_spec {C D : Nat} {f : Nat} {a : Heap} {l : List Nat}
    (hstep : ∀ u c, WF0 C D u → Shrinks a u → c ∈ l →
      ∃ u2, clear f u c = some u2 ∧ WF0 C D u2 ∧ Idle u2 c ∧ Shrinks u u2) :
    ∀ (cs : List Nat) (u : Heap), (∀ c ∈ cs, c ∈ l) → WF0 C D u → Shrinks a u →
      ∃ t, forEach (fun st c => clear f st c) u cs = some t ∧ WF0 C D t ∧ Shrinks u t ∧
        ∀ c ∈ cs, Idle t c := by
  intro cs
  induction cs with
  | nil =>
    intro u _ hw _
    exact ⟨u, rfl, hw, Shrinks.shrinks_refl u, fun c hc => by cases hc⟩
  | cons c rest ih =>
    intro u hsub hw hsh
    obtain ⟨u2, hc2, hw2, hi2, hs2⟩ := hstep u c hw hsh (hsub c (List.mem_cons_self _ _))
    obtain ⟨t, ht, hwt, hst, hit⟩ := ih u2 (fun c hc => hsub c (List.mem_cons_of_mem _ hc)) hw2
      (hsh.shrinks_trans hs2)
    refine ⟨t, by simp only [forEach, hc2]; exact ht, hwt, hs2.shrinks_trans hst, fun c' hc' => ?_⟩
    rcases List.mem_cons.1 hc' with rfl | h
    · exact hst.idle hi2
    · exact hit c' h

/-- `clear` on a node of a well-formed store returns, with enough fuel for the levels
below the node; the node ends up idle and the store stays well-formed. -/
theorem clear_spec {C D : Nat} : ∀ (k : Nat) (s : Heap) (n : Nat) (q : QuadTree),
    WF0 C D s → s.nodes n = some q → D ≤ q.level + k →
    ∃ t, clear (k + 1) s n = some t ∧ WF0 C D t ∧ Idle t n ∧ Shrinks s t := by
  intro k
  induction k with
  | zero =>
    intro s n q hw hq hk
    have hl : q.isLeaf = true := by
      by_contra hl
      have := (hw.kids n q hq (by simpa using hl)).1
      omega
    refine ⟨_, ?_, hw.dropObjects hq, ⟨{ q with objects := [] }, by simp, hl, rfl⟩,
      shrinks_dropObjects hq⟩
    rw [clear]
    simp only [hq, hl, if_true, dropObjects_eq hq]
  | succ k ih =>
    intro s n q hw hq hk
    have hw1 := hw.dropObjects hq
    have hs1 := shrinks_dropObjects hq
    by_cases hl : q.isLeaf = true
    · refine ⟨_, ?_, hw1, ⟨{ q with objects := [] }, by simp, hl, rfl⟩, hs1⟩
      rw [clear]
      simp only [hq, hl, if_true, dropObjects_eq hq]
    · have hl2 : q.isLeaf = false := by simpa using hl
      obtain ⟨hlev, h4, _, hkids⟩ := hw.kids n q hq hl2
      obtain ⟨t, ht, hwt, hst, hit⟩ := forEach_clear_spec (C := C) (D := D) (f := k + 1)
        (a := (unlinkAll s q.objects).setNode n { q with objects := [] }) (l := q.children)
        (fun u c hwu hsu hc => by
          obtain ⟨qc, hqc, hcp⟩ := hkids c hc
          obtain ⟨qc1, hqc1, hf1, _, _⟩ := (hs1.2.2 c).2 qc hqc
          obtain ⟨qc2, hqc2, hf2, _, _⟩ := (hsu.2.2 c).2 qc1 hqc1
          obtain ⟨qp, hqp, hlv⟩ := hw.par c qc n hqc hcp
          rw [hq] at hqp; cases hqp
          have hlc : qc2.level = q.level + 1 := by rw [hf2.1, hf1.1]; exact hlv
          exact ih u c qc2 hwu hqc2 (by omega))
        q.children _ (fun c hc => hc) hw1 (Shrinks.shrinks_refl _)
      obtain ⟨q2, hq2, hf2, _, ho2⟩ := (hst.2.2 n).2 { q with objects := [] } (by simp)
      have hcol : Collapsible t q2 := by
        refine ⟨?_, Or.inr ⟨by rw [hf2.2.2.2.2.2]; exact h4, fun c hc => ?_⟩⟩
        · rcases ho2 with h | h <;> exact h
        · rw [hf2.2.2.2.2.2] at hc
          exact hit c hc
      refine ⟨t.setNode n q2.asLeaf, ?_, hwt.flip hq2 hcol, ⟨q2.asLeaf, by simp, rfl, hcol.1⟩,
        (hs1.shrinks_trans hst).shrinks_trans (shrinks_asLeaf hq2)⟩
      rw [clear]
      simp only [hq]
      rw [if_neg hl, kids_eq_some.2 ⟨h4, rfl⟩]
      dsimp only
      rw [dropObjects_eq hq, ht]
      dsimp only
      rw [hq2]

theorem WF0.init (B : Rect) (C D : Nat) (bounds : Nat → Rect) :
    WF0 C D (Heap.init B C D bounds) := by
  have hnode : ∀ m qm, (Heap.init B C D bounds).nodes m = some qm →
      m = 0 ∧ qm = QuadTree.mk0 B C D := by
    intro m qm hm
    simp only [Heap.init] at hm
    by_cases h0 : m = 0
    · rw [if_pos h0] at hm; exact ⟨h0, (Option.some.inj hm).symm⟩
    · rw [if_neg h0] at hm; cases hm
  constructor
  · intro n hn
    simp only [Heap.init] at hn ⊢
    rw [if_neg (by omega)]
  · exact ⟨QuadTree.mk0 B C D, rfl, rfl, rfl⟩
  · intro n q hq
    obtain ⟨_, rfl⟩ := hnode n q hq
    exact ⟨rfl, rfl⟩
  · intro n q p hq hp
    obtain ⟨_, rfl⟩ := hnode n q hq
    cases hp
  · intro n q hq hl
    obtain ⟨_, rfl⟩ := hnode n q hq
    cases hl
  · intro n q hq hl
    obtain ⟨_, rfl⟩ := hnode n q hq
    cases hl
  · intro n q hq _
    exact Or.inl (hnode n q hq).1
  · intro i n hi
    cases hi
  · intro n q i hq hi
    obtain ⟨_, rfl⟩ := hnode n q hq
    cases hi
  · intro n q hq
    obtain ⟨_, rfl⟩ := hnode n q hq
    exact List.nodup_nil

theorem inv_init (B : Rect) (C D : Nat) (bounds : Nat → Rect) :
    Inv C D (Heap.init B C D bounds) := by
  refine ⟨WF0.init B C D bounds, ?_, Or.inr ⟨⟨QuadTree.mk0 B C D, rfl, rfl, rfl⟩, fun i => rfl⟩⟩
  intro n q hq hl
  simp only [Heap.init] at hq
  by_cases h0 : n = 0
  · rw [if_pos h0] at hq; cases hq; cases hl
  · rw [if_neg h0] at hq; cases hq

/-- Well-formedness only reads the nodes, the allocation pointer and the owner
pointers. -/
theorem WF0.congr {C D : Nat} {s t : Heap} (h : WF0 C D s) (hn : t.nodes = s.nodes)
    (hx : t.next = s.next) (hq : ∀ i, (t.items i).qt = (s.items i).qt) : WF0 C D t := by
  obtain ⟨q0, hq0⟩ := h.root
  refine h.modify (n := 0) (q := q0) (w := q0) hq0.1 (fun m => ?_) hx (sameFrame_refl _)
    (Or.inl rfl) (fun hb => Or.inl rfl) (h.nodup 0 q0 hq0.1) ?_ (fun i m _ => by rw [hq]) ?_
  · rw [hn]
    by_cases hm : m = 0
    · rw [if_pos hm, hm]; exact hq0.1
    · rw [if_neg hm]
  · intro i hi
    rw [hq] at hi
    obtain ⟨q', hq', hmem⟩ := h.ownedBy i 0 hi
    rw [hq0.1] at hq'; cases hq'
    exact hmem
  · intro i hi
    rw [hq]
    exact h.owner 0 q0 i hq0.1 hi

/-- In a well-formed store every busy node hangs below busy nodes up to the root. -/
theorem WF0.not_busy_of_root_idle {C D : Nat} {s : Heap} (h : WF0 C D s) (h0 : Idle s 0) :
    ∀ (k n : Nat) (q : QuadTree), s.nodes n = some q → q.level ≤ k → ¬ q.busy := by
  intro k
  induction k with
  | zero =>
    intro n q hq hk hb
    rcases h.live n q hq hb with rfl | ⟨q', p, qp, hq', hp, hqp, _, _⟩
    · obtain ⟨q0, hq0, hl, he⟩ := h0
      rw [hq] at hq0; cases hq0
      rcases hb with hb | hb
      · rw [hl] at hb; cases hb
      · exact hb he
    · rw [hq] at hq'; cases hq'
      obtain ⟨_, _, hlv⟩ := h.par n q p hq hp
      omega
  | succ k ih =>
    intro n q hq hk hb
    rcases h.live n q hq hb with rfl | ⟨q', p, qp, hq', hp, hqp, hpl, _⟩
    · obtain ⟨q0, hq0, hl, he⟩ := h0
      rw [hq] at hq0; cases hq0
      rcases hb with hb | hb
      · rw [hl] at hb; cases hb
      · exact hb he
    · rw [hq] at hq'; cases hq'
      obtain ⟨qp', hqp', hlv⟩ := h.par n q p hq hp
      rw [hqp] at hqp'; cases hqp'
      exact ih p qp hqp (by omega) (Or.inl hpl)

theorem WF0.all_idle {C D : Nat} {s : Heap} (h : WF0 C D s) (h0 : Idle s 0) {n : Nat}
    {q : QuadTree} (hq : s.nodes n = some q) : q.isLeaf = true ∧ q.objects = [] := by
  have hnb := h.not_busy_of_root_idle h0 q.level n q hq (Nat.le_refl _)
  constructor
  · by_contra hl
    exact hnb (Or.inl (by simpa using hl))
  · by_contra he
    exact hnb (Or.inr he)

theorem WF0.untracked_of_root_idle {C D : Nat} {s : Heap} (h : WF0 C D s) (h0 : Idle s 0)
    (i : Nat) : (s.items i).qt = none := by
  cases hq : (s.items i).qt with
  | none => rfl
  | some n =>
    obtain ⟨q, hqn, hmem⟩ := h.ownedBy i n hq
    rw [(h.all_idle h0 hqn).2] at hmem
    cases hmem

/-- `clear` on the root of a well-formed store: whatever the fuel it returned with,
the root ends up idle and the store well-formed. -/
theorem clear_root_outcome {C D : Nat} {s t : Heap} (hw : WF0 C D s) {f : Nat}
    (h : clear f s 0 = some t) : WF0 C D t ∧ Idle t 0 ∧ Shrinks s t := by
  obtain ⟨q0, hq0, _, hl0⟩ := hw.root
  obtain ⟨t2, ht2, hw2, hi2, hs2⟩ := clear_spec D s 0 q0 hw hq0 (by omega)
  have h1 := clear_mono_le (Nat.le_add_right f (D + 1)) h
  have h2 := clear_mono_le (Nat.le_add_left (D + 1) f) ht2
  rw [h1] at h2
  cases h2
  exact ⟨hw2, hi2, hs2⟩

theorem inv_step {C D : Nat} {s t : Heap} (hinv : Inv C D s) (c : Call) {fuel : Nat} {b : Bool}
    (h : c.run fuel s = some (b, t)) : Inv C D t := by
  obtain ⟨hw, hnv, hreg⟩ := hinv
  -- in the degenerate configuration nothing is tracked, and `insert` does not return
  have hdeg : ¬ (2 ≤ C ∨ D = 0) → Idle s 0 ∧ ∀ i, (s.items i).qt = none := by
    intro hA
    rcases hreg with h1 | h1
    · exact absurd h1 hA
    · exact h1
  cases c with
  | insert i =>
    by_cases hA : 2 ≤ C ∨ D = 0
    · obtain ⟨h1, h2, _⟩ := (insert_update_wf hA fuel).1 s 0 i (b, t) hw hnv (Or.inl rfl) h
      exact ⟨h1, h2, Or.inl hA⟩
    · exfalso
      obtain ⟨⟨q0, hq0, hl0, he0⟩, hun⟩ := hdeg hA
      obtain ⟨q0', hq0', hp0, hlv0⟩ := hw.root
      rw [hq0] at hq0'; cases hq0'
      obtain ⟨hc, hm⟩ := hw.conf 0 q0 hq0
      have := insert_root_diverges fuel s i q0 hq0 hl0 he0 hp0 (by omega) (by omega) (hun i)
        (hw.lt_next hq0)
      simp only [Call.run] at h
      rw [this] at h; cases h
  | remove i =>
    simp only [Call.run] at h
    rcases remove_outcome hw hnv h with ⟨_, _, rfl⟩ | ⟨n, q, hqt, _, _, _, _, hwt, hnvt⟩
    · exact ⟨hw, hnv, hreg⟩
    · refine ⟨hwt, hnvt, ?_⟩
      rcases hreg with h1 | ⟨_, h1⟩
      · exact Or.inl h1
      · rw [h1 i] at hqt; cases hqt
  | update i =>
    simp only [Call.run] at h
    by_cases hA : 2 ≤ C ∨ D = 0
    · obtain ⟨h1, h2, _⟩ := (insert_update_wf hA fuel).2 s 0 i (b, t) hw hnv (Or.inl rfl) h
      exact ⟨h1, h2, Or.inl hA⟩
    · obtain ⟨_, hun⟩ := hdeg hA
      cases fuel with
      | zero => simp [update] at h
      | succ f =>
        obtain ⟨b1, s1, hrem, hcase⟩ := update_inv h
        rcases remove_outcome hw hnv hrem with ⟨_, rfl, rfl⟩ | ⟨n, _, hqt, _⟩
        · rcases hcase with ⟨_, hr⟩ | ⟨hb, _⟩
          · cases hr
            exact ⟨hw, hnv, hreg⟩
          · cases hb
        · rw [hun i] at hqt; cases hqt
  | clear =>
    simp only [Call.run] at h
    cases hc : QuadTreeCpp.clear fuel s 0 with
    | none => rw [hc] at h; cases h
    | some t2 =>
      rw [hc] at h
      cases h
      obtain ⟨hwt, hit, hst⟩ := clear_root_outcome hw hc
      refine ⟨hwt, ?_, ?_⟩
      · intro n q hq hl
        rw [(hwt.all_idle hit hq).1] at hl; cases hl
      · exact Or.inr ⟨hit, hwt.untracked_of_root_idle hit⟩
  | setBound i r =>
    simp only [Call.run] at h
    cases h
    have hqt : ∀ j, ((s.setBound i r).items j).qt = (s.items j).qt := by
      intro j
      unfold Heap.setBound
      by_cases hj : j = i <;> simp [hj]
    refine ⟨hw.congr rfl rfl hqt, hnv, ?_⟩
    rcases hreg with h1 | ⟨h1, h2⟩
    · exact Or.inl h1
    · exact Or.inr ⟨h1, fun j => by rw [hqt]; exact h2 j⟩

theorem inv_steps {C D : Nat} {allowed : Call → Prop} {s t : Heap} (h : Steps allowed s t)
    (hinv : Inv C D s) : Inv C D t := by
  induction h with
  | refl => exact hinv
  | step c fuel b _ _ hrun ih => exact inv_step ih c hrun

theorem inv_of_reach {B : Rect} {C D : Nat} {s : Heap} (h : Reach B C D s) : Inv C D s := by
  obtain ⟨bounds, hs⟩ := h
  exact inv_steps hs (inv_init B C D bounds)

theorem WF0.live_of_busy {C D : Nat} {s : Heap} (h : WF0 C D s) :
    ∀ (k n : Nat) (q : QuadTree), s.nodes n = some q → q.level ≤ k → q.busy → Live s n := by
  intro k
  induction k with
  | zero =>
    intro n q hq hk hb
    rcases h.live n q hq hb with rfl | ⟨q', p, qp, hq', hp, hqp, _, _⟩
    · exact Live.root
    · rw [hq] at hq'; cases hq'
      obtain ⟨_, _, hlv⟩ := h.par n q p hq hp
      omega
  | succ k ih =>
    intro n q hq hk hb
    rcases h.live n q hq hb with rfl | ⟨q', p, qp, hq', hp, hqp, hpl, hmem⟩
    · exact Live.root
    · rw [hq] at hq'; cases hq'
      obtain ⟨qp', hqp', hlv⟩ := h.par n q p hq hp
      rw [hqp] at hqp'; cases hqp'
      exact Live.child (ih p qp hqp (by omega) (Or.inl hpl)) hqp hpl hmem

theorem steps_of_runCalls {fuel : Nat} : ∀ (calls : List Call) (s : Heap) (r : List Bool × Heap),
    runCalls fuel s calls = some r → Steps (fun _ => True) s r.2 := by
  intro calls
  induction calls using List.reverseRecOn with
  | nil =>
    intro s r h
    simp only [runCalls] at h
    cases h
    exact Steps.refl s
  | append_singleton cs c ih =>
    intro s r h
    -- split the run at the last call
    have key : ∀ (l : List Call) (s : Heap) (r : List Bool × Heap),
        runCalls fuel s (l ++ [c]) = some r →
        ∃ r1 b, runCalls fuel s l = some r1 ∧ c.run fuel r1.2 = some (b, r.2) := by
      intro l
      induction l with
      | nil =>
        intro s r h
        simp only [List.nil_append, runCalls] at h
        split at h
        · cases h
        · rename_i b s1 hc
          cases h
          exact ⟨([], s), b, rfl, hc⟩
      | cons a l ihl =>
        intro s r h
        simp only [List.cons_append, runCalls] at h
        split at h
        · cases h
        · rename_i b s1 ha
          split at h
          · cases h
          · rename_i bs s2 hrest
            cases h
            obtain ⟨r1, b1, h1, h2⟩ := ihl s1 (bs, s2) hrest
            refine ⟨(b :: r1.1, r1.2), b1, ?_, h2⟩
            simp only [runCalls, ha, h1]
    obtain ⟨r1, b, h1, h2⟩ := key cs s r h
    exact Steps.step c fuel b (ih s r1 h1) trivial h2

theorem reach_finalHeap {B : Rect} {C D : Nat} {bounds : Nat → Rect} {fuel : Nat}
    {calls : List Call} (h : (runCalls fuel (Heap.init B C D bounds) calls).isSome = true) :
    Reach B C D (finalHeap fuel (Heap.init B C D bounds) calls) := by
  cases hr : runCalls fuel (Heap.init B C D bounds) calls with
  | none => rw [hr] at h; cases h
  | some r =>
    refine ⟨bounds, ?_⟩
    have : finalHeap fuel (Heap.init B C D bounds) calls = r.2 := by
      simp [finalHeap, hr]
    rw [this]
    exact steps_of_runCalls calls _ r hr

/-- C2. Single ownership: in every state reached from an empty root by calls on the
root (with the owner free to move items in between), an item whose owner pointer
names a node is listed exactly once by that node, which is a node of the tree, and
by no other node; an item without owner is listed by no node. -/
theorem C2_single_ownership {B : Rect} {C D : Nat} {s : Heap} (h : Reach B C D s) (i : Nat) :
    (∀ n, (s.items i).qt = some n →
      Live s n ∧ ∃ q, s.nodes n = some q ∧ q.objects.count i = 1 ∧
        ∀ m qm, s.nodes m = some qm → m ≠ n → i ∉ qm.objects) ∧
    ((s.items i).qt = none → ∀ m qm, s.nodes m = some qm → i ∉ qm.objects) := by
  obtain ⟨hw, _, _⟩ := inv_of_reach h
  constructor
  · intro n hn
    obtain ⟨q, hq, hmem⟩ := hw.ownedBy i n hn
    refine ⟨hw.live_of_busy q.level n q hq (Nat.le_refl _) (Or.inr (List.ne_nil_of_mem hmem)),
      q, hq, List.count_eq_one_of_mem (hw.nodup n q hq) hmem, fun m qm hm hmn hmem2 => ?_⟩
    have := hw.owner m qm i hm hmem2
    rw [hn] at this
    exact hmn (Option.some.inj this).symm
  · intro hn m qm hm hmem
    rw [hw.owner m qm i hm hmem] at hn
    cases hn

theorem e2_reach : Reach ⟨0, 0, 100, 100⟩ 2 4 (finalHeap 10 e1Init e2Calls) :=
  reach_finalHeap (by decide!)

theorem C2_witness :
    Reach ⟨0, 0, 100, 100⟩ 2 4 (finalHeap 10 e1Init e2Calls) ∧
    ((∀ n, ((finalHeap 10 e1Init e2Calls).items 2).qt = some n →
      Live (finalHeap 10 e1Init e2Calls) n ∧
        ∃ q, (finalHeap 10 e1Init e2Calls).nodes n = some q ∧ q.objects.count 2 = 1 ∧
          ∀ m qm, (finalHeap 10 e1Init e2Calls).nodes m = some qm → m ≠ n → 2 ∉ qm.objects) ∧
    (((finalHeap 10 e1Init e2Calls).items 2).qt = none →
      ∀ m qm, (finalHeap 10 e1Init e2Calls).nodes m = some qm → 2 ∉ qm.objects)) :=
  ⟨e2_reach, C2_single_ownership e2_reach 2⟩

theorem getChild_none_of_straddles {q : QuadTree} {b : Rect} (h : Straddles q.bounds b) :
    getChild q b = none := by
  unfold getChild Rect.getRight Rect.getTop
  dsimp only
  rcases h with ⟨h1, h2⟩ | ⟨h1, h2⟩
  · have hl : ¬ (b.x + b.width < q.bounds.x + q.bounds.width * (1 / 2)) := not_lt.2 h2
    have hr : ¬ (b.x > q.bounds.x + q.bounds.width * (1 / 2)) := not_lt.2 h1
    simp only [hl, hr, decide_False, Bool.false_eq_true, if_false, ite_self]
  · have hl : ¬ (b.y + b.height < q.bounds.y + q.bounds.height * (1 / 2)) := not_lt.2 h2
    have hr : ¬ (b.y > q.bounds.y + q.bounds.height * (1 / 2)) := not_lt.2 h1
    simp only [hl, hr, if_false]

theorem route_none_of_straddles {q : QuadTree} {b : Rect} (h : Straddles q.bounds b) :
    q.route b = none := by
  unfold QuadTree.route
  rw [getChild_none_of_straddles h]
  simp

/-- The footprint of a call that returned, in a reachable state. -/
theorem call_eff {C D : Nat} {s t : Heap} (hinv : Inv C D s) {j fuel : Nat} {b : Bool}
    {c : Call} (hc : c = .insert j ∨ c = .remove j ∨ c = .update j)
    (h : c.run fuel s = some (b, t)) : Eff j s t := by
  have hinv2 := inv_step hinv c h
  obtain ⟨hw, hnv, hreg⟩ := hinv
  by_cases hA : 2 ≤ C ∨ D = 0
  · rcases hc with rfl | rfl | rfl
    · exact ((insert_update_wf hA fuel).1 s 0 j (b, t) hw hnv (Or.inl rfl) h).2.2
    · exact remove_eff hw hnv h
    · exact ((insert_update_wf hA fuel).2 s 0 j (b, t) hw hnv (Or.inl rfl) h).2.2
  · have hun : ∀ i, (s.items i).qt = none := by
      rcases hreg with h1 | h1
      · exact absurd h1 hA
      · exact h1.2
    rcases hc with rfl | rfl | rfl
    · exfalso
      rcases hreg with h1 | ⟨⟨q0, hq0, hl0, he0⟩, _⟩
      · exact hA h1
      obtain ⟨q0', hq0', hp0, hlv0⟩ := hw.root
      rw [hq0] at hq0'; cases hq0'
      obtain ⟨hc, hm⟩ := hw.conf 0 q0 hq0
      have := insert_root_diverges fuel s j q0 hq0 hl0 he0 hp0 (by omega) (by omega) (hun j)
        (hw.lt_next hq0)
      simp only [Call.run] at h
      rw [this] at h; cases h
    · exact remove_eff hw hnv h
    · simp only [Call.run] at h
      cases fuel with
      | zero => simp [update] at h
      | succ f =>
        obtain ⟨b1, s1, hrem, hcase⟩ := update_inv h
        rcases remove_outcome hw hnv hrem with ⟨_, rfl, rfl⟩ | ⟨n, _, hqt, _⟩
        · rcases hcase with ⟨_, hr⟩ | ⟨hb, _⟩
          · cases hr
            exact Eff.eff_refl _ _
          · cases hb
        · rw [hun j] at hqt; cases hqt

theorem heldByRoot_of_eff {s t : Heap} {i j : Nat} (hij : j ≠ i) (he : Eff j s t)
    (h : HeldByRoot s i) : HeldByRoot t i := by
  obtain ⟨hqt, q, hq, hmem⟩ := h
  obtain ⟨_, hitems, _, hnodes⟩ := he
  obtain ⟨q2, hq2, _, hf⟩ := hnodes 0 q hq
  refine ⟨by rw [hitems i (Ne.symm hij)]; exact hqt, q2, hq2, ?_⟩
  have : i ∈ q.objects.filter (fun x => decide (x ≠ j)) := by
    simp only [List.mem_filter, decide_eq_true_eq]
    exact ⟨hmem, Ne.symm hij⟩
  rw [← hf] at this
  exact (List.mem_filter.1 this).1

theorem heldByRoot_step {C D : Nat} {s t : Heap} (hinv : Inv C D s) {i : Nat} {c : Call}
    (hc : c.avoids i) {fuel : Nat} {b : Bool} (h : c.run fuel s = some (b, t))
    (hh : HeldByRoot s i) : HeldByRoot t i := by
  cases c with
  | insert j => exact heldByRoot_of_eff hc (call_eff hinv (Or.inl rfl) h) hh
  | remove j => exact heldByRoot_of_eff hc (call_eff hinv (Or.inr (Or.inl rfl)) h) hh
  | update j => exact heldByRoot_of_eff hc (call_eff hinv (Or.inr (Or.inr rfl)) h) hh
  | clear => exact absurd hc (by simp [Call.avoids])
  | setBound j r =>
    simp only [Call.run] at h
    cases h
    obtain ⟨hqt, q, hq, hmem⟩ := hh
    refine ⟨?_, q, hq, hmem⟩
    unfold Heap.setBound
    by_cases hj : i = j <;> simp [hj, hqt]
    · rw [← hj]; exact hqt

theorem heldByRoot_steps {C D : Nat} {i : Nat} {s t : Heap} (h : Steps (Call.avoids i) s t)
    (hinv : Inv C D s) (hh : HeldByRoot s i) : Inv C D t ∧ HeldByRoot t i := by
  induction h with
  | refl => exact ⟨hinv, hh⟩
  | step c fuel b _ hc hrun ih => exact ⟨inv_step ih.1 c hrun, heldByRoot_step ih.1 hc hrun ih.2⟩

/-- `insert` on the root of an item that straddles the root's centre, whenever it
returns, leaves the item in the root's own list. -/
theorem insert_straddling {C D : Nat} : ∀ (f : Nat) (s : Heap) (i : Nat) (r : Bool × Heap)
    (q0 : QuadTree), WF0 C D s → NonVoid s → s.nodes 0 = some q0 →
    Straddles q0.bounds (s.items i).bound → (s.items i).qt = none →
    insert f s 0 i = some r → HeldByRoot r.2 i := by
  intro f
  induction f using Nat.strong_induction_on with
  | _ f ih =>
    intro s i r q0 hw hnv hq0 hstr hqt h
    cases f with
    | zero => simp [insert] at h
    | succ f =>
    rcases insert_inv h with ⟨h1, _⟩ | ⟨_, q, hq, hcase⟩
    · rw [hqt] at h1; cases h1
    rw [hq0] at hq; cases hq
    rw [route_none_of_straddles hstr] at hcase
    rcases hcase with ⟨c, hc, _⟩ | ⟨_, hcase⟩
    · cases hc
    rcases hcase with ⟨_, rfl⟩ | ⟨hsplit, s2, r2, hsub, hupd, rfl⟩
    · exact ⟨by simp, { q0 with objects := q0.objects ++ [i] }, by simp, by simp⟩
    obtain ⟨hl, hlev, _⟩ := hsplit
    have hw1 := hw.wf_link hq0 hqt (Or.inl rfl)
    have hnv1 : NonVoid (s.link 0 q0 i) := hnv.nv_link hw q0 i
    have hq1 : (s.link 0 q0 i).nodes 0 = some { q0 with objects := q0.objects ++ [i] } := by simp
    have hD : q0.level < D := by rw [← (hw.conf 0 q0 hq0).2]; exact hlev
    have hw2 := hw1.wf_subdivide hq1 hl hD (Or.inl rfl) hsub
    have hnv2 := hnv1.nv_subdivide hw1 hq1 (by simp) hsub
    have he2 : Eff i s s2 := (eff_link s 0 q0 i hq0).eff_trans (eff_subdivide hw1 hq1 hsub i)
    obtain ⟨_, hitems, _⟩ := hw1.wf_subdivide_nodes hq1 hsub
    cases f with
    | zero => simp [update] at hupd
    | succ f =>
    obtain ⟨b, s3, hrem, hcase⟩ := update_inv hupd
    have he3 : Eff i s s3 := he2.eff_trans (remove_eff hw2 hnv2 hrem)
    have hqt2 : (s2.items i).qt = some 0 := by rw [hitems]; simp
    rcases remove_outcome hw2 hnv2 hrem with ⟨h1, _, _⟩ | ⟨n, qn, _, hqn, _, rfl, hcol, hw3, hnv3⟩
    · rw [hqt2] at h1; cases h1
    rcases hcase with ⟨hb, _⟩ | ⟨_, q3, hq3, hcase⟩
    · cases hb
    obtain ⟨q3', hq3', hbox, _⟩ := he3.2.2.2 0 q0 hq0
    rw [hq3] at hq3'; cases hq3'
    have hstr3 : Straddles q3.bounds (s3.items i).bound := by
      rw [hbox.2.2.2.1, he3.2.2.1]; exact hstr
    have hqt3 : (s3.items i).qt = none := by
      rw [hcol.frame.1]; simp
    rcases hcase with ⟨p, hp, _⟩ | ⟨_, hcase⟩
    · obtain ⟨q0', hq0', hp0, _⟩ := hw3.root
      rw [hq3] at hq0'; cases hq0'
      rw [hp0] at hp; cases hp
    rw [route_none_of_straddles hstr3] at hcase
    rcases hcase with ⟨c, hc, _⟩ | ⟨_, hins⟩
    · cases hc
    exact ih f (by omega) s3 i r2 q3 hw3 hnv3 hq3 hstr3 hqt3 hins

theorem heldOnlyByRoot_of_inv {C D : Nat} {s : Heap} (hinv : Inv C D s) {i : Nat}
    (h : HeldByRoot s i) : HeldOnlyByRoot s i := by
  refine ⟨h, fun m qm hm hm0 hmem => ?_⟩
  have := hinv.1.owner m qm i hm hmem
  rw [h.1] at this
  exact hm0 (Option.some.inj this).symm

/-- C10. Straddling items stay put (E4): in a reachable state, when `insert` on the
root returns for an untracked item whose bound straddles the root's centre, the item
is held directly by the root and by no child, and this is still so after any later
calls about other items (insert, remove, update, bounds being moved). -/
theorem C10_straddling_items_stay_at_root {B : Rect} {C D : Nat} {s : Heap}
    (h : Reach B C D s) (i : Nat) (q0 : QuadTree) (hq0 : s.nodes 0 = some q0)
    (hstr : Straddles q0.bounds (s.items i).bound) (hqt : (s.items i).qt = none)
    (fuel : Nat) (r : Bool × Heap) (hins : insert fuel s 0 i = some r) :
    HeldOnlyByRoot r.2 i ∧ ∀ u, Steps (Call.avoids i) r.2 u → HeldOnlyByRoot u i := by
  have hinv := inv_of_reach h
  have hheld := insert_straddling fuel s i r q0 hinv.1 hinv.2.1 hq0 hstr hqt hins
  have hinv2 : Inv C D r.2 := inv_step hinv (.insert i)
    (show Call.run fuel s (.insert i) = some (r.1, r.2) from hins)
  refine ⟨heldOnlyByRoot_of_inv hinv2 hheld, fun u hu => ?_⟩
  obtain ⟨h1, h2⟩ := heldByRoot_steps hu hinv2 hheld
  exact heldOnlyByRoot_of_inv h1 h2

theorem eq_some_getD {α : Type} {o : Option α} (d : α) (h : o.isSome = true) :
    o = some (o.getD d) := by
  cases o with
  | none => cases h
  | some a => rfl

theorem e4_reach : Reach ⟨0, 0, 100, 100⟩ 2 4 e4Heap :=
  reach_finalHeap (by decide!)

theorem C10_witness :
    HeldOnlyByRoot ((insert 10 e4Heap 0 2).getD (false, e4Heap)).2 2 ∧
    ∀ u, Steps (Call.avoids 2) ((insert 10 e4Heap 0 2).getD (false, e4Heap)).2 u →
      HeldOnlyByRoot u 2 :=
  C10_straddling_items_stay_at_root e4_reach 2
    { isLeaf := false, level := 0, capacity := 2, maxLevel := 4, bounds := ⟨0, 0, 100, 100⟩,
      parent := none, children := [1, 2, 3, 4], objects := [0] }
    (by decide!) (by decide!) (by decide!) 10 _ (eq_some_getD _ (by decide!))

theorem insert_eq_link {s : Heap} {this i : Nat} {q : QuadTree} (f : Nat)
    (hqt : (s.items i).qt = none) (hq : s.nodes this = some q)
    (hr : q.route (s.items i).bound = none) (hs : ¬ q.mustSplit) :
    insert (f + 1) s this i = some (true, s.link this q i) := by
  rw [insert]
  have hr' : (if q.isLeaf = true then none else getChild q (s.items i).bound) = none := hr
  simp only [hqt, Option.isSome_none, Bool.false_eq_true, if_false, hq, hr']
  have hcond : ¬ ((q.isLeaf && decide (q.level < q.maxLevel) &&
      decide (q.capacity ≤ (q.objects ++ [i]).length)) = true) := by
    intro hc
    simp only [Bool.and_eq_true, decide_eq_true_eq, List.length_append,
      List.length_singleton] at hc
    exact hs ⟨hc.1.1, hc.1.2, hc.2⟩
  rw [if_neg hcond]

theorem totalObjects_idle {s : Heap} {n : Nat} (h : Idle s n) (f : Nat) :
    totalObjects (f + 1) s n = some 0 := by
  obtain ⟨q, hq, hl, he⟩ := h
  rw [totalObjects]
  simp [hq, hl, he]

theorem totalChildren_idle {s : Heap} {n : Nat} (h : Idle s n) (f : Nat) :
    totalChildren (f + 1) s n = some 0 := by
  obtain ⟨q, hq, hl, he⟩ := h
  rw [totalChildren]
  simp [hq, hl]

/-- C8. `clear()` on the root of a reachable state returns; afterwards no item is
tracked, `totalObjects()` and `totalChildren()` are 0 (the root is an empty leaf), and
every item that was tracked can be inserted again, `insert` returning `true`. -/
theorem C8_clear_resets_the_tree {B : Rect} {C D : Nat} {s : Heap} (h : Reach B C D s) :
    ∃ t, (∀ f, D + 1 ≤ f → clear f s 0 = some t) ∧ (∀ i, (t.items i).qt = none) ∧
      (∀ f, totalObjects (f + 1) t 0 = some 0 ∧ totalChildren (f + 1) t 0 = some 0) ∧
      ∀ i, (s.items i).qt ≠ none → ∀ f, ∃ u, insert (f + 1) t 0 i = some (true, u) := by
  obtain ⟨hw, _, hreg⟩ := inv_of_reach h
  obtain ⟨q0, hq0, _, hl0⟩ := hw.root
  obtain ⟨t, ht, hwt, hit, hst⟩ := clear_spec D s 0 q0 hw hq0 (by omega)
  refine ⟨t, fun f hf => clear_mono_le hf ht, hwt.untracked_of_root_idle hit,
    fun f => ⟨totalObjects_idle hit f, totalChildren_idle hit f⟩, fun i hi f => ?_⟩
  obtain ⟨qt, hqt, hlt, het⟩ := hit
  rcases hreg with hA | ⟨_, hun⟩
  · refine ⟨_, insert_eq_link f (hwt.untracked_of_root_idle ⟨qt, hqt, hlt, het⟩ i) hqt
      (route_leaf hlt _) ?_⟩
    rintro ⟨_, hlev, hcap⟩
    obtain ⟨hc, hm⟩ := hwt.conf 0 qt hqt
    obtain ⟨qr, hqr, _, hlr⟩ := hwt.root
    rw [hqt] at hqr; cases hqr
    rw [het] at hcap
    simp only [List.length_nil] at hcap
    rcases hA with h2 | h0 <;> omega
  · exact absurd (hun i) hi

theorem C8_witness :
    ∃ t, (∀ f, 4 + 1 ≤ f → clear f (finalHeap 10 e1Init e2Calls) 0 = some t) ∧
      (∀ i, (t.items i).qt = none) ∧
      (∀ f, totalObjects (f + 1) t 0 = some 0 ∧ totalChildren (f + 1) t 0 = some 0) ∧
      ∀ i, ((finalHeap 10 e1Init e2Calls).items i).qt ≠ none →
        ∀ f, ∃ u, insert (f + 1) t 0 i = some (true, u) :=
  C8_clear_resets_the_tree e2_reach

/-- With no item tracked, a well-formed store without collapsible nodes has no
subdivided node at all. -/
theorem WF0.leaf_of_untracked {C D : Nat} {s : Heap} (hw : WF0 C D s) (hnv : NonVoid s)
    (hun : ∀ i, (s.items i).qt = none) :
    ∀ (k n : Nat) (q : QuadTree), s.nodes n = some q → D ≤ q.level + k → q.isLeaf = true := by
  have hempty : ∀ n q, s.nodes n = some q → q.objects = [] := by
    intro n q hq
    cases hqo : q.objects with
    | nil => rfl
    | cons a l =>
      have := hw.owner n q a hq (by simp [hqo])
      rw [hun a] at this; cases this
  intro k
  induction k with
  | zero =>
    intro n q hq hk
    by_contra hl
    have := (hw.kids n q hq (by simpa using hl)).1
    omega
  | succ k ih =>
    intro n q hq hk
    by_contra hl
    have hl2 : q.isLeaf = false := by simpa using hl
    obtain ⟨_, h4, _, hkids⟩ := hw.kids n q hq hl2
    apply hnv n q hq hl2
    refine ⟨hempty n q hq, Or.inr ⟨h4, fun c hc => ?_⟩⟩
    obtain ⟨qc, hqc, hcp⟩ := hkids c hc
    obtain ⟨qp, hqp, hlv⟩ := hw.par c qc n hqc hcp
    rw [hq] at hqp; cases hqp
    exact ⟨qc, hqc, ih c qc hqc (by omega), hempty c qc hqc⟩

theorem remove_untracked {s : Heap} {i : Nat} (h : (s.items i).qt = none) (f this : Nat) :
    remove (f + 1) s this i = some (false, s) := by
  rw [remove]; simp [h]

/-- Removing the items of a list one after the other, each call on the root: every
call returns, and afterwards only items that were tracked before and are not in the
list can still be tracked. -/
theorem remove_all {C D : Nat} (f : Nat) : ∀ (order : List Nat) (s : Heap), Inv C D s →
    ∃ bs t, runCalls (f + D + 5) s (order.map Call.remove) = some (bs, t) ∧ Inv C D t ∧
      ∀ i, (t.items i).qt ≠ none → (s.items i).qt ≠ none ∧ i ∉ order := by
  intro order
  induction order with
  | nil =>
    intro s hinv
    exact ⟨[], s, rfl, hinv, fun i hi => ⟨hi, by simp⟩⟩
  | cons a rest ih =>
    intro s hinv
    have hstep : ∃ b s1, remove (f + D + 5) s 0 a = some (b, s1) ∧
        (s1.items a).qt = none ∧ ∀ i, (s1.items i).qt ≠ none → (s.items i).qt ≠ none := by
      cases hqa : (s.items a).qt with
      | none =>
        exact ⟨false, s, remove_untracked hqa _ 0, hqa, fun i hi => hi⟩
      | some n =>
        obtain ⟨q, t, hq, _, hcol, _, _, hrem⟩ := remove_spec hinv.1 hinv.2.1 hqa
        have hitems := hcol.frame.1
        refine ⟨true, t, hrem 0 f, by rw [hitems]; simp, fun i hi => ?_⟩
        rw [hitems, unlink_qt] at hi
        by_cases hia : i = a
        · rw [if_pos hia] at hi; exact absurd rfl hi
        · rw [if_neg hia] at hi; exact hi
    obtain ⟨b, s1, hrem, hqa1, hmono⟩ := hstep
    have hinv1 : Inv C D s1 := inv_step hinv (.remove a)
      (show Call.run (f + D + 5) _ (.remove a) = some (b, s1) from hrem)
    obtain ⟨bs, t, hrun, hinvt, hpost⟩ := ih s1 hinv1
    refine ⟨b :: bs, t, ?_, hinvt, fun i hi => ?_⟩
    · simp only [List.map_cons, runCalls, Call.run, hrem, hrun]
    · obtain ⟨h1, h2⟩ := hpost i hi
      refine ⟨hmono i h1, ?_⟩
      intro hmem
      rcases List.mem_cons.1 hmem with rfl | hmem
      · exact h1 hqa1
      · exact h2 hmem

/-- C4. Full collapse (P4/E3): from a reachable state, removing the items of any list
that contains every tracked item, one `remove` on the root after the other, returns
each time and leaves `totalObjects() == 0` and `totalChildren() == 0`. -/
theorem C4_full_collapse {B : Rect} {C D : Nat} {s : Heap} (h : Reach B C D s)
    (order : List Nat) (hall : ∀ i, (s.items i).qt ≠ none → i ∈ order) (f : Nat) :
    ∃ bs t, runCalls (f + D + 5) s (order.map Call.remove) = some (bs, t) ∧
      ∀ g, totalObjects (g + 1) t 0 = some 0 ∧ totalChildren (g + 1) t 0 = some 0 := by
  obtain ⟨bs, t, hrun, hinv, hpost⟩ := remove_all f order s (inv_of_reach h)
  refine ⟨bs, t, hrun, fun g => ?_⟩
  have hun : ∀ i, (t.items i).qt = none := by
    intro i
    by_contra hi
    obtain ⟨h1, h2⟩ := hpost i hi
    exact h2 (hall i h1)
  obtain ⟨q0, hq0, _, hl0⟩ := hinv.1.root
  have hleaf := hinv.1.leaf_of_untracked hinv.2.1 hun D 0 q0 hq0 (by omega)
  have hidle : Idle t 0 := by
    refine ⟨q0, hq0, hleaf, ?_⟩
    cases hqo : q0.objects with
    | nil => rfl
    | cons a l =>
      have := hinv.1.owner 0 q0 a hq0 (by simp [hqo])
      rw [hun a] at this; cases this
  exact ⟨totalObjects_idle hidle g, totalChildren_idle hidle g⟩

theorem steps_of_runCalls_of {fuel : Nat} {allowed : Call → Prop} :
    ∀ (calls : List Call) (s : Heap) (r : List Bool × Heap), (∀ c ∈ calls, allowed c) →
    runCalls fuel s calls = some r → Steps allowed s r.2 := by
  intro calls
  induction calls using List.reverseRecOn with
  | nil =>
    intro s r _ h
    simp only [runCalls] at h
    cases h
    exact Steps.refl s
  | append_singleton cs c ih =>
    intro s r hall h
    have key : ∀ (l : List Call) (s : Heap) (r : List Bool × Heap),
        runCalls fuel s (l ++ [c]) = some r →
        ∃ r1 b, runCalls fuel s l = some r1 ∧ c.run fuel r1.2 = some (b, r.2) := by
      intro l
      induction l with
      | nil =>
        intro s r h
        simp only [List.nil_append, runCalls] at h
        split at h
        · cases h
        · rename_i b s1 hc
          cases h
          exact ⟨([], s), b, rfl, hc⟩
      | cons a l ihl =>
        intro s r h
        simp only [List.cons_append, runCalls] at h
        split at h
        · cases h
        · rename_i b s1 ha
          split at h
          · cases h
          · rename_i bs s2 hrest
            cases h
            obtain ⟨r1, b1, h1, h2⟩ := ihl s1 (bs, s2) hrest
            refine ⟨(b :: r1.1, r1.2), b1, ?_, h2⟩
            simp only [runCalls, ha, h1]
    obtain ⟨r1, b, h1, h2⟩ := key cs s r h
    exact Steps.step c fuel b (ih s r1 (fun c hc => hall c (List.mem_append_left _ hc)) h1)
      (hall c (by simp)) h2

/-- Calls that are not about an item leave its owner pointer alone. -/
theorem qt_of_steps_avoiding {C D : Nat} {i : Nat} {s t : Heap}
    (h : Steps (Call.avoids i) s t) (hinv : Inv C D s) :
    Inv C D t ∧ (t.items i).qt = (s.items i).qt := by
  induction h with
  | refl => exact ⟨hinv, rfl⟩
  | step c fuel b _ hc hrun ih =>
    obtain ⟨hinv1, hq1⟩ := ih
    refine ⟨inv_step hinv1 c hrun, ?_⟩
    rw [← hq1]
    cases c with
    | insert j => rw [(call_eff hinv1 (Or.inl rfl) hrun).2.1 i (Ne.symm hc)]
    | remove j => rw [(call_eff hinv1 (Or.inr (Or.inl rfl)) hrun).2.1 i (Ne.symm hc)]
    | update j => rw [(call_eff hinv1 (Or.inr (Or.inr rfl)) hrun).2.1 i (Ne.symm hc)]
    | clear => exact absurd hc (by simp [Call.avoids])
    | setBound j r =>
      simp only [Call.run] at hrun
      cases hrun
      unfold Heap.setBound
      by_cases hj : i = j <;> simp [hj]

/-- After the calls of scenarios E1 and E2 only the items 0, 1 and 2 can be tracked. -/
theorem e2_tracked (i : Nat) (h : ((finalHeap 10 e1Init e2Calls).items i).qt ≠ none) :
    i ∈ [0, 1, 2] := by
  by_contra hi
  simp only [List.mem_cons, List.mem_singleton, List.not_mem_nil, or_false, not_or] at hi
  apply h
  have hsome : (runCalls 10 e1Init e2Calls).isSome = true := by decide!
  cases hr : runCalls 10 e1Init e2Calls with
  | none => rw [hr] at hsome; cases hsome
  | some r =>
    have hfin : finalHeap 10 e1Init e2Calls = r.2 := by simp [finalHeap, hr]
    rw [hfin]
    have hsteps : Steps (Call.avoids i) e1Init r.2 := by
      refine steps_of_runCalls_of e2Calls e1Init r (fun c hc => ?_) hr
      simp only [e2Calls, e1Calls, List.cons_append, List.nil_append, List.mem_cons,
        List.mem_singleton, List.not_mem_nil, or_false] at hc
      rcases hc with rfl | rfl | rfl | rfl | rfl
      · exact fun h0 => hi.1 h0.symm
      · exact fun h0 => hi.2.1 h0.symm
      · exact fun h0 => hi.2.2 h0.symm
      · trivial
      · exact fun h0 => hi.2.2 h0.symm
    exact (qt_of_steps_avoiding hsteps (inv_init _ 2 4 e1Bounds)).2

theorem C4_witness :
    ∃ bs t, runCalls (0 + 4 + 5) (finalHeap 10 e1Init e2Calls)
        ([0, 1, 2].map Call.remove) = some (bs, t) ∧
      ∀ g, totalObjects (g + 1) t 0 = some 0 ∧ totalChildren (g + 1) t 0 = some 0 :=
  C4_full_collapse e2_reach [0, 1, 2] e2_tracked 0

theorem insert_eq_route {s : Heap} {this i c : Nat} {q : QuadTree} (f : Nat)
    (hqt : (s.items i).qt = none) (hq : s.nodes this = some q)
    (hr : q.route (s.items i).bound = some c) :
    insert (f + 1) s this i = insert f s c i := by
  rw [insert]
  have hr' : (if q.isLeaf = true then none else getChild q (s.items i).bound) = some c := hr
  simp only [hqt, Option.isSome_none, Bool.false_eq_true, if_false, hq, hr']

theorem update_eq_of_root {s s1 : Heap} {this i : Nat} {q : QuadTree} {f : Nat}
    (hrem : remove f s this i = some (true, s1)) (hq : s1.nodes this = some q)
    (hp : q.parent = none) :
    update (f + 1) s this i =
      match q.route (s1.items i).bound with
      | some c => insert f s1 c i
      | none => insert f s1 this i := by
  rw [update]
  simp only [hrem, hq, hp, Option.isSome_none, Bool.false_and, Bool.false_eq_true, if_false]
  rfl

/-- In a reachable state and for a tracked item, `update` on the root returns a result
(Boolean and new state) exactly when `remove` followed by `insert`, both on the root,
return it. -/
theorem update_iff_remove_insert {B : Rect} {C D : Nat} {s : Heap}
    (h : Reach B C D s) (i : Nat) (ht : (s.items i).qt ≠ none) (r : Bool × Heap) :
    (∃ f, update f s 0 i = some r) ↔
    (∃ f s1, remove f s 0 i = some (true, s1) ∧ insert f s1 0 i = some r) := by
  obtain ⟨hw, hnv, _⟩ := inv_of_reach h
  -- facts about any state `remove` returns
  have hpost : ∀ f b s1, remove f s 0 i = some (b, s1) →
      b = true ∧ (s1.items i).qt = none ∧ ∃ q, s1.nodes 0 = some q ∧ q.parent = none := by
    intro f b s1 hrem
    rcases remove_outcome hw hnv hrem with ⟨h1, _, _⟩ | ⟨n, qn, _, _, _, hb, hcol, hw1, _⟩
    · exact absurd h1 ht
    · obtain ⟨q, hq, hp, _⟩ := hw1.root
      exact ⟨hb, by rw [hcol.frame.1]; simp, q, hq, hp⟩
  constructor
  · rintro ⟨f, hu⟩
    cases f with
    | zero => simp [update] at hu
    | succ f =>
      obtain ⟨b, s1, hrem, hcase⟩ := update_inv hu
      obtain ⟨hb, hqt1, q, hq, hp⟩ := hpost f b s1 hrem
      subst hb
      rcases hcase with ⟨hb, _⟩ | ⟨_, q', hq', hcase⟩
      · cases hb
      rw [hq] at hq'; cases hq'
      rcases hcase with ⟨p, hp', _⟩ | ⟨_, hcase⟩
      · rw [hp] at hp'; cases hp'
      rcases hcase with ⟨c, hc, hins⟩ | ⟨_, hins⟩
      · refine ⟨f + 1, s1, remove_mono _ _ _ _ _ hrem, ?_⟩
        rw [insert_eq_route f hqt1 hq hc]
        exact hins
      · exact ⟨f, s1, hrem, hins⟩
  · rintro ⟨f, s1, hrem, hins⟩
    obtain ⟨_, hqt1, q, hq, hp⟩ := hpost f true s1 hrem
    refine ⟨f + 1, ?_⟩
    rw [update_eq_of_root hrem hq hp]
    cases hc : q.route (s1.items i).bound with
    | none => exact hins
    | some c =>
      dsimp only
      cases f with
      | zero => simp [insert] at hins
      | succ f =>
        rw [insert_eq_route f hqt1 hq hc] at hins
        exact (insert_update_mono f).1 _ _ _ _ hins

theorem Below.level {C D : Nat} {s : Heap} (hw : WF0 C D s) {a n : Nat} (h : Below s a n) :
    ∀ qn, s.nodes n = some qn → ∃ qa, s.nodes a = some qa ∧ qa.level ≤ qn.level ∧
      (qa.level = qn.level → a = n) := by
  induction h with
  | refl => intro qn hqn; exact ⟨qn, hqn, Nat.le_refl _, fun _ => rfl⟩
  | step hq hp _ ih =>
    intro qn hqn
    rw [hq] at hqn; cases hqn
    obtain ⟨qp, hqp, hlv⟩ := hw.par _ _ _ hq hp
    obtain ⟨qa, hqa, hle, _⟩ := ih qp hqp
    exact ⟨qa, hqa, by omega, fun h => by omega⟩

theorem Below.unique {C D : Nat} {s : Heap} (hw : WF0 C D s) {a n : Nat} (h : Below s a n) :
    ∀ b qa qb, Below s b n → s.nodes a = some qa → s.nodes b = some qb →
      qa.level = qb.level → a = b := by
  induction h with
  | refl =>
    intro b qa qb hb hqa hqb hl
    obtain ⟨qb', hqb', _, heq⟩ := hb.level hw qa hqa
    rw [hqb] at hqb'; cases hqb'
    exact (heq hl.symm).symm
  | step hq hp ha ih =>
    intro b qa qb hb hqa hqb hl
    cases hb with
    | refl =>
      obtain ⟨qp, hqp, hlv⟩ := hw.par _ _ _ hq hp
      obtain ⟨qa', hqa', hle, _⟩ := ha.level hw qp hqp
      rw [hqa] at hqa'; cases hqa'
      rw [hq] at hqb; cases hqb
      omega
    | step hq' hp' hb' =>
      rw [hq] at hq'; cases hq'
      rw [hp] at hp'; cases hp'
      exact ih b qa qb hb' hqa hqb hl

theorem Below.of_child {s : Heap} {c m n : Nat} {qc : QuadTree} (hqc : s.nodes c = some qc)
    (hp : qc.parent = some m) (h : Below s c n) : Below s m n := by
  induction h with
  | refl => exact Below.step hqc hp (Below.refl m)
  | step hq hp' _ ih => exact Below.step hq hp' ih

/-- Above a busy node every node is subdivided and lists the next node down. -/
theorem Below.child_of_busy {C D : Nat} {s : Heap} (hw : WF0 C D s) {m n : Nat}
    (h : Below s m n) : ∀ qn, s.nodes n = some qn → qn.busy → m ≠ n →
      ∃ qm c, s.nodes m = some qm ∧ qm.isLeaf = false ∧ c ∈ qm.children ∧ Below s c n := by
  induction h with
  | refl => intro qn _ _ hne; exact absurd rfl hne
  | @step n p q hq hp ha ih =>
    intro qn hqn hb _
    rw [hq] at hqn; cases hqn
    rcases hw.live n q hq hb with h0 | ⟨q', p', qp, hq', hp', hqp, hpl, hmem⟩
    · subst h0
      obtain ⟨q0, hq0, hp0, _⟩ := hw.root
      rw [hq] at hq0; cases hq0
      rw [hp0] at hp; cases hp
    · rw [hq] at hq'; cases hq'
      rw [hp] at hp'; cases hp'
      by_cases hap : m = p
      · subst hap
        exact ⟨qp, n, hqp, hpl, hmem, Below.refl n⟩
      · obtain ⟨qm, c, hqm, hml, hc, hcb⟩ := ih qp hqp (Or.inl hpl) hap
        exact ⟨qm, c, hqm, hml, hc, Below.step hq hp hcb⟩

theorem sumOver_congr {step step2 : Nat → Option Nat} :
    ∀ (cs : List Nat) (t : Nat), (∀ c ∈ cs, ∀ k, step c = some k → step2 c = some k) →
      sumOver step cs = some t → sumOver step2 cs = some t := by
  intro cs
  induction cs with
  | nil => intro t _ h; exact h
  | cons c rest ih =>
    intro t hc h
    simp only [sumOver] at h ⊢
    split at h
    · cases h
    · rename_i k hk
      rw [hc c (List.mem_cons_self _ _) k hk]
      dsimp only
      split at h
      · cases h
      · rename_i t' ht'
        rw [ih t' (fun c' hc' => hc c' (List.mem_cons_of_mem _ hc')) ht']
        exact h

theorem sumOver_idle {s : Heap} {f : Nat} : ∀ (cs : List Nat) (t : Nat),
    (∀ c ∈ cs, Idle s c) → sumOver (fun c => totalObjects f s c) cs = some t → t = 0 := by
  intro cs
  induction cs with
  | nil => intro t _ h; simp only [sumOver] at h; cases h; rfl
  | cons c rest ih =>
    intro t hc h
    simp only [sumOver] at h
    split at h
    · cases h
    · rename_i k hk
      split at h
      · cases h
      · rename_i t' ht'
        cases h
        have h0 := ih t' (fun c' hc' => hc c' (List.mem_cons_of_mem _ hc')) ht'
        cases f with
        | zero => simp [totalObjects] at hk
        | succ f =>
          rw [totalObjects_idle (hc c (List.mem_cons_self _ _)) f] at hk
          cases hk
          omega

theorem totalObjects_succ (f : Nat) (s : Heap) (n : Nat) :
    totalObjects (f + 1) s n =
      match s.nodes n with
      | none => none
      | some q =>
        if q.isLeaf then some q.objects.length
        else (q.kids.bind fun cs => sumOver (fun c => totalObjects f s c) cs).map
          fun total => q.objects.length + total := by
  rw [totalObjects]
  cases s.nodes n with
  | none => rfl
  | some q =>
    dsimp only
    by_cases hl : q.isLeaf = true
    · simp only [hl, if_true]
    · simp only [hl, if_false]
      cases q.kids with
      | none => rfl
      | some cs =>
        simp only [Option.some_bind]
        cases sumOver (fun c => totalObjects f s c) cs <;> rfl

/-- Marking a collapsible node a leaf does not change any `totalObjects()`. -/
theorem totalObjects_flip {s : Heap} {n : Nat} {q : QuadTree} (hq : s.nodes n = some q)
    (hc : Collapsible s q) : ∀ (f m k : Nat), totalObjects f s m = some k →
      totalObjects f (s.setNode n q.asLeaf) m = some k := by
  intro f
  induction f with
  | zero => intro m k h; simp [totalObjects] at h
  | succ f ih =>
    intro m k h
    rw [totalObjects_succ] at h ⊢
    by_cases hmn : m = n
    · subst hmn
      rw [hq] at h
      dsimp only at h
      simp only [setNode_nodes, if_true]
      have hleaf : q.asLeaf.isLeaf = true := rfl
      have hobj : q.asLeaf.objects = q.objects := rfl
      simp only [hleaf, if_true, hobj]
      by_cases hl : q.isLeaf = true
      · simpa only [hl, if_true] using h
      · rcases hc.2 with h1 | ⟨h4, hidle⟩
        · exact absurd h1 hl
        · rw [if_neg hl, kids_eq_some.2 ⟨h4, rfl⟩, Option.some_bind] at h
          cases ht : sumOver (fun c => totalObjects f s c) q.children with
          | none => rw [ht] at h; cases h
          | some t =>
            rw [ht] at h
            have := sumOver_idle _ t hidle ht
            subst this
            simpa using h
    · simp only [setNode_nodes, if_neg hmn]
      cases hqm : s.nodes m with
      | none => rw [hqm] at h; cases h
      | some qm =>
        rw [hqm] at h
        dsimp only at h ⊢
        by_cases hl : qm.isLeaf = true
        · simpa only [hl, if_true] using h
        · rw [if_neg hl] at h ⊢
          cases hk : qm.kids with
          | none => rw [hk] at h; cases h
          | some cs =>
            rw [hk] at h
            rw [Option.some_bind] at h ⊢
            cases ht : sumOver (fun c => totalObjects f s c) cs with
            | none => rw [ht] at h; cases h
            | some t =>
              rw [ht] at h
              rw [sumOver_congr cs t (fun c _ k hk => ih c k hk) ht]
              exact h

theorem totalObjects_collapses {s t : Heap} (h : Collapses s t) :
    ∀ (f m k : Nat), totalObjects f s m = some k → totalObjects f t m = some k := by
  induction h with
  | refl => intro f m k h; exact h
  | step hq hc _ ih => intro f m k h; exact ih f m k (totalObjects_flip hq hc f m k h)

theorem Below.root_of_busy {C D : Nat} {s : Heap} (hw : WF0 C D s) :
    ∀ (k n : Nat) (q : QuadTree), s.nodes n = some q → q.level ≤ k → q.busy → Below s 0 n := by
  intro k
  induction k with
  | zero =>
    intro n q hq hk hb
    rcases hw.live n q hq hb with rfl | ⟨q', p, qp, hq', hp, hqp, _, _⟩
    · exact Below.refl 0
    · rw [hq] at hq'; cases hq'
      obtain ⟨_, _, hlv⟩ := hw.par n q p hq hp
      omega
  | succ k ih =>
    intro n q hq hk hb
    rcases hw.live n q hq hb with rfl | ⟨q', p, qp, hq', hp, hqp, hpl, _⟩
    · exact Below.refl 0
    · rw [hq] at hq'; cases hq'
      obtain ⟨qp', hqp', hlv⟩ := hw.par n q p hq hp
      rw [hqp] at hqp'; cases hqp'
      exact Below.step hq hp (ih p qp hqp (by omega) (Or.inl hpl))

/-- A sum over distinct nodes of which at most one is marked: when each marked
summand drops by one and the others stay, the sum drops by one or stays. -/
theorem sumOver_drop {step step2 : Nat → Option Nat} {P : Nat → Prop} :
    ∀ (cs : List Nat) (t : Nat), cs.Nodup →
      (∀ c ∈ cs, ∀ c2 ∈ cs, P c → P c2 → c = c2) →
      (∀ c ∈ cs, ∀ k, step c = some k →
        (P c → 1 ≤ k ∧ step2 c = some (k - 1)) ∧ (¬ P c → step2 c = some k)) →
      sumOver step cs = some t →
      ((∃ c ∈ cs, P c) → 1 ≤ t ∧ sumOver step2 cs = some (t - 1)) ∧
      ((∀ c ∈ cs, ¬ P c) → sumOver step2 cs = some t) := by
  intro cs
  induction cs with
  | nil =>
    intro t _ _ _ h
    exact ⟨fun ⟨c, hc, _⟩ => (by cases hc), fun _ => h⟩
  | cons c rest ih =>
    intro t hnd huniq hstep h
    simp only [sumOver] at h
    cases hk : step c with
    | none => rw [hk] at h; cases h
    | some k =>
      rw [hk] at h
      dsimp only at h
      cases ht : sumOver step rest with
      | none => rw [ht] at h; cases h
      | some t' =>
        rw [ht] at h
        cases h
        obtain ⟨hcn, hndr⟩ := List.nodup_cons.1 hnd
        obtain ⟨ih1, ih2⟩ := ih t' hndr
          (fun a ha b hb => huniq a (List.mem_cons_of_mem _ ha) b (List.mem_cons_of_mem _ hb))
          (fun a ha => hstep a (List.mem_cons_of_mem _ ha)) ht
        obtain ⟨hs1, hs2⟩ := hstep c (List.mem_cons_self _ _) k hk
        by_cases hPc : P c
        · have hrest : ∀ a ∈ rest, ¬ P a := by
            intro a ha hPa
            have := huniq c (List.mem_cons_self _ _) a (List.mem_cons_of_mem _ ha) hPc hPa
            subst this
            exact hcn ha
          obtain ⟨hk1, hk2⟩ := hs1 hPc
          refine ⟨fun _ => ⟨by omega, ?_⟩, fun hno => absurd hPc (hno c (List.mem_cons_self _ _))⟩
          simp only [sumOver, hk2, ih2 hrest]
          congr 1
          omega
        · constructor
          · rintro ⟨a, ha, hPa⟩
            rcases List.mem_cons.1 ha with rfl | ha
            · exact absurd hPa hPc
            · obtain ⟨ht1, ht2⟩ := ih1 ⟨a, ha, hPa⟩
              refine ⟨by omega, ?_⟩
              simp only [sumOver, hs2 hPc, ht2]
              congr 1
              omega
          · intro hno
            simp only [sumOver, hs2 hPc, ih2 fun a ha => hno a (List.mem_cons_of_mem _ ha)]

/-- Unlinking an object from its owner lowers `totalObjects()` by one on the nodes
above the owner and on the owner, and nowhere else. -/
theorem totalObjects_unlink {C D : Nat} {s : Heap} (hw : WF0 C D s) {M i : Nat}
    {q : QuadTree} (hq : s.nodes M = some q) (hi : i ∈ q.objects) :
    ∀ (f m k : Nat), totalObjects f s m = some k →
      (Below s m M → 1 ≤ k ∧ totalObjects f (s.unlink M q i) m = some (k - 1)) ∧
      (¬ Below s m M → totalObjects f (s.unlink M q i) m = some k) := by
  have hbusy : q.busy := Or.inr (List.ne_nil_of_mem hi)
  have hlen : 1 ≤ q.objects.length := List.length_pos_of_mem hi
  have hlen2 : (q.objects.erase i).length = q.objects.length - 1 := List.length_erase_of_mem hi
  intro f
  induction f with
  | zero => intro m k h; simp [totalObjects] at h
  | succ f ih =>
    intro m k h
    rw [totalObjects_succ] at h ⊢
    cases hqm : s.nodes m with
    | none => rw [hqm] at h; cases h
    | some qm =>
    rw [hqm] at h
    dsimp only at h
    by_cases hmM : m = M
    · subst hmM
      rw [hq] at hqm; cases hqm
      refine ⟨fun _ => ?_, fun hnb => absurd (Below.refl m) hnb⟩
      simp only [unlink_nodes, if_true]
      by_cases hl : q.isLeaf = true
      · rw [if_pos hl] at h ⊢
        cases h
        exact ⟨hlen, by rw [hlen2]⟩
      · rw [if_neg hl] at h ⊢
        cases hk : q.kids with
        | none => rw [hk] at h; cases h
        | some cs =>
          obtain ⟨_, rfl⟩ := kids_eq_some.1 hk
          rw [hk, Option.some_bind] at h
          have hk' : QuadTree.kids { q with objects := q.objects.erase i } = some q.children := hk
          rw [hk', Option.some_bind]
          cases ht : sumOver (fun c => totalObjects f s c) q.children with
          | none => rw [ht] at h; cases h
          | some t =>
            rw [ht] at h
            simp only [Option.map_some', Option.some.injEq] at h
            subst h
            have hsame : sumOver (fun c => totalObjects f (s.unlink m q i) c) q.children
                = some t := by
              refine sumOver_congr q.children t (fun c hc k hk => ?_) ht
              refine (ih c k hk).2 fun hb => ?_
              obtain ⟨qc, hqc, hcp⟩ := (hw.kids m q hq (by simpa using hl)).2.2.2 c hc
              obtain ⟨qp, hqp, hlv⟩ := hw.par c qc m hqc hcp
              rw [hq] at hqp; cases hqp
              obtain ⟨qc', hqc', hle, _⟩ := hb.level hw q hq
              rw [hqc] at hqc'; cases hqc'
              omega
            rw [hsame]
            refine ⟨by omega, ?_⟩
            simp only [Option.map_some', hlen2]
            congr 1
            omega
    · simp only [unlink_nodes, if_neg hmM, hqm]
      by_cases hl : qm.isLeaf = true
      · rw [if_pos hl] at h ⊢
        refine ⟨fun hb => ?_, fun _ => h⟩
        obtain ⟨qm', _, hqm', hml, _⟩ := hb.child_of_busy hw q hq hbusy hmM
        rw [hqm] at hqm'; cases hqm'
        rw [hl] at hml; cases hml
      · rw [if_neg hl] at h ⊢
        have hl2 : qm.isLeaf = false := by simpa using hl
        obtain ⟨_, h4, hnd, hkids⟩ := hw.kids m qm hqm hl2
        rw [kids_eq_some.2 ⟨h4, rfl⟩, Option.some_bind] at h ⊢
        cases ht : sumOver (fun c => totalObjects f s c) qm.children with
        | none => rw [ht] at h; cases h
        | some t =>
          rw [ht] at h
          simp only [Option.map_some', Option.some.injEq] at h
          subst h
          obtain ⟨hd1, hd2⟩ := sumOver_drop (P := fun c => Below s c M) qm.children t hnd
            (fun c hc c2 hc2 hb hb2 => by
              obtain ⟨qc, hqc, hcp⟩ := hkids c hc
              obtain ⟨qc2, hqc2, hcp2⟩ := hkids c2 hc2
              obtain ⟨qp, hqp, hlv⟩ := hw.par c qc m hqc hcp
              obtain ⟨qp2, hqp2, hlv2⟩ := hw.par c2 qc2 m hqc2 hcp2
              rw [hqm] at hqp hqp2; cases hqp; cases hqp2
              exact hb.unique hw c2 qc qc2 hb2 hqc hqc2 (by omega))
            (fun c _ k hk => ih c k hk) ht
          constructor
          · intro hb
            obtain ⟨qm', c, hqm', _, hc, hcb⟩ := hb.child_of_busy hw q hq hbusy hmM
            rw [hqm] at hqm'; cases hqm'
            obtain ⟨h1, h2⟩ := hd1 ⟨c, hc, hcb⟩
            rw [h2]
            refine ⟨by omega, ?_⟩
            simp only [Option.map_some']
            congr 1
            omega
          · intro hnb
            rw [hd2 fun c hc hcb => hnb (by
              obtain ⟨qc, hqc, hcp⟩ := hkids c hc
              exact hcb.of_child hqc hcp)]
            rfl

theorem sumOver_isSome {g : Nat → Option Nat} : ∀ (cs : List Nat),
    (∀ c ∈ cs, ∃ k, g c = some k) → ∃ t, sumOver g cs = some t := by
  intro cs
  induction cs with
  | nil => intro _; exact ⟨0, rfl⟩
  | cons c rest ih =>
    intro h
    obtain ⟨k, hk⟩ := h c (List.mem_cons_self _ _)
    obtain ⟨t, ht⟩ := ih fun a ha => h a (List.mem_cons_of_mem _ ha)
    exact ⟨k + t, by simp only [sumOver, hk, ht]⟩

/-- `totalObjects()` returns on every node of a well-formed store. -/
theorem totalObjects_total {C D : Nat} {s : Heap} (hw : WF0 C D s) :
    ∀ (k n : Nat) (q : QuadTree), s.nodes n = some q → D ≤ q.level + k →
      ∃ t, totalObjects (k + 1) s n = some t := by
  intro k
  induction k with
  | zero =>
    intro n q hq hk
    have hl : q.isLeaf = true := by
      by_contra hl
      have := (hw.kids n q hq (by simpa using hl)).1
      omega
    exact ⟨q.objects.length, by rw [totalObjects_succ, hq]; simp [hl]⟩
  | succ k ih =>
    intro n q hq hk
    by_cases hl : q.isLeaf = true
    · exact ⟨q.objects.length, by rw [totalObjects_succ, hq]; simp [hl]⟩
    · obtain ⟨_, h4, _, hkids⟩ := hw.kids n q hq (by simpa using hl)
      obtain ⟨t, ht⟩ := sumOver_isSome (g := fun c => totalObjects (k + 1) s c) q.children
        (fun c hc => by
          obtain ⟨qc, hqc, hcp⟩ := hkids c hc
          obtain ⟨qp, hqp, hlv⟩ := hw.par c qc n hqc hcp
          rw [hq] at hqp; cases hqp
          exact ih c qc hqc (by omega))
      refine ⟨q.objects.length + t, ?_⟩
      rw [totalObjects_succ, hq]
      dsimp only
      rw [if_neg hl, kids_eq_some.2 ⟨h4, rfl⟩, Option.some_bind, ht]
      rfl

/-- C6. Remove postcondition and frame: in a reachable state, `remove` of a tracked
item returns `true` with the same new state from whichever node it is called on;
afterwards the item has no owner and is in no node's list, every other item is as
before (same owner, same bound), and `totalObjects()` on the root is lower by
exactly one. -/
theorem C6_remove_postcondition {B : Rect} {C D : Nat} {s : Heap} (h : Reach B C D s)
    (i n : Nat) (hi : (s.items i).qt = some n) :
    ∃ t, (∀ this f, remove (f + D + 5) s this i = some (true, t)) ∧
      (t.items i).qt = none ∧ (∀ m qm, t.nodes m = some qm → i ∉ qm.objects) ∧
      (∀ j, j ≠ i → t.items j = s.items j) ∧
      ∀ f, D + 1 ≤ f →
        ∃ k, totalObjects f s 0 = some (k + 1) ∧ totalObjects f t 0 = some k := by
  obtain ⟨hw, hnv, _⟩ := inv_of_reach h
  obtain ⟨q, t, hq, hmem, hcol, hwt, _, hrem⟩ := remove_spec hw hnv hi
  have hitems := hcol.frame.1
  have hqt : (t.items i).qt = none := by rw [hitems]; simp
  refine ⟨t, hrem, hqt, fun m qm hm hmem2 => ?_, fun j hj => ?_, fun f hf => ?_⟩
  · rw [hwt.owner m qm i hm hmem2] at hqt; cases hqt
  · rw [hitems]
    exact items_eq_of_setQt_ne _ _ hj
  · obtain ⟨q0, hq0, _, hl0⟩ := hw.root
    obtain ⟨k, hk⟩ := totalObjects_total hw (f - 1) 0 q0 hq0 (by omega)
    rw [show f - 1 + 1 = f by omega] at hk
    have hbelow : Below s 0 n :=
      Below.root_of_busy hw q.level n q hq (Nat.le_refl _) (Or.inr (List.ne_nil_of_mem hmem))
    obtain ⟨hk1, hk2⟩ := (totalObjects_unlink hw hq hmem f 0 k hk).1 hbelow
    refine ⟨k - 1, ?_, totalObjects_collapses hcol f 0 (k - 1) hk2⟩
    rw [hk]
    congr 1
    omega

theorem C6_witness :
    ∃ t, (∀ this f, remove (f + 4 + 5) (finalHeap 10 e1Init e2Calls) this 2 = some (true, t)) ∧
      (t.items 2).qt = none ∧ (∀ m qm, t.nodes m = some qm → 2 ∉ qm.objects) ∧
      (∀ j, j ≠ 2 → t.items j = (finalHeap 10 e1Init e2Calls).items j) ∧
      ∀ f, 4 + 1 ≤ f →
        ∃ k, totalObjects f (finalHeap 10 e1Init e2Calls) 0 = some (k + 1) ∧
          totalObjects f t 0 = some k :=
  C6_remove_postcondition e2_reach 2 8 (by decide!)

theorem getChild_eq (q : QuadTree) (b : Rect) :
    getChild q b = (quadrantOf q.bounds b).bind fun k => q.children[k]? := by
  unfold getChild quadrantOf
  dsimp only
  split
  · split
    · rfl
    · split <;> rfl
  · split
    · split
      · rfl
      · split <;> rfl
    · rfl

theorem quadrantOf_lt {r b : Rect} {k : Nat} (h : quadrantOf r b = some k) : k < 4 := by
  unfold quadrantOf at h
  dsimp only at h
  split at h
  · split at h
    · cases h; omega
    · split at h
      · cases h; omega
      · cases h
  · split at h
    · split at h
      · cases h; omega
      · split at h
        · cases h; omega
        · cases h
    · cases h

theorem contains_iff {r b : Rect} : r.contains b = true ↔
    r.x ≤ b.x ∧ r.y ≤ b.y ∧ b.x + b.width ≤ r.x + r.width ∧ b.y + b.height ≤ r.y + r.height := by
  unfold Rect.contains
  constructor
  · intro h
    split at h
    · cases h
    · split at h
      · cases h
      · split at h
        · cases h
        · split at h
          · cases h
          · rename_i h1 h2 h3 h4
            exact ⟨not_lt.1 h1, not_lt.1 h2, not_lt.1 h3, not_lt.1 h4⟩
  · rintro ⟨h1, h2, h3, h4⟩
    rw [if_neg (not_lt.2 h1), if_neg (not_lt.2 h2), if_neg (not_lt.2 h3), if_neg (not_lt.2 h4)]

theorem intersects_iff {r b : Rect} : r.intersects b = true ↔
    r.x ≤ b.x + b.width ∧ b.x ≤ r.x + r.width ∧ r.y ≤ b.y + b.height ∧ b.y ≤ r.y + r.height := by
  unfold Rect.intersects
  constructor
  · intro h
    split at h
    · cases h
    · split at h
      · cases h
      · split at h
        · cases h
        · split at h
          · cases h
          · rename_i h1 h2 h3 h4
            exact ⟨not_lt.1 h1, not_lt.1 h2, not_lt.1 h3, not_lt.1 h4⟩
  · rintro ⟨h1, h2, h3, h4⟩
    rw [if_neg (not_lt.2 h1), if_neg (not_lt.2 h2), if_neg (not_lt.2 h3), if_neg (not_lt.2 h4)]

/-- What `quadrantOf` decided, as inequalities against the centre. -/
theorem quadrantOf_spec {r b : Rect} {k : Nat} (h : quadrantOf r b = some k) :
    (k = 0 ∧ b.x > r.x + r.width * (1 / 2) ∧ b.y + b.height < r.y + r.height * (1 / 2)) ∨
    (k = 1 ∧ b.x + b.width < r.x + r.width * (1 / 2) ∧
      b.y + b.height < r.y + r.height * (1 / 2)) ∨
    (k = 2 ∧ b.x + b.width < r.x + r.width * (1 / 2) ∧ b.y > r.y + r.height * (1 / 2)) ∨
    (k = 3 ∧ b.x > r.x + r.width * (1 / 2) ∧ b.y > r.y + r.height * (1 / 2)) := by
  unfold quadrantOf Rect.getRight Rect.getTop at h
  dsimp only at h
  split at h
  · rename_i hy
    split at h
    · rename_i hx
      cases h
      exact Or.inr (Or.inl ⟨rfl, by simpa using hx, hy⟩)
    · split at h
      · rename_i hx
        cases h
        exact Or.inl ⟨rfl, by simpa using hx, hy⟩
      · cases h
  · split at h
    · rename_i hy
      split at h
      · rename_i hx
        cases h
        exact Or.inr (Or.inr (Or.inl ⟨rfl, by simpa using hx, hy⟩))
      · split at h
        · rename_i hx
          cases h
          exact Or.inr (Or.inr (Or.inr ⟨rfl, by simpa using hx, hy⟩))
        · cases h
    · cases h

/-- A bound inside a region and routed to quadrant `k` lies inside quadrant `k`. -/
theorem quadrant_contains {r b : Rect} {k : Nat} (hk : quadrantOf r b = some k)
    (hc : r.contains b = true) : (quadrant r k).contains b = true := by
  obtain ⟨h1, h2, h3, h4⟩ := contains_iff.1 hc
  rcases quadrantOf_spec hk with ⟨rfl, hx, hy⟩ | ⟨rfl, hx, hy⟩ | ⟨rfl, hx, hy⟩ | ⟨rfl, hx, hy⟩
  all_goals
    rw [contains_iff]
    simp only [quadrant]
    refine ⟨?_, ?_, ?_, ?_⟩ <;> linarith

/-- Bounds routed to different quadrants of one region do not intersect. -/
theorem not_intersects_of_quadrants {r b1 b2 : Rect} {k1 k2 : Nat}
    (h1 : quadrantOf r b1 = some k1) (h2 : quadrantOf r b2 = some k2) (hne : k1 ≠ k2) :
    b1.intersects b2 = false := by
  by_contra hi
  have hi : b1.intersects b2 = true := by simpa using hi
  obtain ⟨i1, i2, i3, i4⟩ := intersects_iff.1 hi
  rcases quadrantOf_spec h1 with ⟨rfl, hx, hy⟩ | ⟨rfl, hx, hy⟩ | ⟨rfl, hx, hy⟩ | ⟨rfl, hx, hy⟩ <;>
  rcases quadrantOf_spec h2 with ⟨rfl, hx2, hy2⟩ | ⟨rfl, hx2, hy2⟩ | ⟨rfl, hx2, hy2⟩ |
    ⟨rfl, hx2, hy2⟩ <;>
  first
    | exact hne rfl
    | linarith

theorem intersects_of_contains {r b Q : Rect} (hc : r.contains b = true)
    (hi : b.intersects Q = true) : r.intersects Q = true := by
  obtain ⟨h1, h2, h3, h4⟩ := contains_iff.1 hc
  obtain ⟨i1, i2, i3, i4⟩ := intersects_iff.1 hi
  rw [intersects_iff]
  refine ⟨?_, ?_, ?_, ?_⟩ <;> linarith

theorem WF0.attached_of_busy {C D : Nat} {s : Heap} (hw : WF0 C D s) {n : Nat} {q : QuadTree}
    (hq : s.nodes n = some q) (hb : q.busy) : Attached s n := hw.live n q hq hb

/-- Above an attached node every parent is subdivided and lists its child. -/
theorem Below.parent_internal {C D : Nat} {s : Heap} (hw : WF0 C D s) {c n : Nat}
    (h : Below s c n) : Attached s n → ∀ qc p, s.nodes c = some qc → qc.parent = some p →
      ∃ qp, s.nodes p = some qp ∧ qp.isLeaf = false ∧ c ∈ qp.children := by
  induction h with
  | refl =>
    intro ha qc p hqc hp
    rcases ha with h0 | ⟨q', p', qp, hq', hp', hqp, hpl, hmem⟩
    · subst h0
      obtain ⟨q0, hq0, hp0, _⟩ := hw.root
      rw [hqc] at hq0; cases hq0
      rw [hp0] at hp; cases hp
    · rw [hqc] at hq'; cases hq'
      rw [hp] at hp'; cases hp'
      exact ⟨qp, hqp, hpl, hmem⟩
  | @step n p0 q hq hp0 _ ih =>
    intro ha qc p hqc hp
    refine ih ?_ qc p hqc hp
    rcases ha with h0 | ⟨q', p', qp, hq', hp', hqp, hpl, _⟩
    · subst h0
      obtain ⟨q0, hq0', hpn, _⟩ := hw.root
      rw [hq] at hq0'; cases hq0'
      rw [hpn] at hp0; cases hp0
    · rw [hq] at hq'; cases hq'
      rw [hp0] at hp'; cases hp'
      exact hw.live p0 qp hqp (Or.inl hpl)

theorem Below.exists_node {C D : Nat} {s : Heap} (hw : WF0 C D s) {a n : Nat}
    (h : Below s a n) {qn : QuadTree} (hqn : s.nodes n = some qn) : ∃ qa, s.nodes a = some qa := by
  obtain ⟨qa, hqa, _⟩ := h.level hw qn hqn
  exact ⟨qa, hqa⟩

theorem Below.of_keeps {C D : Nat} {s t : Heap} (hw : WF0 C D s) (hk : KeepsRoutes s t)
    {c n : Nat} (h : Below t c n) : ∀ qn, s.nodes n = some qn → Below s c n := by
  induction h with
  | refl => intro _ _; exact Below.refl _
  | @step n p q2 hq2 hp _ ih =>
    intro qn hqn
    obtain ⟨q2', hq2', hpar, _⟩ := hk n qn hqn
    rw [hq2] at hq2'; cases hq2'
    obtain ⟨qp, hqp, _⟩ := hw.par n qn p hqn (hpar.symm.trans hp)
    exact Below.step hqn (hpar.symm.trans hp) (ih qp hqp)

theorem getChild_congr {q q2 : QuadTree} (hb : q2.bounds = q.bounds)
    (hc : q2.children = q.children) (b : Rect) : getChild q2 b = getChild q b := by
  rw [getChild_eq, getChild_eq, hb, hc]

theorem ChainOK.chain_transfer {C D : Nat} {s t : Heap} (hw : WF0 C D s) (hk : KeepsRoutes s t)
    {n : Nat} {b : Rect} {qn : QuadTree} (hqn : s.nodes n = some qn) (ha : Attached s n)
    (h : ChainOK s n b) : ChainOK t n b := by
  constructor
  · intro c qc2 p qp2 hb hqc2 hp hqp2
    have hbs := hb.of_keeps hw hk qn hqn
    obtain ⟨qc, hqc⟩ := hbs.exists_node hw hqn
    obtain ⟨qc2', hqc2', hpar, _⟩ := hk c qc hqc
    rw [hqc2] at hqc2'; cases hqc2'
    have hp' : qc.parent = some p := hpar.symm.trans hp
    obtain ⟨qp, hqp, hpl, _⟩ := hbs.parent_internal hw ha qc p hqc hp'
    obtain ⟨qp2', hqp2', _, hbd, hch⟩ := hk p qp hqp
    rw [hqp2] at hqp2'; cases hqp2'
    rw [getChild_congr hbd (hch hpl)]
    exact h.1 c qc p qp hbs hqc hp' hqp
  · intro a qa2 hb hqa2
    have hbs := hb.of_keeps hw hk qn hqn
    obtain ⟨qa, hqa⟩ := hbs.exists_node hw hqn
    obtain ⟨qa2', hqa2', _, hbd, _⟩ := hk a qa hqa
    rw [hqa2] at hqa2'; cases hqa2'
    rw [hbd]
    exact h.2 a qa hbs hqa

theorem Routed.routed_transfer {C D : Nat} {s t : Heap} (hw : WF0 C D s) (hr : Routed s)
    (hk : KeepsRoutes s t)
    (hitems : ∀ j m, (t.items j).qt = some m →
      (s.items j).qt = some m ∧ (t.items j).bound = (s.items j).bound) : Routed t := by
  intro j m hj
  obtain ⟨hjs, hb⟩ := hitems j m hj
  obtain ⟨qm, hqm, hmem⟩ := hw.ownedBy j m hjs
  rw [hb]
  exact (hr j m hjs).chain_transfer hw hk hqm (hw.live m qm hqm (Or.inr (List.ne_nil_of_mem hmem)))

theorem keepsRoutes_link (s : Heap) (n : Nat) (q : QuadTree) (i : Nat)
    (hq : s.nodes n = some q) : KeepsRoutes s (s.link n q i) := by
  intro a qa ha
  by_cases han : a = n
  · subst han
    rw [hq] at ha; cases ha
    exact ⟨{ q with objects := q.objects ++ [i] }, by simp, rfl, rfl, fun _ => rfl⟩
  · exact ⟨qa, by simp only [link_nodes, if_neg han]; exact ha, rfl, rfl, fun _ => rfl⟩

theorem keepsRoutes_unlink (s : Heap) (n : Nat) (q : QuadTree) (i : Nat)
    (hq : s.nodes n = some q) : KeepsRoutes s (s.unlink n q i) := by
  intro a qa ha
  by_cases han : a = n
  · subst han
    rw [hq] at ha; cases ha
    exact ⟨{ q with objects := q.objects.erase i }, by simp, rfl, rfl, fun _ => rfl⟩
  · exact ⟨qa, by simp only [unlink_nodes, if_neg han]; exact ha, rfl, rfl, fun _ => rfl⟩

theorem keepsRoutes_subdivide {C D : Nat} {s s2 : Heap} (hw : WF0 C D s) {n : Nat}
    {q : QuadTree} (hq : s.nodes n = some q) (hl : q.isLeaf = true)
    (hs : subdivide s n = some s2) : KeepsRoutes s s2 := by
  obtain ⟨_, _, hn2, _, hold, _⟩ := hw.wf_subdivide_nodes hq hs
  intro a qa ha
  by_cases han : a = n
  · subst han
    rw [hq] at ha; cases ha
    exact ⟨_, hn2, rfl, rfl, fun h => by rw [hl] at h; cases h⟩
  · exact ⟨qa, by rw [hold a han (hw.lt_next ha)]; exact ha, rfl, rfl, fun _ => rfl⟩

/-- The child that `getChild` selects inherits a consistent route. -/
theorem ChainOK.child {C D : Nat} {s : Heap} (hw : WF0 C D s) {n c : Nat} {q : QuadTree}
    {b : Rect} (hq : s.nodes n = some q) (hl : q.isLeaf = false) (hc : getChild q b = some c)
    (h : ChainOK s n b) : ChainOK s c b := by
  have hmem := getChild_mem hc
  obtain ⟨qc, hqc, hcp⟩ := (hw.kids n q hq hl).2.2.2 c hmem
  constructor
  · intro c' qc' p qp hb hqc' hp hqp
    cases hb with
    | refl =>
      rw [hqc] at hqc'; cases hqc'
      rw [hcp] at hp; cases hp
      rw [hq] at hqp; cases hqp
      exact hc
    | step hq1 hp1 hb1 =>
      rw [hqc] at hq1; cases hq1
      rw [hcp] at hp1; cases hp1
      exact h.1 c' qc' p qp hb1 hqc' hp hqp
  · intro a qa hb hqa
    cases hb with
    | refl =>
      rw [hqc] at hqa; cases hqa
      rw [getChild_eq] at hc
      cases hk : quadrantOf q.bounds b with
      | none => rw [hk] at hc; cases hc
      | some k =>
        rw [hk, Option.some_bind] at hc
        obtain ⟨qc', hqc', hbd⟩ := hw.geo n q hq hl k c hc
        rw [hqc] at hqc'; cases hqc'
        rw [hbd]
        exact quadrant_contains hk (h.2 n q (Below.refl n) hq)
    | step hq1 hp1 hb1 =>
      rw [hqc] at hq1; cases hq1
      rw [hcp] at hp1; cases hp1
      exact h.2 a qa hb1 hqa

theorem keepsRoutes_collapses {s t : Heap} (h : Collapses s t) : KeepsRoutes s t := by
  intro a qa ha
  obtain ⟨q2, hq2, hsf, _, _⟩ := (h.frame.2.2 a).2 qa ha
  exact ⟨q2, hq2, hsf.2.2.2.2.1, hsf.2.2.2.1, fun _ => hsf.2.2.2.2.2⟩

theorem Routed.routed_link {C D : Nat} {s : Heap} (hw : WF0 C D s) (hr : Routed s) {n : Nat}
    {q : QuadTree} (hq : s.nodes n = some q) {i : Nat} (ha : Attached s n)
    (hch : ChainOK s n (s.items i).bound) : Routed (s.link n q i) := by
  intro j m hj
  rw [link_bound]
  rw [link_qt] at hj
  by_cases hji : j = i
  · subst hji
    rw [if_pos rfl] at hj; cases hj
    exact hch.chain_transfer hw (keepsRoutes_link s n q j hq) hq ha
  · rw [if_neg hji] at hj
    obtain ⟨qm, hqm, hmem⟩ := hw.ownedBy j m hj
    exact (hr j m hj).chain_transfer hw (keepsRoutes_link s n q i hq) hqm
      (hw.live m qm hqm (Or.inr (List.ne_nil_of_mem hmem)))

theorem Routed.routed_unlink {C D : Nat} {s : Heap} (hw : WF0 C D s) (hr : Routed s) {n : Nat}
    {q : QuadTree} (hq : s.nodes n = some q) (i : Nat) : Routed (s.unlink n q i) := by
  refine hr.routed_transfer hw (keepsRoutes_unlink s n q i hq) ?_
  intro j m hj
  rw [unlink_qt] at hj
  rw [unlink_bound]
  by_cases hji : j = i
  · rw [if_pos hji] at hj; cases hj
  · rw [if_neg hji] at hj; exact ⟨hj, rfl⟩

theorem Routed.collapses {C D : Nat} {s t : Heap} (hw : WF0 C D s) (hr : Routed s)
    (h : Collapses s t) : Routed t := by
  refine hr.routed_transfer hw (keepsRoutes_collapses h) ?_
  intro j m hj
  rw [h.frame.1] at hj ⊢
  exact ⟨hj, rfl⟩

/-- Both `insert` and `update` keep every tracked item where routing leads its bound,
as long as the inserted bound lies inside the node the recursion starts from. -/
theorem insert_update_routed {C D : Nat} (hA : 2 ≤ C ∨ D = 0) : ∀ f : Nat,
    (∀ (s : Heap) (this i : Nat) (r : Bool × Heap), WF0 C D s → NonVoid s → Routed s →
      Attached s this → ChainOK s this (s.items i).bound → insert f s this i = some r →
      Routed r.2) ∧
    (∀ (s : Heap) (this i : Nat) (r : Bool × Heap), WF0 C D s → NonVoid s → Routed s →
      (s.items i).qt = some this →
      (∃ q j, s.nodes this = some q ∧ j ∈ q.objects ∧ j ≠ i) →
      update f s this i = some r → Routed r.2) := by
  intro f
  induction f with
  | zero =>
    constructor
    · intro s this i r _ _ _ _ _ h; simp [insert] at h
    · intro s this i r _ _ _ _ _ h; simp [update] at h
  | succ f ih =>
    constructor
    · intro s this i r hw hnv hr ha hch h
      rcases insert_inv h with ⟨_, rfl⟩ | ⟨hqt, q, hq, hcase⟩
      · exact hr
      rcases hcase with ⟨c, hc, hins⟩ | ⟨_, hcase⟩
      · obtain ⟨hl, hmem⟩ := route_some hc
        have hgc : getChild q (s.items i).bound = some c := by
          unfold QuadTree.route at hc
          rw [hl] at hc
          simpa using hc
        exact ih.1 s c i r hw hnv hr (hw.attached_child hq hl hmem)
          (hch.child hw hq hl hgc) hins
      have hw1 := hw.wf_link hq hqt ha
      have hnv1 : NonVoid (s.link this q i) := hnv.nv_link hw q i
      have hr1 : Routed (s.link this q i) := hr.routed_link hw hq ha hch
      rcases hcase with ⟨_, rfl⟩ | ⟨hsplit, s2, r2, hsub, hupd, rfl⟩
      · exact hr1
      obtain ⟨hl, hlev, hcap⟩ := hsplit
      have hq1 : (s.link this q i).nodes this = some { q with objects := q.objects ++ [i] } := by
        simp
      have hD : q.level < D := by rw [← (hw.conf this q hq).2]; exact hlev
      have ha1 : Attached (s.link this q i) this := hw1.live this _ hq1 (Or.inr (by simp))
      have hw2 := hw1.wf_subdivide hq1 hl hD ha1 hsub
      have hnv2 := hnv1.nv_subdivide hw1 hq1 (by simp) hsub
      obtain ⟨_, hitems, hn2, _⟩ := hw1.wf_subdivide_nodes hq1 hsub
      have hr2 : Routed s2 := by
        refine hr1.routed_transfer hw1 (keepsRoutes_subdivide hw1 hq1 hl hsub) ?_
        intro j m hj
        rw [hitems] at hj ⊢
        exact ⟨hj, rfl⟩
      refine ih.2 s2 this i r2 hw2 hnv2 hr2 (by rw [hitems]; simp) ?_ hupd
      have hC : 2 ≤ C := by
        rcases hA with h2 | h0
        · exact h2
        · omega
      have hlen : 1 ≤ q.objects.length := by
        have := (hw.conf this q hq).1
        omega
      cases hqo : q.objects with
      | nil => rw [hqo] at hlen; simp at hlen
      | cons j l =>
        refine ⟨_, j, hn2, by simp [hqo], ?_⟩
        intro hji; subst hji
        have := hw.owner this q j hq (by simp [hqo])
        rw [this] at hqt; cases hqt
    · intro s this i r hw hnv hr hown hpre h
      obtain ⟨b, s1, hrem, hcase⟩ := update_inv h
      rcases remove_outcome hw hnv hrem with ⟨hnone, _, _⟩ | ⟨n, qn, hqt, hqn, hmem, rfl, hcol, hw1, hnv1⟩
      · rw [hown] at hnone; cases hnone
      rw [hown] at hqt; cases hqt
      rcases hcase with ⟨hb, _⟩ | ⟨_, q, hq, hcase⟩
      · cases hb
      obtain ⟨q0, j, hq0, hj, hji⟩ := hpre
      rw [hqn] at hq0; cases hq0
      have hwu := hw.wf_unlink hqn hmem
      have hru : Routed (s.unlink this qn i) := hr.routed_unlink hw hqn i
      have hr1 : Routed s1 := hru.collapses hwu hcol
      have hqu : (s.unlink this qn i).nodes this = some { qn with objects := qn.objects.erase i } := by
        simp
      have hju : j ∈ qn.objects.erase i := (List.mem_erase_of_ne hji).2 hj
      have hbd : (s1.items i).bound = (s.items i).bound := by
        rw [hcol.frame.1, unlink_bound]
      have hatt : Attached s1 this := by
        obtain ⟨q2, hq2, _, hobj, _⟩ := (hcol.frame.2.2 this).2 _ hqu
        rw [hq] at hq2; cases hq2
        exact hw1.live this q hq (Or.inr (by rw [hobj]; exact List.ne_nil_of_mem hju))
      have hch1 : ChainOK s1 this (s1.items i).bound := by
        rw [hbd]
        have h0 : ChainOK s this (s.items i).bound := hr i this hown
        have h1 := h0.chain_transfer hw (keepsRoutes_unlink s this qn i hqn) hqn
          (hw.live this qn hqn (Or.inr (List.ne_nil_of_mem hmem)))
        exact h1.chain_transfer hwu (keepsRoutes_collapses hcol) hqu
          (hwu.live this _ hqu (Or.inr (List.ne_nil_of_mem hju)))
      rcases hcase with ⟨p, hp, hnc, _⟩ | ⟨_, hcase⟩
      · rw [hch1.2 this q (Below.refl this) hq] at hnc; cases hnc
      rcases hcase with ⟨c, hc, hins⟩ | ⟨_, hins⟩
      · obtain ⟨hl, hmem'⟩ := route_some hc
        have hgc : getChild q (s1.items i).bound = some c := by
          unfold QuadTree.route at hc
          rw [hl] at hc
          simpa using hc
        exact ih.1 s1 c i r hw1 hnv1 hr1 (hw1.attached_child hq hl hmem')
          (hch1.child hw1 hq hl hgc) hins
      · exact ih.1 s1 this i r hw1 hnv1 hr1 hatt hch1 hins

theorem getChild_index {q : QuadTree} {b : Rect} {c : Nat} (h : getChild q b = some c) :
    ∃ k, quadrantOf q.bounds b = some k ∧ q.children[k]? = some c := by
  rw [getChild_eq] at h
  cases hk : quadrantOf q.bounds b with
  | none => rw [hk] at h; cases h
  | some k => rw [hk, Option.some_bind] at h; exact ⟨k, rfl, h⟩

theorem mem_scanObjects {s : Heap} {Q : RectRef} {objs : List Nat} {i : Nat} :
    i ∈ scanObjects s Q objs ↔ i ∈ objs ∧ RectRef.ofItem i ≠ Q ∧
      (s.items i).bound.intersects (Q.deref s) = true := by
  simp [scanObjects, List.mem_filter]

theorem query_leaf {s : Heap} {n : Nat} {q : QuadTree} (hq : s.nodes n = some q)
    (hl : q.isLeaf = true) (f : Nat) (Q : RectRef) :
    getObjectsInBound (f + 1) s n Q = some (scanObjects s Q q.objects) := by
  simp [getObjectsInBound, hq, hl]

theorem query_routed {s : Heap} {n c : Nat} {q : QuadTree} {f : Nat} {Q : RectRef}
    {r : List Nat} (hq : s.nodes n = some q) (hl : q.isLeaf = false)
    (hc : getChild q (Q.deref s) = some c) (hr : getObjectsInBound f s c Q = some r) :
    getObjectsInBound (f + 1) s n Q = some (scanObjects s Q q.objects ++ r) := by
  simp [getObjectsInBound, hq, hl, hc, hr]

theorem query_spread {s : Heap} {n : Nat} {q : QuadTree} {f : Nat} {Q : RectRef}
    {r : List Nat} (hq : s.nodes n = some q) (hl : q.isLeaf = false)
    (hc : getChild q (Q.deref s) = none) (hlen : q.children.length = 4)
    (hr : collect (fun leaf =>
        match s.nodes leaf with
        | none => none
        | some ql =>
          if ql.bounds.intersects (Q.deref s) then getObjectsInBound f s leaf Q
          else some []) q.children = some r) :
    getObjectsInBound (f + 1) s n Q = some (scanObjects s Q q.objects ++ r) := by
  rw [getObjectsInBound, hq]
  simp only [hl, hc, QuadTree.kids, hlen, if_true, Bool.false_eq_true, if_false]
  split
  · rename_i heq
    exact absurd (hr.symm.trans heq) (by simp)
  · rename_i r2 heq
    have h2 : some r = some r2 := hr.symm.trans heq
    cases h2
    rfl

theorem collect_spec (step : Nat → Option (List Nat)) (P : Nat → Nat → Prop)
    (hP : ∀ c c2 i, P c i → P c2 i → c = c2) :
    ∀ cs : List Nat, cs.Nodup →
    (∀ c ∈ cs, ∃ r, step c = some r ∧ r.Nodup ∧ ∀ i ∈ r, P c i) →
    ∃ R, collect step cs = some R ∧ R.Nodup ∧
      ∀ i, i ∈ R ↔ ∃ c ∈ cs, ∃ r, step c = some r ∧ i ∈ r := by
  intro cs
  induction cs with
  | nil => intro _ _; exact ⟨[], rfl, List.nodup_nil, by simp⟩
  | cons c rest ih =>
    intro hnd hall
    obtain ⟨r, hr, hrn, hrP⟩ := hall c (List.mem_cons_self _ _)
    obtain ⟨R, hR, hRn, hRm⟩ := ih (List.nodup_cons.1 hnd).2
      (fun c2 hc2 => hall c2 (List.mem_cons_of_mem _ hc2))
    refine ⟨r ++ R, by simp [collect, hr, hR], ?_, ?_⟩
    · rw [List.nodup_append]
      refine ⟨hrn, hRn, ?_⟩
      intro i hi hi2
      obtain ⟨c2, hc2, r2, hr2, hi3⟩ := (hRm i).1 hi2
      obtain ⟨r3, hr3, _, hP3⟩ := hall c2 (List.mem_cons_of_mem _ hc2)
      rw [hr2] at hr3; cases hr3
      have := hP c c2 i (hrP i hi) (hP3 i hi3)
      subst this
      exact (List.nodup_cons.1 hnd).1 hc2
    · intro i
      rw [List.mem_append, hRm]
      constructor
      · rintro (hi | ⟨c2, hc2, r2, hr2, hi2⟩)
        · exact ⟨c, List.mem_cons_self _ _, r, hr, hi⟩
        · exact ⟨c2, List.mem_cons_of_mem _ hc2, r2, hr2, hi2⟩
      · rintro ⟨c2, hc2, r2, hr2, hi2⟩
        rcases List.mem_cons.1 hc2 with rfl | hc2
        · rw [hr] at hr2; cases hr2
          exact Or.inl hi2
        · exact Or.inr ⟨c2, hc2, r2, hr2, hi2⟩

/-- In a well-formed store whose items sit where routing leads their bounds, the
query on node `n` returns, without repetition, exactly the items held in the subtree
of `n` that intersect the query rectangle and are not the query's own item. -/
theorem query_spec {C D : Nat} {s : Heap} (hw : WF0 C D s) (hr : Routed s) (Q : RectRef) :
    ∀ (k n : Nat) (q : QuadTree), s.nodes n = some q → D ≤ q.level + k →
    ∃ res, getObjectsInBound (k + 1) s n Q = some res ∧ res.Nodup ∧
      ∀ i, i ∈ res ↔ ((∃ m, (s.items i).qt = some m ∧ Below s n m) ∧
        RectRef.ofItem i ≠ Q ∧ (s.items i).bound.intersects (Q.deref s) = true) := by
  -- facts that do not depend on the recursion budget
  have hself : ∀ n q i, s.nodes n = some q → (i ∈ q.objects ↔ (s.items i).qt = some n) := by
    intro n q i hq
    constructor
    · exact hw.owner n q i hq
    · intro h
      obtain ⟨q2, hq2, hm⟩ := hw.ownedBy i n h
      rw [hq] at hq2; cases hq2
      exact hm
  have hbusy : ∀ i m, (s.items i).qt = some m → ∃ qm, s.nodes m = some qm ∧ qm.busy := by
    intro i m h
    obtain ⟨qm, hqm, hm⟩ := hw.ownedBy i m h
    exact ⟨qm, hqm, Or.inr (List.ne_nil_of_mem hm)⟩
  have hfound : ∀ n q, s.nodes n = some q → ∀ i, i ∈ scanObjects s Q q.objects →
      (∃ m, (s.items i).qt = some m ∧ Below s n m) ∧
        RectRef.ofItem i ≠ Q ∧ (s.items i).bound.intersects (Q.deref s) = true := by
    intro n q hq i hi
    obtain ⟨h1, h2⟩ := mem_scanObjects.1 hi
    exact ⟨⟨n, hw.owner n q i hq h1, Below.refl n⟩, h2⟩
  have hdisj : ∀ n q c i m, s.nodes n = some q → q.isLeaf = false → c ∈ q.children →
      i ∈ q.objects → (s.items i).qt = some m → Below s c m → False := by
    intro n q c i m hq hl hc hi hqt hb
    have := hw.owner n q i hq hi
    rw [this] at hqt; cases hqt
    obtain ⟨qc, hqc, hcp⟩ := (hw.kids n q hq hl).2.2.2 c hc
    obtain ⟨qn, hqn, hlevel⟩ := hw.par c qc n hqc hcp
    rw [hq] at hqn; cases hqn
    obtain ⟨qc2, hqc2, hle, _⟩ := hb.level hw q hq
    rw [hqc] at hqc2; cases hqc2
    omega
  intro k
  induction k with
  | zero =>
    intro n q hq hlev
    have hl : q.isLeaf = true := by
      by_contra hl
      have := (hw.kids n q hq (by simpa using hl)).1
      omega
    refine ⟨_, query_leaf hq hl 0 Q, (hw.nodup n q hq).filter _, fun i => ⟨hfound n q hq i, ?_⟩⟩
    rintro ⟨⟨m, hqt, hb⟩, hc⟩
    refine mem_scanObjects.2 ⟨?_, hc⟩
    obtain ⟨qm, hqm, hbm⟩ := hbusy i m hqt
    by_cases hmn : n = m
    · subst hmn; exact (hself n q i hq).2 hqt
    · obtain ⟨q2, c, hq2, hl2, _⟩ := hb.child_of_busy hw qm hqm hbm hmn
      rw [hq] at hq2; cases hq2
      rw [hl] at hl2; cases hl2
  | succ k ih =>
    intro n q hq hlev
    by_cases hl : q.isLeaf = true
    · refine ⟨_, query_leaf hq hl _ Q, (hw.nodup n q hq).filter _,
        fun i => ⟨hfound n q hq i, ?_⟩⟩
      rintro ⟨⟨m, hqt, hb⟩, hc⟩
      refine mem_scanObjects.2 ⟨?_, hc⟩
      obtain ⟨qm, hqm, hbm⟩ := hbusy i m hqt
      by_cases hmn : n = m
      · subst hmn; exact (hself n q i hq).2 hqt
      · obtain ⟨q2, c, hq2, hl2, _⟩ := hb.child_of_busy hw qm hqm hbm hmn
        rw [hq] at hq2; cases hq2
        rw [hl] at hl2; cases hl2
    have hl : q.isLeaf = false := by simpa using hl
    obtain ⟨_, hlen, hnd, hkids⟩ := hw.kids n q hq hl
    -- the recursive call on a child
    have hrec : ∀ c ∈ q.children, ∃ qc, s.nodes c = some qc ∧ qc.parent = some n ∧
        ∃ res, getObjectsInBound (k + 1) s c Q = some res ∧ res.Nodup ∧
          ∀ i, i ∈ res ↔ ((∃ m, (s.items i).qt = some m ∧ Below s c m) ∧
            RectRef.ofItem i ≠ Q ∧ (s.items i).bound.intersects (Q.deref s) = true) := by
      intro c hc
      obtain ⟨qc, hqc, hcp⟩ := hkids c hc
      obtain ⟨qn, hqn, hlevel⟩ := hw.par c qc n hqc hcp
      rw [hq] at hqn; cases hqn
      exact ⟨qc, hqc, hcp, ih c qc hqc (by omega)⟩
    have hup : ∀ c ∈ q.children, ∀ m, Below s c m → Below s n m := by
      intro c hc m hb
      obtain ⟨qc, hqc, hcp⟩ := hkids c hc
      exact Below.of_child hqc hcp hb
    have hdown : ∀ i m, (s.items i).qt = some m → Below s n m → n ≠ m →
        ∃ c, c ∈ q.children ∧ Below s c m := by
      intro i m hqt hb hne
      obtain ⟨qm, hqm, hbm⟩ := hbusy i m hqt
      obtain ⟨q2, c, hq2, _, hc, hbc⟩ := hb.child_of_busy hw qm hqm hbm hne
      rw [hq] at hq2; cases hq2
      exact ⟨c, hc, hbc⟩
    cases hgc : getChild q (Q.deref s) with
    | some c0 =>
      have hc0 := getChild_mem hgc
      obtain ⟨qc0, hqc0, _, res, hres, hresn, hresm⟩ := hrec c0 hc0
      refine ⟨_, query_routed hq hl hgc hres, ?_, ?_⟩
      · rw [List.nodup_append]
        refine ⟨(hw.nodup n q hq).filter _, hresn, ?_⟩
        intro i hi hi2
        obtain ⟨⟨m, hqt, hb⟩, _⟩ := (hresm i).1 hi2
        exact hdisj n q c0 i m hq hl hc0 (mem_scanObjects.1 hi).1 hqt hb
      · intro i
        rw [List.mem_append]
        constructor
        · rintro (hi | hi)
          · exact hfound n q hq i hi
          · obtain ⟨⟨m, hqt, hb⟩, hc⟩ := (hresm i).1 hi
            exact ⟨⟨m, hqt, hup c0 hc0 m hb⟩, hc⟩
        · rintro ⟨⟨m, hqt, hb⟩, hc⟩
          by_cases hmn : n = m
          · subst hmn
            exact Or.inl (mem_scanObjects.2 ⟨(hself n q i hq).2 hqt, hc⟩)
          · right
            obtain ⟨c, hcm, hbc⟩ := hdown i m hqt hb hmn
            obtain ⟨qc, hqc, hcp⟩ := hkids c hcm
            have hgi : getChild q (s.items i).bound = some c :=
              (hr i m hqt).1 c qc n q hbc hqc hcp hq
            obtain ⟨k1, hk1, hch1⟩ := getChild_index hgi
            obtain ⟨k2, hk2, hch2⟩ := getChild_index hgc
            have hkk : k1 = k2 := by
              by_contra hne
              have := not_intersects_of_quadrants hk1 hk2 hne
              rw [hc.2] at this; cases this
            subst hkk
            rw [hch1] at hch2; cases hch2
            exact (hresm i).2 ⟨⟨m, hqt, hbc⟩, hc⟩
    | none =>
      obtain ⟨R, hR, hRn, hRm⟩ := collect_spec
        (fun leaf =>
          match s.nodes leaf with
          | none => none
          | some ql =>
            if ql.bounds.intersects (Q.deref s) then getObjectsInBound (k + 1) s leaf Q
            else some [])
        (fun c i => c ∈ q.children ∧ ∃ m, (s.items i).qt = some m ∧ Below s c m)
        (by
          rintro c c2 i ⟨hc, m, hqt, hb⟩ ⟨hc2, m2, hqt2, hb2⟩
          rw [hqt] at hqt2; cases hqt2
          obtain ⟨qc, hqc, hcp⟩ := hkids c hc
          obtain ⟨qc2, hqc2, hcp2⟩ := hkids c2 hc2
          obtain ⟨qn, hqn, hlevel⟩ := hw.par c qc n hqc hcp
          obtain ⟨qn2, hqn2, hlevel2⟩ := hw.par c2 qc2 n hqc2 hcp2
          rw [hq] at hqn hqn2; cases hqn; cases hqn2
          exact hb.unique hw c2 qc qc2 hb2 hqc hqc2 (by omega))
        q.children hnd
        (by
          intro c hc
          obtain ⟨qc, hqc, _, res, hres, hresn, hresm⟩ := hrec c hc
          by_cases hint : qc.bounds.intersects (Q.deref s) = true
          · refine ⟨res, by simp [hqc, hint, hres], hresn, fun i hi => ⟨hc, ?_⟩⟩
            exact ((hresm i).1 hi).1
          · exact ⟨[], by simp [hqc, hint], List.nodup_nil, fun i hi => by cases hi⟩)
      refine ⟨_, query_spread hq hl hgc hlen hR, ?_, ?_⟩
      · rw [List.nodup_append]
        refine ⟨(hw.nodup n q hq).filter _, hRn, ?_⟩
        intro i hi hi2
        obtain ⟨c, hc, r, hstep, hir⟩ := (hRm i).1 hi2
        obtain ⟨qc, hqc, _, res, hres, _, hresm⟩ := hrec c hc
        cases hint : qc.bounds.intersects (Q.deref s)
        swap
        · simp only [hqc, hint, if_true, hres, Option.some.injEq] at hstep
          subst hstep
          obtain ⟨⟨m, hqt, hb⟩, _⟩ := (hresm i).1 hir
          exact hdisj n q c i m hq hl hc (mem_scanObjects.1 hi).1 hqt hb
        · simp only [hqc, hint, Bool.false_eq_true, if_false, Option.some.injEq] at hstep
          subst hstep
          cases hir
      · intro i
        rw [List.mem_append, hRm]
        constructor
        · rintro (hi | ⟨c, hc, r, hstep, hir⟩)
          · exact hfound n q hq i hi
          · obtain ⟨qc, hqc, _, res, hres, _, hresm⟩ := hrec c hc
            cases hint : qc.bounds.intersects (Q.deref s)
            swap
            · simp only [hqc, hint, if_true, hres, Option.some.injEq] at hstep
              subst hstep
              obtain ⟨⟨m, hqt, hb⟩, hcnd⟩ := (hresm i).1 hir
              exact ⟨⟨m, hqt, hup c hc m hb⟩, hcnd⟩
            · simp only [hqc, hint, Bool.false_eq_true, if_false, Option.some.injEq] at hstep
              subst hstep
              cases hir
        · rintro ⟨⟨m, hqt, hb⟩, hc⟩
          by_cases hmn : n = m
          · subst hmn
            exact Or.inl (mem_scanObjects.2 ⟨(hself n q i hq).2 hqt, hc⟩)
          · right
            obtain ⟨c, hcm, hbc⟩ := hdown i m hqt hb hmn
            obtain ⟨qc, hqc, _, res, hres, _, hresm⟩ := hrec c hcm
            have hcont : qc.bounds.contains (s.items i).bound = true :=
              (hr i m hqt).2 c qc hbc hqc
            have hint := intersects_of_contains hcont hc.2
            exact ⟨c, hcm, res, by simp [hqc, hint, hres], (hresm i).2 ⟨⟨m, hqt, hbc⟩, hc⟩⟩

theorem Below.root {C D : Nat} {s : Heap} (hw : WF0 C D s) {c n : Nat} (h : Below s c n) :
    n = 0 → c = 0 := by
  induction h with
  | refl => exact id
  | @step n p q hq hp _ _ =>
    intro hn
    subst hn
    obtain ⟨q0, hq0, hp0, _⟩ := hw.root
    rw [hq] at hq0; cases hq0
    rw [hp0] at hp; cases hp

theorem chainOK_root {C D : Nat} {s : Heap} (hw : WF0 C D s) {q0 : QuadTree}
    (hq0 : s.nodes 0 = some q0) {b : Rect} (hc : q0.bounds.contains b = true) :
    ChainOK s 0 b := by
  constructor
  · intro c qc p qp hb hqc hp _
    have := hb.root hw rfl
    subst this
    obtain ⟨q, hq, hpn, _⟩ := hw.root
    rw [hqc] at hq; cases hq
    rw [hpn] at hp; cases hp
  · intro a qa hb hqa
    have := hb.root hw rfl
    subst this
    rw [hq0] at hqa; cases hqa
    exact hc

theorem routed_of_untracked {s : Heap} (h : ∀ i, (s.items i).qt = none) : Routed s := by
  intro i m hi
  rw [h i] at hi; cases hi

theorem framed_of_eff {B : Rect} {bounds : Nat → Rect} {s t : Heap} {j : Nat}
    (hf : Framed B bounds s) (he : Eff j s t) : Framed B bounds t := by
  obtain ⟨⟨q0, hq0, hb0⟩, hb⟩ := hf
  obtain ⟨_, hoth, hj, hnodes⟩ := he
  constructor
  · obtain ⟨q2, hq2, hbox, _⟩ := hnodes 0 q0 hq0
    exact ⟨q2, hq2, hbox.2.2.2.1.trans hb0⟩
  · intro i
    by_cases hij : i = j
    · subst hij; rw [hj]; exact hb i
    · rw [hoth i hij]; exact hb i

theorem framed_of_shrinks {B : Rect} {bounds : Nat → Rect} {s t : Heap}
    (hf : Framed B bounds s) (hs : Shrinks s t) : Framed B bounds t := by
  obtain ⟨⟨q0, hq0, hb0⟩, hb⟩ := hf
  obtain ⟨_, hitems, hnodes⟩ := hs
  constructor
  · obtain ⟨q2, hq2, hsf, _⟩ := (hnodes 0).2 q0 hq0
    exact ⟨q2, hq2, hsf.2.2.2.1.trans hb0⟩
  · intro i
    rw [(hitems i).1]; exact hb i

theorem routed_step {B : Rect} {C D : Nat} {bounds : Nat → Rect} {s t : Heap}
    (hinv : Inv C D s) (hr : Routed s) (hf : Framed B bounds s) {c : Call}
    (hc : Call.inside B bounds c) {fuel : Nat} {b : Bool} (h : c.run fuel s = some (b, t)) :
    Routed t ∧ Framed B bounds t := by
  have hinv2 := inv_step hinv c h
  have hfr : Framed B bounds t := by
    cases c with
    | insert i => exact framed_of_eff hf (call_eff hinv (Or.inl rfl) h)
    | remove i => exact framed_of_eff hf (call_eff hinv (Or.inr (Or.inl rfl)) h)
    | clear =>
      simp only [Call.run, Option.map_eq_some', Prod.mk.injEq, true_and] at h
      obtain ⟨t2, ht2, _, rfl⟩ := h
      exact framed_of_shrinks hf (clear_root_outcome hinv.1 ht2).2.2
    | update i => exact absurd hc id
    | setBound i r => exact absurd hc id
  refine ⟨?_, hfr⟩
  obtain ⟨hw, hnv, _⟩ := hinv
  by_cases hA : 2 ≤ C ∨ D = 0
  · cases c with
    | insert i =>
      obtain ⟨⟨q0, hq0, hb0⟩, hb⟩ := hf
      have hc2 : q0.bounds.contains (s.items i).bound = true := by
        rw [hb0, hb i]; exact hc
      exact (insert_update_routed hA fuel).1 s 0 i (b, t) hw hnv hr (Or.inl rfl)
        (chainOK_root hw hq0 hc2) h
    | remove i =>
      rcases remove_outcome hw hnv h with ⟨_, _, rfl⟩ | ⟨n, q, _, hq, hmem, _, hcol, _, _⟩
      · exact hr
      · exact (hr.routed_unlink hw hq i).collapses (hw.wf_unlink hq hmem) hcol
    | clear =>
      simp only [Call.run, Option.map_eq_some', Prod.mk.injEq, true_and] at h
      obtain ⟨t2, ht2, _, rfl⟩ := h
      obtain ⟨hw2, hidle, _⟩ := clear_root_outcome hw ht2
      exact routed_of_untracked (hw2.untracked_of_root_idle hidle)
    | update i => exact absurd hc id
    | setBound i r => exact absurd hc id
  · rcases hinv2.2.2 with h1 | ⟨_, h2⟩
    · exact absurd h1 hA
    · exact routed_of_untracked h2

theorem routed_steps {B : Rect} {C D : Nat} {bounds : Nat → Rect} {s0 s : Heap}
    (h : Steps (Call.inside B bounds) s0 s) (hinv : Inv C D s0) (hr : Routed s0)
    (hf : Framed B bounds s0) : Inv C D s ∧ Routed s ∧ Framed B bounds s := by
  induction h with
  | refl => exact ⟨hinv, hr, hf⟩
  | step c fuel b _ hc hrun ih =>
    obtain ⟨hi, hr1, hf1⟩ := ih
    exact ⟨inv_step hi c hrun, routed_step hi hr1 hf1 hc hrun⟩

theorem steps_finalHeap {allowed : Call → Prop} {fuel : Nat} {s : Heap} {calls : List Call}
    (hall : ∀ c ∈ calls, allowed c) (h : (runCalls fuel s calls).isSome = true) :
    Steps allowed s (finalHeap fuel s calls) := by
  cases hr : runCalls fuel s calls with
  | none => rw [hr] at h; cases h
  | some r =>
    have : finalHeap fuel s calls = r.2 := by simp [finalHeap, hr]
    rw [this]
    exact steps_of_runCalls_of calls s r hall hr

theorem e1_inside : ∀ c ∈ e1Calls, Call.inside ⟨0, 0, 100, 100⟩ e1Bounds c := by
  intro c hc
  simp only [e1Calls, List.mem_cons, List.mem_singleton, List.not_mem_nil, or_false] at hc
  rcases hc with rfl | rfl | rfl <;> (show Rect.contains _ _ = true) <;> decide!

/-- C1 (amended). When every inserted item's bound lies inside the root's region (and
the root is otherwise only subject to `remove` and `clear`), a query on the root with
any rectangle returns, for a recursion budget above the max depth, exactly the tracked
items whose bound intersects the rectangle, each once, leaving out only the item whose
own bound object was passed. -/
theorem C1_query_exact_inside_root {B : Rect} {C D : Nat} {bounds : Nat → Rect} {s : Heap}
    (h : Steps (Call.inside B bounds) (Heap.init B C D bounds) s) (Q : RectRef) (fuel : Nat)
    (hfuel : D + 1 ≤ fuel) :
    ∃ res, getObjectsInBound fuel s 0 Q = some res ∧ res.Nodup ∧
      ∀ i, i ∈ res ↔ ((s.items i).qt ≠ none ∧ RectRef.ofItem i ≠ Q ∧
        (s.items i).bound.intersects (Q.deref s) = true) := by
  obtain ⟨hinv, hr, _⟩ := routed_steps h (inv_init B C D bounds)
    (routed_of_untracked fun _ => rfl) ⟨⟨_, rfl, rfl⟩, fun _ => rfl⟩
  obtain ⟨hw, _, _⟩ := hinv
  obtain ⟨q0, hq0, _, hl0⟩ := hw.root
  obtain ⟨k, rfl⟩ : ∃ k, fuel = k + 1 := ⟨fuel - 1, by omega⟩
  obtain ⟨res, hres, hnd, hmem⟩ := query_spec hw hr Q k 0 q0 hq0 (by omega)
  refine ⟨res, hres, hnd, fun i => ?_⟩
  rw [hmem]
  constructor
  · rintro ⟨⟨m, hqt, _⟩, hc⟩
    exact ⟨by rw [hqt]; simp, hc⟩
  · rintro ⟨hqt, hc⟩
    cases hm : (s.items i).qt with
    | none => exact absurd hm hqt
    | some m =>
      obtain ⟨qm, hqm, hmem2⟩ := hw.ownedBy i m hm
      exact ⟨⟨m, rfl, Below.root_of_busy hw qm.level m qm hqm (Nat.le_refl _)
        (Or.inr (List.ne_nil_of_mem hmem2))⟩, hc⟩

theorem C1_witness :
    ∃ res, getObjectsInBound 5 (finalHeap 10 e1Init e1Calls) 0 (.free ⟨0, 0, 20, 20⟩) = some res ∧
      res.Nodup ∧
      ∀ i, i ∈ res ↔ (((finalHeap 10 e1Init e1Calls).items i).qt ≠ none ∧
        RectRef.ofItem i ≠ .free ⟨0, 0, 20, 20⟩ ∧
        ((finalHeap 10 e1Init e1Calls).items i).bound.intersects
          ((RectRef.free ⟨0, 0, 20, 20⟩).deref (finalHeap 10 e1Init e1Calls)) = true) :=
  C1_query_exact_inside_root (steps_finalHeap e1_inside (by decide!)) (.free ⟨0, 0, 20, 20⟩) 5
    (by decide)

theorem insert_eq_split {s s2 : Heap} {this i : Nat} {q : QuadTree} {f : Nat}
    {r : Bool × Heap} (hqt : (s.items i).qt = none) (hq : s.nodes this = some q)
    (hs : q.mustSplit) (hsub : subdivide (s.link this q i) this = some s2)
    (hupd : update f s2 this i = some r) :
    insert (f + 1) s this i = some (true, r.2) := by
  rw [insert]
  have hr' : (if q.isLeaf = true then none else getChild q (s.items i).bound) = none := by
    rw [if_pos hs.1]
  simp only [hqt, Option.isSome_none, Bool.false_eq_true, if_false, hq, hr']
  have hcond : (q.isLeaf && decide (q.level < q.maxLevel) &&
      decide (q.capacity ≤ (q.objects ++ [i]).length)) = true := by
    simp only [Bool.and_eq_true, decide_eq_true_eq, List.length_append,
      List.length_singleton]
    exact ⟨⟨hs.1, hs.2.1⟩, hs.2.2⟩
  rw [if_pos hcond]
  simp only [hsub, hupd]

theorem update_eq_parent {s s1 : Heap} {this i p : Nat} {q : QuadTree} {f : Nat}
    (hrem : remove f s this i = some (true, s1)) (hq : s1.nodes this = some q)
    (hp : q.parent = some p) (hc : q.bounds.contains (s1.items i).bound = false) :
    update (f + 1) s this i = insert f s1 p i := by
  rw [update]
  simp only [hrem, hq, hp, hc, Option.isSome_some, Bool.not_false, Bool.and_self, if_true]

theorem update_eq_here {s s1 : Heap} {this i : Nat} {q : QuadTree} {f : Nat}
    (hrem : remove f s this i = some (true, s1)) (hq : s1.nodes this = some q)
    (hc : q.parent = none ∨ q.bounds.contains (s1.items i).bound = true) :
    update (f + 1) s this i =
      match q.route (s1.items i).bound with
      | some c => insert f s1 c i
      | none => insert f s1 this i := by
  rw [update]
  have hcond : ¬ ((q.parent.isSome && !q.bounds.contains (s1.items i).bound) = true) := by
    rcases hc with h | h
    · simp [h]
    · simp [h]
  simp only [hrem, hq]
  rw [if_neg hcond]
  rfl

/-- An empty leaf with capacity at least two takes an untracked item at once. -/
theorem insert_empty_leaf {s : Heap} {g i : Nat} {qg : QuadTree} (f : Nat)
    (hqt : (s.items i).qt = none) (hg : s.nodes g = some qg) (hl : qg.isLeaf = true)
    (ho : qg.objects = []) (hc : 2 ≤ qg.capacity) :
    insert (f + 1) s g i = some (true, s.link g qg i) := by
  refine insert_eq_link f hqt hg (route_leaf hl _) ?_
  rintro ⟨_, _, h⟩
  rw [ho] at h
  simp at h
  omega

/-- A subdivided node whose children are empty leaves takes an untracked item itself
or hands it to one of the children. -/
theorem insert_fresh_internal {s : Heap} {n i : Nat} {q : QuadTree} (f : Nat)
    (hqt : (s.items i).qt = none) (hq : s.nodes n = some q) (hl : q.isLeaf = false)
    (hkids : ∀ c ∈ q.children, ∃ qc, s.nodes c = some qc ∧ qc.isLeaf = true ∧
      qc.objects = [] ∧ 2 ≤ qc.capacity) :
    ∃ t, insert (f + 2) s n i = some (true, t) := by
  cases hr : q.route (s.items i).bound with
  | none =>
    refine ⟨_, insert_eq_link (f + 1) hqt hq hr ?_⟩
    rintro ⟨h, _⟩
    rw [hl] at h; cases h
  | some g =>
    obtain ⟨qg, hg, hgl, hgo, hgc⟩ := hkids g (route_some hr).2
    rw [insert_eq_route (f + 1) hqt hq hr]
    exact ⟨_, insert_empty_leaf f hqt hg hgl hgo hgc⟩

/-- The splitting branch of `insert` returns: with capacity at least two the node keeps
another object, so `update` finds the node subdivided, with four empty leaves below. -/
theorem insert_split_returns {C D : Nat} {s : Heap} (hw : WF0 C D s) (hC : 2 ≤ C) {n i : Nat}
    {q : QuadTree} (hq : s.nodes n = some q) (hqt : (s.items i).qt = none)
    (hs : q.mustSplit) (ha : Attached s n)
    (hpar : ∀ p qp, q.parent = some p → s.nodes p = some qp →
      getChild qp (s.items i).bound = some n) :
    ∃ t, insert 5 s n i = some (true, t) := by
  have hs0 := hs
  obtain ⟨hl, hlev, hcap⟩ := hs
  have hconf := hw.conf n q hq
  have hD : q.level < D := by rw [← hconf.2]; exact hlev
  have hlen : 1 ≤ q.objects.length := by have := hconf.1; omega
  obtain ⟨j, hj⟩ : ∃ j, j ∈ q.objects := by
    cases hqo : q.objects with
    | nil => rw [hqo] at hlen; simp at hlen
    | cons j l => exact ⟨j, by simp⟩
  have hji : j ≠ i := by
    intro h; subst h
    have := hw.owner n q j hq hj
    rw [this] at hqt; cases hqt
  have hw1 := hw.wf_link hq hqt ha
  have hq1 : (s.link n q i).nodes n = some { q with objects := q.objects ++ [i] } := by simp
  have ha1 : Attached (s.link n q i) n := hw1.live n _ hq1 (Or.inr (by simp))
  obtain ⟨s2, hsub⟩ := subdivide_isSome hq1
  have hw2 := hw1.wf_subdivide hq1 hl hD ha1 hsub
  obtain ⟨hnext, hitems, hn2, hnew, hold, _⟩ := hw1.wf_subdivide_nodes hq1 hsub
  have hnlt : n < s.next := hw.lt_next hq
  -- the node after `subdivide`
  obtain ⟨q2, hq2⟩ : ∃ q2 : QuadTree, q2 = { ({ q with objects := q.objects ++ [i] } : QuadTree) with
      children := [(s.link n q i).next, (s.link n q i).next + 1, (s.link n q i).next + 2,
        (s.link n q i).next + 3], isLeaf := false } := ⟨_, rfl⟩
  rw [← hq2] at hn2
  have hq2o : q2.objects = q.objects ++ [i] := by rw [hq2]
  have hq2l : q2.isLeaf = false := by rw [hq2]
  have hq2p : q2.parent = q.parent := by rw [hq2]
  have hq2c : q2.children = [s.next, s.next + 1, s.next + 2, s.next + 3] := by rw [hq2]; rfl
  have hi2 : (s2.items i).qt = some n := by rw [hitems]; simp
  have him : i ∈ q2.objects := by rw [hq2o]; simp
  have hq3 : (s2.unlink n q2 i).nodes n = some { q2 with objects := q2.objects.erase i } := by
    simp
  have hjm : j ∈ q2.objects.erase i :=
    (List.mem_erase_of_ne hji).2 (by rw [hq2o]; exact List.mem_append_left _ hj)
  have hqt3 : ((s2.unlink n q2 i).items i).qt = none := by simp
  have hb3 : ((s2.unlink n q2 i).items i).bound = (s.items i).bound := by
    rw [unlink_bound, hitems, link_bound]
  -- the four children are empty leaves
  have hkids3 : ∀ c ∈ q2.children, ∃ qc, (s2.unlink n q2 i).nodes c = some qc ∧
      qc.isLeaf = true ∧ qc.objects = [] ∧ 2 ≤ qc.capacity := by
    intro c hc
    rw [hq2c] at hc
    have hcn : ∃ k, k < 4 ∧ c = s.next + k := by
      simp only [List.mem_cons, List.mem_singleton, List.not_mem_nil, or_false] at hc
      rcases hc with rfl | rfl | rfl | rfl
      · exact ⟨0, by omega, rfl⟩
      · exact ⟨1, by omega, rfl⟩
      · exact ⟨2, by omega, rfl⟩
      · exact ⟨3, by omega, rfl⟩
    obtain ⟨k, hk, rfl⟩ := hcn
    have hne : s.next + k ≠ n := by omega
    refine ⟨({ q with objects := q.objects ++ [i] } : QuadTree).newChild n k, ?_, rfl, rfl, ?_⟩
    · rw [unlink_nodes, if_neg hne]
      exact hnew k hk
    · show 2 ≤ q.capacity
      rw [hconf.1]; exact hC
  have hrem2 : remove 2 s2 n i = some (true, s2.unlink n q2 i) := by
    refine remove_eq_direct hi2 hn2 him (discard_eq_same hq3 ?_ ?_ 0)
    · rintro ⟨ho, _⟩
      have : j ∈ ([] : List Nat) := by
        rw [← ho]; exact hjm
      cases this
    · intro _
      refine ⟨by show q2.children.length = 4; rw [hq2c]; rfl, fun c hc => ?_⟩
      obtain ⟨qc, hqc, _⟩ := hkids3 c hc
      exact ⟨qc, hqc⟩
  have hrem : remove 3 s2 n i = some (true, s2.unlink n q2 i) :=
    remove_mono_le (by omega) hrem2
  obtain ⟨t, hfresh⟩ := insert_fresh_internal 0 hqt3 hq3 hq2l hkids3
  have hhere : (match ({ q2 with objects := q2.objects.erase i } : QuadTree).route
        ((s2.unlink n q2 i).items i).bound with
      | some c => insert 3 (s2.unlink n q2 i) c i
      | none => insert 3 (s2.unlink n q2 i) n i) = some (true, t) := by
    cases hr : ({ q2 with objects := q2.objects.erase i } : QuadTree).route
        ((s2.unlink n q2 i).items i).bound with
    | none => exact insert_mono_le (by omega) hfresh
    | some c =>
      show insert 3 (s2.unlink n q2 i) c i = some (true, t)
      rw [← insert_eq_route 3 hqt3 hq3 hr]
      exact insert_mono_le (by omega) hfresh
  have hupd : update 4 s2 n i = some (true, t) := by
    cases hp : q.parent with
    | none =>
      rw [update_eq_here hrem hq3 (Or.inl (hq2p.trans hp))]
      exact hhere
    | some p =>
      cases hcn : ({ q2 with objects := q2.objects.erase i } : QuadTree).bounds.contains
          ((s2.unlink n q2 i).items i).bound with
      | true =>
        rw [update_eq_here hrem hq3 (Or.inr hcn)]
        exact hhere
      | false =>
        rw [update_eq_parent hrem hq3 (hq2p.trans hp) hcn]
        rcases ha with h0 | ⟨q', p', qp, hq', hp', hqp, hpl, _⟩
        · subst h0
          obtain ⟨q0, hq0, hp0, _⟩ := hw.root
          rw [hq] at hq0; cases hq0
          rw [hp0] at hp; cases hp
        · rw [hq] at hq'; cases hq'
          rw [hp] at hp'; cases hp'
          have hpn : p ≠ n := fun h => hw.parent_ne hq (by rw [hp, h])
          have hqp3 : (s2.unlink n q2 i).nodes p = some qp := by
            rw [unlink_nodes, if_neg hpn, hold p hpn (by rw [link_next]; exact hw.lt_next hqp),
              link_nodes, if_neg hpn]
            exact hqp
          have hroute : qp.route ((s2.unlink n q2 i).items i).bound = some n := by
            unfold QuadTree.route
            rw [hpl, hb3]
            simpa using hpar p qp hp hqp
          rw [insert_eq_route 2 hqt3 hqp3 hroute]
          exact hfresh
  exact ⟨t, insert_eq_split hqt hq hs0 hsub hupd⟩

/-- Termination of `insert`: with capacity at least two (or max depth zero), `insert`
of an untracked item returns `true` from any node reached by routing, with a recursion
budget of five more than the levels left below the node. -/
theorem insert_returns {C D : Nat} (hA : 2 ≤ C ∨ D = 0) : ∀ (k : Nat) (s : Heap) (n i : Nat)
    (q : QuadTree), WF0 C D s → (s.items i).qt = none → s.nodes n = some q →
    D ≤ q.level + k → Attached s n →
    (∀ p qp, q.parent = some p → s.nodes p = some qp →
      getChild qp (s.items i).bound = some n) →
    ∃ t, insert (k + 5) s n i = some (true, t) := by
  have hnone : ∀ (k : Nat) (s : Heap) (n i : Nat) (q : QuadTree), WF0 C D s →
      (s.items i).qt = none → s.nodes n = some q → Attached s n →
      (∀ p qp, q.parent = some p → s.nodes p = some qp →
        getChild qp (s.items i).bound = some n) →
      q.route (s.items i).bound = none → ∃ t, insert (k + 5) s n i = some (true, t) := by
    intro k s n i q hw hqt hq ha hpar hr
    by_cases hs : q.mustSplit
    · have hC : 2 ≤ C := by
        rcases hA with h | h
        · exact h
        · have := hs.2.1
          rw [(hw.conf n q hq).2] at this
          omega
      obtain ⟨t, ht⟩ := insert_split_returns hw hC hq hqt hs ha hpar
      exact ⟨t, insert_mono_le (by omega) ht⟩
    · exact ⟨_, insert_eq_link (k + 4) hqt hq hr hs⟩
  intro k
  induction k with
  | zero =>
    intro s n i q hw hqt hq hlev ha hpar
    cases hr : q.route (s.items i).bound with
    | none => exact hnone 0 s n i q hw hqt hq ha hpar hr
    | some c =>
      have := (hw.kids n q hq (route_some hr).1).1
      omega
  | succ k ih =>
    intro s n i q hw hqt hq hlev ha hpar
    cases hr : q.route (s.items i).bound with
    | none => exact hnone (k + 1) s n i q hw hqt hq ha hpar hr
    | some c =>
      obtain ⟨hl, hmem⟩ := route_some hr
      obtain ⟨qc, hqc, hcp⟩ := (hw.kids n q hq hl).2.2.2 c hmem
      obtain ⟨qn, hqn, hlevel⟩ := hw.par c qc n hqc hcp
      rw [hq] at hqn; cases hqn
      rw [insert_eq_route (k + 5) hqt hq hr]
      refine ih s c i qc hw hqt hqc (by omega) (hw.attached_child hq hl hmem) ?_
      intro p qp hp hqp
      rw [hcp] at hp; cases hp
      rw [hq] at hqp; cases hqp
      unfold QuadTree.route at hr
      rw [hl] at hr
      simpa using hr

theorem e1_reach : Reach ⟨0, 0, 100, 100⟩ 2 4 (finalHeap 10 e1Init e1Calls) :=
  reach_finalHeap (by decide!)

/-- C7. Update is remove-then-reinsert: in a reachable state and for a tracked item,
`update` on the root returns, `remove` followed by `insert` (both on the root) return,
with the same Boolean `true` and the same final state; and any result `update` returns
is a result of `remove` followed by `insert`, and conversely. -/
theorem C7_update_is_remove_then_insert {B : Rect} {C D : Nat} {s : Heap}
    (h : Reach B C D s) (i : Nat) (ht : (s.items i).qt ≠ none) :
    ∃ t s1, (∀ f, D + 7 ≤ f → update f s 0 i = some (true, t)) ∧
      (∀ f, D + 5 ≤ f → remove f s 0 i = some (true, s1)) ∧
      (∀ f, D + 5 ≤ f → insert f s1 0 i = some (true, t)) ∧
      ∀ r, (∃ f, update f s 0 i = some r) ↔
        (∃ f s2, remove f s 0 i = some (true, s2) ∧ insert f s2 0 i = some r) := by
  obtain ⟨hw, hnv, hreg⟩ := inv_of_reach h
  have hA : 2 ≤ C ∨ D = 0 := by
    rcases hreg with hA | ⟨_, hun⟩
    · exact hA
    · exact absurd (hun i) ht
  obtain ⟨n, hn⟩ : ∃ n, (s.items i).qt = some n := by
    cases hq : (s.items i).qt with
    | none => exact absurd hq ht
    | some n => exact ⟨n, rfl⟩
  obtain ⟨q, s1, hq, hmem, hcol, hw1, _, hrem⟩ := remove_spec hw hnv hn
  have hqt1 : (s1.items i).qt = none := by rw [hcol.frame.1]; simp
  obtain ⟨q0, hq0, hp0, hl0⟩ := hw1.root
  obtain ⟨t, hins⟩ := insert_returns hA D s1 0 i q0 hw1 hqt1 hq0 (by omega) (Or.inl rfl)
    (fun p qp hp _ => by rw [hp0] at hp; cases hp)
  have hremf : ∀ f, D + 5 ≤ f → remove f s 0 i = some (true, s1) := by
    intro f hf
    have := hrem 0 (f - (D + 5))
    rwa [show f - (D + 5) + D + 5 = f by omega] at this
  have hinsf : ∀ f, D + 5 ≤ f → insert f s1 0 i = some (true, t) :=
    fun f hf => insert_mono_le hf hins
  refine ⟨t, s1, fun f hf => ?_, hremf, hinsf, fun r => update_iff_remove_insert h i ht r⟩
  have hu : update (D + 6 + 1) s 0 i = some (true, t) := by
    rw [update_eq_of_root (hremf (D + 6) (by omega)) hq0 hp0]
    cases hc : q0.route (s1.items i).bound with
    | none => exact hinsf _ (by omega)
    | some c =>
      show insert (D + 6) s1 c i = some (true, t)
      rw [← insert_eq_route (D + 6) hqt1 hq0 hc]
      exact hinsf _ (by omega)
  exact update_mono_le hf hu

theorem C7_witness :
    ∃ t s1, (∀ f, 4 + 7 ≤ f → update f (finalHeap 10 e1Init e1Calls) 0 2 = some (true, t)) ∧
      (∀ f, 4 + 5 ≤ f → remove f (finalHeap 10 e1Init e1Calls) 0 2 = some (true, s1)) ∧
      (∀ f, 4 + 5 ≤ f → insert f s1 0 2 = some (true, t)) ∧
      ∀ r, (∃ f, update f (finalHeap 10 e1Init e1Calls) 0 2 = some r) ↔
        (∃ f s2, remove f (finalHeap 10 e1Init e1Calls) 0 2 = some (true, s2) ∧
          insert f s2 0 2 = some r) :=
  C7_update_is_remove_then_insert e1_reach 2 (by decide!)

theorem intersects_comm (a b : Rect) : a.intersects b = b.intersects a := by
  rw [Bool.eq_iff_iff, intersects_iff, intersects_iff]
  constructor <;> rintro ⟨h1, h2, h3, h4⟩ <;> exact ⟨h2, h1, h4, h3⟩

/-- C18. `Rect::intersects` is edge-inclusive overlap: for rectangles of non-negative
width and height, `a.intersects(b)` holds exactly when the closed boxes of `a` and `b`
share a point; and `intersects` is symmetric. -/
theorem C18_intersects_is_closed_overlap (a b : Rect) (ha : 0 ≤ a.width ∧ 0 ≤ a.height)
    (hb : 0 ≤ b.width ∧ 0 ≤ b.height) :
    (a.intersects b = true ↔ ∃ px py : ℚ, a.covers px py ∧ b.covers px py) ∧
    a.intersects b = b.intersects a := by
  refine ⟨?_, intersects_comm a b⟩
  rw [intersects_iff]
  constructor
  · rintro ⟨h1, h2, h3, h4⟩
    refine ⟨max a.x b.x, max a.y b.y, ⟨le_max_left _ _, max_le ?_ ?_, le_max_left _ _,
      max_le ?_ ?_⟩, ⟨le_max_right _ _, max_le ?_ ?_, le_max_right _ _, max_le ?_ ?_⟩⟩ <;>
      linarith [ha.1, ha.2, hb.1, hb.2]
  · rintro ⟨px, py, ⟨a1, a2, a3, a4⟩, ⟨b1, b2, b3, b4⟩⟩
    exact ⟨by linarith, by linarith, by linarith, by linarith⟩

theorem C18_witness :
    ((⟨0, 0, 10, 10⟩ : Rect).intersects ⟨10, 10, 5, 5⟩ = true ↔
      ∃ px py : ℚ, (⟨0, 0, 10, 10⟩ : Rect).covers px py ∧ (⟨10, 10, 5, 5⟩ : Rect).covers px py) ∧
    (⟨0, 0, 10, 10⟩ : Rect).intersects ⟨10, 10, 5, 5⟩ =
      (⟨10, 10, 5, 5⟩ : Rect).intersects ⟨0, 0, 10, 10⟩ :=
  C18_intersects_is_closed_overlap ⟨0, 0, 10, 10⟩ ⟨10, 10, 5, 5⟩
    ⟨by norm_num, by norm_num⟩ ⟨by norm_num, by norm_num⟩

theorem quadrantOf_of_contains {r b : Rect} {k : Nat} (hk : k < 4)
    (hc : (quadrant r k).contains b = true) (hw : 0 ≤ b.width) (hh : 0 ≤ b.height)
    (hx1 : b.x ≠ r.getRight) (hx2 : b.x + b.width ≠ r.getRight)
    (hy1 : b.y ≠ r.getTop) (hy2 : b.y + b.height ≠ r.getTop) :
    quadrantOf r b = some k := by
  rw [contains_iff] at hc
  unfold Rect.getRight at hx1 hx2
  unfold Rect.getTop at hy1 hy2
  unfold quadrantOf Rect.getRight Rect.getTop
  obtain ⟨c1, c2, c3, c4⟩ := hc
  interval_cases k <;> simp only [quadrant] at c1 c2 c3 c4
  · -- top right
    have h1 : b.x > r.x + r.width * (1 / 2) := lt_of_le_of_ne c1 (Ne.symm hx1)
    have h2 : b.y + b.height < r.y + r.height * (1 / 2) := lt_of_le_of_ne c4 hy2
    have h3 : ¬ (b.x + b.width < r.x + r.width * (1 / 2)) := by linarith
    simp only [h1, h2, h3, decide_True, decide_False, if_true, if_false,
      Bool.false_eq_true, not_false_eq_true]
  · have h1 : b.x + b.width < r.x + r.width * (1 / 2) := lt_of_le_of_ne c3 hx2
    have h2 : b.y + b.height < r.y + r.height * (1 / 2) := lt_of_le_of_ne c4 hy2
    simp only [h1, h2, decide_True, decide_False, if_true, if_false,
      Bool.false_eq_true, not_false_eq_true]
  · have h1 : b.x + b.width < r.x + r.width * (1 / 2) := lt_of_le_of_ne c3 hx2
    have h2 : b.y > r.y + r.height * (1 / 2) := lt_of_le_of_ne c2 (Ne.symm hy1)
    have h3 : ¬ (b.y + b.height < r.y + r.height * (1 / 2)) := by linarith
    simp only [h1, h2, h3, decide_True, decide_False, if_true, if_false,
      Bool.false_eq_true, not_false_eq_true]
  · have h1 : b.x > r.x + r.width * (1 / 2) := lt_of_le_of_ne c1 (Ne.symm hx1)
    have h2 : b.y > r.y + r.height * (1 / 2) := lt_of_le_of_ne c2 (Ne.symm hy1)
    have h3 : ¬ (b.y + b.height < r.y + r.height * (1 / 2)) := by linarith
    have h4 : ¬ (b.x + b.width < r.x + r.width * (1 / 2)) := by linarith
    simp only [h1, h2, h3, h4, decide_True, decide_False, if_true, if_false,
      Bool.false_eq_true, not_false_eq_true]

theorem child_index {l : List Nat} (hlen : l.length = 4) {c : Nat} (hc : c ∈ l) :
    ∃ k, k < 4 ∧ l[k]? = some c := by
  obtain ⟨k, hk⟩ := List.mem_iff_getElem?.1 hc
  refine ⟨k, ?_, hk⟩
  by_contra hge
  rw [List.getElem?_eq_none (by omega)] at hk
  cases hk

/-- C16. Routing agrees with the subdivision geometry: a subdivided node of a reachable
state has four children whose bounds are the top-right, top-left, bottom-left and
bottom-right quadrants (half width, half height), and whenever the node's bounds contain
`b` and `getChild(b)` returns a child, that child's bounds contain `b`. -/
theorem C16_routing_agrees_with_geometry {B : Rect} {C D : Nat} {s : Heap}
    (h : Reach B C D s) (n : Nat) (q : QuadTree) (hq : s.nodes n = some q)
    (hl : q.isLeaf = false) :
    (∃ c0 c1 c2 c3 q0 q1 q2 q3, q.children = [c0, c1, c2, c3] ∧
      s.nodes c0 = some q0 ∧ s.nodes c1 = some q1 ∧ s.nodes c2 = some q2 ∧
      s.nodes c3 = some q3 ∧
      q0.bounds = ⟨q.bounds.x + q.bounds.width * (1 / 2), q.bounds.y,
        q.bounds.width * (1 / 2), q.bounds.height * (1 / 2)⟩ ∧
      q1.bounds = ⟨q.bounds.x, q.bounds.y,
        q.bounds.width * (1 / 2), q.bounds.height * (1 / 2)⟩ ∧
      q2.bounds = ⟨q.bounds.x, q.bounds.y + q.bounds.height * (1 / 2),
        q.bounds.width * (1 / 2), q.bounds.height * (1 / 2)⟩ ∧
      q3.bounds = ⟨q.bounds.x + q.bounds.width * (1 / 2),
        q.bounds.y + q.bounds.height * (1 / 2),
        q.bounds.width * (1 / 2), q.bounds.height * (1 / 2)⟩) ∧
    ∀ b c, q.bounds.contains b = true → getChild q b = some c →
      ∃ qc, s.nodes c = some qc ∧ qc.bounds.contains b = true := by
  obtain ⟨hw, _, _⟩ := inv_of_reach h
  obtain ⟨_, hlen, _, _⟩ := hw.kids n q hq hl
  constructor
  · obtain ⟨c0, c1, c2, c3, hch⟩ : ∃ c0 c1 c2 c3, q.children = [c0, c1, c2, c3] := by
      match hq4 : q.children, hlen with
      | [c0, c1, c2, c3], _ => exact ⟨c0, c1, c2, c3, rfl⟩
    obtain ⟨q0, h0, b0⟩ := hw.geo n q hq hl 0 c0 (by rw [hch]; rfl)
    obtain ⟨q1, h1, b1⟩ := hw.geo n q hq hl 1 c1 (by rw [hch]; rfl)
    obtain ⟨q2, h2, b2⟩ := hw.geo n q hq hl 2 c2 (by rw [hch]; rfl)
    obtain ⟨q3, h3, b3⟩ := hw.geo n q hq hl 3 c3 (by rw [hch]; rfl)
    exact ⟨c0, c1, c2, c3, q0, q1, q2, q3, hch, h0, h1, h2, h3, b0, b1, b2, b3⟩
  · intro b c hcont hgc
    obtain ⟨k, hk, hck⟩ := getChild_index hgc
    obtain ⟨qc, hqc, hb⟩ := hw.geo n q hq hl k c hck
    exact ⟨qc, hqc, by rw [hb]; exact quadrant_contains hk hcont⟩

theorem C16_witness :
    (∃ c0 c1 c2 c3 q0 q1 q2 q3,
      [1, 2, 3, 4] = [c0, c1, c2, c3] ∧
      (finalHeap 10 e1Init e1Calls).nodes c0 = some q0 ∧
      (finalHeap 10 e1Init e1Calls).nodes c1 = some q1 ∧
      (finalHeap 10 e1Init e1Calls).nodes c2 = some q2 ∧
      (finalHeap 10 e1Init e1Calls).nodes c3 = some q3 ∧
      q0.bounds = ⟨(0 : ℚ) + 100 * (1 / 2), 0, 100 * (1 / 2), 100 * (1 / 2)⟩ ∧
      q1.bounds = ⟨0, 0, 100 * (1 / 2), 100 * (1 / 2)⟩ ∧
      q2.bounds = ⟨0, (0 : ℚ) + 100 * (1 / 2), 100 * (1 / 2), 100 * (1 / 2)⟩ ∧
      q3.bounds = ⟨(0 : ℚ) + 100 * (1 / 2), (0 : ℚ) + 100 * (1 / 2), 100 * (1 / 2),
        100 * (1 / 2)⟩) ∧
    ∀ b c, (⟨0, 0, 100, 100⟩ : Rect).contains b = true →
      getChild e1Root b = some c →
      ∃ qc, (finalHeap 10 e1Init e1Calls).nodes c = some qc ∧ qc.bounds.contains b = true :=
  C16_routing_agrees_with_geometry e1_reach 0 e1Root (by decide!) rfl

/-- C17, as stated, fails on the boundary: in scenario E1 with a fourth item of bound
`{0,0,50,50}`, exactly one child of the root (the top-left one, at address 2) has bounds
that contain the bound, yet `getChild` returns no child and `insert` on the root leaves
the item with the root. -/
theorem C17_counterexample :
    ((edgeHeap.nodes 0).map fun q => (q.isLeaf, q.children, getChild q (edgeBounds 3)))
      = some (false, [1, 2, 3, 4], none) ∧
    ([1, 2, 3, 4].map fun c =>
        (edgeHeap.nodes c).map fun qc => qc.bounds.contains (edgeBounds 3))
      = [some false, some true, some false, some false] ∧
    ((insert 10 edgeHeap 0 3).map fun r => (r.1, (r.2.items 3).qt)) = some (true, some 0) := by
  refine ⟨?_, ?_, ?_⟩ <;> decide!

/-- C17 (amended). In a reachable state, for a subdivided node and a bound `b` of
non-negative width and height that touches neither centre line of the node: if a
child's bounds contain `b` (`Rect::contains`), `getChild(b)` returns that child, and
`insert` on the node of an untracked item with that bound is the `insert` on that
child. -/
theorem C17_child_selected_off_centre_lines {B : Rect} {C D : Nat} {s : Heap}
    (h : Reach B C D s) (n : Nat) (q : QuadTree) (hq : s.nodes n = some q)
    (hl : q.isLeaf = false) (b : Rect) (hbw : 0 ≤ b.width) (hbh : 0 ≤ b.height)
    (hx1 : b.x ≠ q.bounds.getRight) (hx2 : b.x + b.width ≠ q.bounds.getRight)
    (hy1 : b.y ≠ q.bounds.getTop) (hy2 : b.y + b.height ≠ q.bounds.getTop)
    (c : Nat) (qc : QuadTree) (hc : c ∈ q.children) (hqc : s.nodes c = some qc)
    (hcont : qc.bounds.contains b = true) :
    getChild q b = some c ∧
    ∀ i f, (s.items i).qt = none → (s.items i).bound = b →
      insert (f + 1) s n i = insert f s c i := by
  obtain ⟨hw, _, _⟩ := inv_of_reach h
  obtain ⟨_, hlen, _, _⟩ := hw.kids n q hq hl
  obtain ⟨k, hk, hck⟩ := child_index hlen hc
  obtain ⟨qc2, hqc2, hb⟩ := hw.geo n q hq hl k c hck
  rw [hqc] at hqc2; cases hqc2
  rw [hb] at hcont
  have hquad := quadrantOf_of_contains hk hcont hbw hbh hx1 hx2 hy1 hy2
  have hgc : getChild q b = some c := by
    rw [getChild_eq, hquad, Option.some_bind]
    exact hck
  refine ⟨hgc, fun i f hqt hbi => insert_eq_route f hqt hq ?_⟩
  unfold QuadTree.route
  rw [hl, hbi]
  simpa using hgc

theorem C17_witness :
    getChild e1Root ⟨20, 20, 5, 5⟩ = some 2 ∧
    ∀ i f, ((finalHeap 10 e1Init e1Calls).items i).qt = none →
      ((finalHeap 10 e1Init e1Calls).items i).bound = ⟨20, 20, 5, 5⟩ →
      insert (f + 1) (finalHeap 10 e1Init e1Calls) 0 i
        = insert f (finalHeap 10 e1Init e1Calls) 2 i :=
  C17_child_selected_off_centre_lines e1_reach 0 e1Root (by decide!) rfl ⟨20, 20, 5, 5⟩
    (by norm_num) (by norm_num) (by decide!) (by decide!) (by decide!) (by decide!) 2
    e1TopLeft (by decide) (by decide!) (by decide!)

theorem route_eq_getChild {q : QuadTree} (hl : q.isLeaf = false) (b : Rect) :
    q.route b = getChild q b := by
  unfold QuadTree.route
  rw [hl]
  simp

theorem lands_exists {C D : Nat} {s : Heap} (hw : WF0 C D s) (b : Rect) :
    ∀ (k n : Nat) (q : QuadTree), s.nodes n = some q → D ≤ q.level + k →
      ∃ m, Lands s b n m := by
  intro k
  induction k with
  | zero =>
    intro n q hq hlev
    cases hr : q.route b with
    | none => exact ⟨n, Lands.here hq hr⟩
    | some c =>
      have := (hw.kids n q hq (route_some hr).1).1
      omega
  | succ k ih =>
    intro n q hq hlev
    cases hr : q.route b with
    | none => exact ⟨n, Lands.here hq hr⟩
    | some c =>
      obtain ⟨hl, hmem⟩ := route_some hr
      obtain ⟨qc, hqc, hcp⟩ := (hw.kids n q hq hl).2.2.2 c hmem
      obtain ⟨qn, hqn, hlevel⟩ := hw.par c qc n hqc hcp
      rw [hq] at hqn; cases hqn
      obtain ⟨m, hm⟩ := ih c qc hqc (by omega)
      exact ⟨m, Lands.down hq hr hm⟩

theorem Lands.stops {s : Heap} {b : Rect} {n m : Nat} (h : Lands s b n m) :
    ∃ qm, s.nodes m = some qm ∧ qm.route b = none := by
  induction h with
  | here hq hr => exact ⟨_, hq, hr⟩
  | down _ _ _ ih => exact ih

theorem Lands.lands_unique {s : Heap} {b : Rect} {n m : Nat} (h : Lands s b n m) :
    ∀ m2, Lands s b n m2 → m2 = m := by
  induction h with
  | here hq hr =>
    intro m2 h2
    cases h2 with
    | here _ _ => rfl
    | down hq2 hr2 _ =>
      rw [hq] at hq2; cases hq2
      rw [hr] at hr2; cases hr2
  | down hq hr _ ih =>
    intro m2 h2
    cases h2 with
    | here hq2 hr2 =>
      rw [hq] at hq2; cases hq2
      rw [hr] at hr2; cases hr2
    | down hq2 hr2 h3 =>
      rw [hq] at hq2; cases hq2
      rw [hr] at hr2; cases hr2
      exact ih m2 h3

theorem Lands.attached {C D : Nat} {s : Heap} (hw : WF0 C D s) {b : Rect} {n m : Nat}
    (h : Lands s b n m) : Attached s n → Attached s m := by
  induction h with
  | here _ _ => exact id
  | down hq hr _ ih =>
    intro _
    exact ih (hw.attached_child hq (route_some hr).1 (route_some hr).2)

/-- The node where routing stops is the start node, or its parent routes the bound to
it. -/
theorem Lands.parent {C D : Nat} {s : Heap} (hw : WF0 C D s) {b : Rect} {n m : Nat}
    (h : Lands s b n m) :
    m = n ∨ ∃ qm p qp, s.nodes m = some qm ∧ qm.parent = some p ∧ s.nodes p = some qp ∧
      getChild qp b = some m := by
  induction h with
  | here _ _ => exact Or.inl rfl
  | @down n c m q hq hr hl ih =>
    right
    rcases ih with rfl | h
    · obtain ⟨hleaf, hmem⟩ := route_some hr
      obtain ⟨qc, hqc, hcp⟩ := (hw.kids n q hq hleaf).2.2.2 m hmem
      exact ⟨qc, n, q, hqc, hcp, hq, by rw [← route_eq_getChild hleaf]; exact hr⟩
    · exact h

/-- The calls `insert` makes on the way down return what the last one returns. -/
theorem insert_along {s : Heap} {i n m : Nat} (h : Lands s (s.items i).bound n m)
    (hqt : (s.items i).qt = none) :
    ∀ (f : Nat) (r : Bool × Heap), insert f s m i = some r → ∃ g, insert g s n i = some r := by
  induction h with
  | here _ _ => exact fun f r hr => ⟨f, hr⟩
  | down hq hr _ ih =>
    intro f r hins
    obtain ⟨g, hg⟩ := ih f r hins
    exact ⟨g + 1, by rw [insert_eq_route g hqt hq hr]; exact hg⟩

/-- Routing is not affected by changes to nodes that are leaves. -/
theorem Lands.prepend {s t : Heap} {b : Rect} {n m : Nat} (h : Lands s b n m)
    (hkeep : ∀ x qx, s.nodes x = some qx → qx.isLeaf = false → t.nodes x = some qx) :
    ∀ tgt, Lands t b m tgt → Lands t b n tgt := by
  induction h with
  | here _ _ => exact fun tgt h => h
  | down hq hr _ ih =>
    intro tgt ht
    exact Lands.down (hkeep _ _ hq (route_some hr).1) hr (ih tgt ht)

theorem Lands.keep {s t : Heap} {b : Rect} {n m : Nat} (h : Lands s b n m)
    (hkeep : ∀ x qx, s.nodes x = some qx → qx.isLeaf = false → t.nodes x = some qx)
    {qm : QuadTree} (hm : t.nodes m = some qm) (hr : qm.route b = none) : Lands t b n m :=
  h.prepend hkeep m (Lands.here hm hr)

theorem erase_append_self {l : List Nat} {i : Nat} (h : i ∉ l) : (l ++ [i]).erase i = l := by
  rw [List.erase_append_right _ h]
  simp

theorem WF0.not_mem_of_untracked {C D : Nat} {s : Heap} (hw : WF0 C D s) {i : Nat}
    (hqt : (s.items i).qt = none) {n : Nat} {q : QuadTree} (hq : s.nodes n = some q) :
    i ∉ q.objects := by
  intro h
  rw [hw.owner n q i hq h] at hqt
  cases hqt

/-- The detour of `insert` through `subdivide` and `update`: pushing the item,
subdividing and erasing the item again gives the state that subdividing alone gives. -/
theorem split_detour {C D : Nat} {s s2 s' : Heap} (hw : WF0 C D s) {m i : Nat} {q : QuadTree}
    (hq : s.nodes m = some q) (hqt : (s.items i).qt = none) (ha : Attached s m)
    (h2 : subdivide (s.link m q i) m = some s2) (h' : subdivide s m = some s') :
    s2.unlink m
      { ({ q with objects := q.objects ++ [i] } : QuadTree) with
        children := [(s.link m q i).next, (s.link m q i).next + 1, (s.link m q i).next + 2,
          (s.link m q i).next + 3], isLeaf := false } i = s' := by
  have hw1 := hw.wf_link hq hqt ha
  have hq1 : (s.link m q i).nodes m = some { q with objects := q.objects ++ [i] } := by simp
  obtain ⟨hnext2, hitems2, hn2, hnew2, hold2, hfar2⟩ := hw1.wf_subdivide_nodes hq1 h2
  obtain ⟨hnext', hitems', hn', hnew', hold', hfar'⟩ := hw.wf_subdivide_nodes hq h'
  have hmlt : m < s.next := hw.lt_next hq
  have hni : i ∉ q.objects := hw.not_mem_of_untracked hqt hq
  refine heap_ext (fun x => ?_) ?_ (fun j => ?_)
  · rw [unlink_nodes]
    by_cases hxm : x = m
    · rw [if_pos hxm, hxm, hn']
      simp only [link_next, Option.some.injEq]
      show ({ q with objects := (q.objects ++ [i]).erase i,
                     children := [s.next, s.next + 1, s.next + 2, s.next + 3],
                     isLeaf := false } : QuadTree) = _
      rw [erase_append_self hni]
    · rw [if_neg hxm]
      rcases Nat.lt_or_ge x s.next with hx | hx
      · rw [hold2 x hxm (by rw [link_next]; exact hx), hold' x hxm hx, link_nodes, if_neg hxm]
      · rcases Nat.lt_or_ge x (s.next + 4) with hx4 | hx4
        · obtain ⟨k, hk, rfl⟩ : ∃ k, k < 4 ∧ x = s.next + k := ⟨x - s.next, by omega, by omega⟩
          have := hnew2 k hk
          rw [link_next] at this
          rw [this, hnew' k hk]
          rfl
        · rw [hfar2 x (by rw [link_next]; exact hx4), hfar' x hx4]
  · rw [unlink_next, hnext2, hnext', link_next]
  · have hb : ((s2.unlink m
        { ({ q with objects := q.objects ++ [i] } : QuadTree) with
          children := [(s.link m q i).next, (s.link m q i).next + 1,
            (s.link m q i).next + 2, (s.link m q i).next + 3], isLeaf := false } i).items j).bound
        = (s'.items j).bound := by
      rw [unlink_bound, hitems2, link_bound, hitems']
    have hq2 : ((s2.unlink m
        { ({ q with objects := q.objects ++ [i] } : QuadTree) with
          children := [(s.link m q i).next, (s.link m q i).next + 1,
            (s.link m q i).next + 2, (s.link m q i).next + 3], isLeaf := false } i).items j).qt
        = (s'.items j).qt := by
      rw [unlink_qt, hitems2, link_qt, hitems']
      by_cases hji : j = i
      · rw [if_pos hji, hji, hqt]
      · rw [if_neg hji, if_neg hji]
    cases hx : (s2.unlink m
        { ({ q with objects := q.objects ++ [i] } : QuadTree) with
          children := [(s.link m q i).next, (s.link m q i).next + 1,
            (s.link m q i).next + 2, (s.link m q i).next + 3], isLeaf := false } i).items j
    cases hy : s'.items j
    rw [hx] at hb hq2
    rw [hy] at hb hq2
    simp only at hb hq2
    rw [hb, hq2]

/-- A subdivided node whose children are empty leaves keeps an untracked item itself or
pushes it onto the child that `getChild` selects. -/
theorem insert_landing_internal {s : Heap} {n i : Nat} {q : QuadTree} (f : Nat)
    (hqt : (s.items i).qt = none) (hq : s.nodes n = some q) (hl : q.isLeaf = false)
    (hkids : ∀ c ∈ q.children, ∃ qc, s.nodes c = some qc ∧ qc.isLeaf = true ∧
      qc.objects = [] ∧ 2 ≤ qc.capacity) :
    ∃ tgt qt', s.nodes tgt = some qt' ∧ ¬ qt'.mustSplit ∧
      Lands s (s.items i).bound n tgt ∧
      insert (f + 2) s n i = some (true, s.link tgt qt' i) := by
  cases hr : q.route (s.items i).bound with
  | none =>
    have hns : ¬ q.mustSplit := by
      rintro ⟨h, _⟩
      rw [hl] at h; cases h
    exact ⟨n, q, hq, hns, Lands.here hq hr, insert_eq_link (f + 1) hqt hq hr hns⟩
  | some g =>
    obtain ⟨qg, hg, hgl, hgo, hgc⟩ := hkids g (route_some hr).2
    have hns : ¬ qg.mustSplit := by
      rintro ⟨_, _, h⟩
      rw [hgo] at h
      simp at h
      omega
    refine ⟨g, qg, hg, hns, Lands.down hq hr (Lands.here hg (route_leaf hgl _)), ?_⟩
    rw [insert_eq_route (f + 1) hqt hq hr]
    exact insert_empty_leaf f hqt hg hgl hgo hgc

/-- The splitting branch of `insert`, in closed form: the node is subdivided and the
item is then pushed onto the node where routing stops in the subdivided tree. -/
theorem insert_split_shape {C D : Nat} {s s' : Heap} (hw : WF0 C D s) (hC : 2 ≤ C)
    {m i : Nat} {q : QuadTree} (hq : s.nodes m = some q) (hqt : (s.items i).qt = none)
    (hs : q.mustSplit) (ha : Attached s m)
    (hpar : ∀ p qp, q.parent = some p → s.nodes p = some qp →
      getChild qp (s.items i).bound = some m)
    (h' : subdivide s m = some s') :
    ∃ tgt qt', s'.nodes tgt = some qt' ∧ ¬ qt'.mustSplit ∧
      Lands s' (s.items i).bound m tgt ∧
      insert 5 s m i = some (true, s'.link tgt qt' i) := by
  have hs0 := hs
  obtain ⟨hl, hlev, hcap⟩ := hs
  have hconf := hw.conf m q hq
  have hlen : 1 ≤ q.objects.length := by have := hconf.1; omega
  obtain ⟨j, hj⟩ : ∃ j, j ∈ q.objects := by
    cases hqo : q.objects with
    | nil => rw [hqo] at hlen; simp at hlen
    | cons j l => exact ⟨j, by simp⟩
  have hw1 := hw.wf_link hq hqt ha
  have hq1 : (s.link m q i).nodes m = some { q with objects := q.objects ++ [i] } := by simp
  obtain ⟨s2, hsub⟩ := subdivide_isSome hq1
  obtain ⟨_, hitems2, hn2, _, _, _⟩ := hw1.wf_subdivide_nodes hq1 hsub
  obtain ⟨hnext', hitems', hn', hnew', hold', _⟩ := hw.wf_subdivide_nodes hq h'
  have heq := split_detour hw hq hqt ha hsub h'
  have hmlt : m < s.next := hw.lt_next hq
  have hqt' : (s'.items i).qt = none := by rw [hitems']; exact hqt
  have hb' : (s'.items i).bound = (s.items i).bound := by rw [hitems']
  -- `remove` inside `update` only erases the item
  have hd : discardEmptyBuckets 1 s' m = some s' := by
    refine discard_eq_same hn' ?_ ?_ 0
    · rintro ⟨ho, _⟩
      have : j ∈ ([] : List Nat) := by
        rw [← ho]; exact hj
      cases this
    · intro _
      refine ⟨rfl, fun c hc => ?_⟩
      simp only [List.mem_cons, List.mem_singleton, List.not_mem_nil, or_false] at hc
      rcases hc with rfl | rfl | rfl | rfl
      · exact ⟨_, hnew' 0 (by omega)⟩
      · exact ⟨_, hnew' 1 (by omega)⟩
      · exact ⟨_, hnew' 2 (by omega)⟩
      · exact ⟨_, hnew' 3 (by omega)⟩
  have hrem2 : remove 2 s2 m i = some (true, s') :=
    remove_eq_direct (by rw [hitems2]; simp) hn2 (by simp) (by rw [heq]; exact hd)
  have hrem : remove 3 s2 m i = some (true, s') := remove_mono_le (by omega) hrem2
  -- the subdivided node and its four empty leaves
  have hkids' : ∀ c ∈ [s.next, s.next + 1, s.next + 2, s.next + 3],
      ∃ qc, s'.nodes c = some qc ∧ qc.isLeaf = true ∧ qc.objects = [] ∧ 2 ≤ qc.capacity := by
    intro c hc
    have hcap2 : 2 ≤ q.capacity := by rw [hconf.1]; exact hC
    simp only [List.mem_cons, List.mem_singleton, List.not_mem_nil, or_false] at hc
    rcases hc with rfl | rfl | rfl | rfl
    · exact ⟨_, hnew' 0 (by omega), rfl, rfl, hcap2⟩
    · exact ⟨_, hnew' 1 (by omega), rfl, rfl, hcap2⟩
    · exact ⟨_, hnew' 2 (by omega), rfl, rfl, hcap2⟩
    · exact ⟨_, hnew' 3 (by omega), rfl, rfl, hcap2⟩
  obtain ⟨tgt, qt', htgt, hns, hlands, hfresh⟩ :=
    insert_landing_internal 0 hqt' hn' rfl hkids'
  rw [hb'] at hlands
  refine ⟨tgt, qt', htgt, hns, hlands, ?_⟩
  obtain ⟨q', hq'⟩ : ∃ q' : QuadTree, q' =
      { q with children := [s.next, s.next + 1, s.next + 2, s.next + 3], isLeaf := false } :=
    ⟨_, rfl⟩
  rw [← hq'] at hn'
  have hq'p : q'.parent = q.parent := by rw [hq']
  have hhere : (match q'.route (s'.items i).bound with
      | some c => insert 3 s' c i
      | none => insert 3 s' m i) = some (true, s'.link tgt qt' i) := by
    cases hr : q'.route (s'.items i).bound with
    | none => exact insert_mono_le (by omega) hfresh
    | some c =>
      show insert 3 s' c i = some (true, s'.link tgt qt' i)
      rw [← insert_eq_route 3 hqt' hn' hr]
      exact insert_mono_le (by omega) hfresh
  have hupd : update 4 s2 m i = some (true, s'.link tgt qt' i) := by
    cases hp : q.parent with
    | none =>
      rw [update_eq_here hrem hn' (Or.inl (hq'p.trans hp))]
      exact hhere
    | some p =>
      cases hcn : q'.bounds.contains (s'.items i).bound with
      | true =>
        rw [update_eq_here hrem hn' (Or.inr hcn)]
        exact hhere
      | false =>
        rw [update_eq_parent hrem hn' (hq'p.trans hp) hcn]
        rcases ha with h0 | ⟨q', p', qp, hq', hp', hqp, hpl, _⟩
        · subst h0
          obtain ⟨q0, hq0, hp0, _⟩ := hw.root
          rw [hq] at hq0; cases hq0
          rw [hp0] at hp; cases hp
        · rw [hq] at hq'; cases hq'
          rw [hp] at hp'; cases hp'
          have hpn : p ≠ m := fun h => hw.parent_ne hq (by rw [hp, h])
          have hqp' : s'.nodes p = some qp := by
            rw [hold' p hpn (hw.lt_next hqp)]
            exact hqp
          have hroute : qp.route (s'.items i).bound = some m := by
            rw [route_eq_getChild hpl, hb']
            exact hpar p qp hp hqp
          rw [insert_eq_route 2 hqt' hqp' hroute]
          exact hfresh
  exact insert_eq_split hqt hq hs0 hsub hupd

/-- Closed form of `insert`: routing from the node stops at some node `m`; if `m` has to
split it is subdivided; the item is then pushed onto the node where routing stops in
the resulting tree. -/
theorem insert_shape {C D : Nat} (hA : 2 ≤ C ∨ D = 0) {s : Heap} (hw : WF0 C D s)
    {n i : Nat} {q : QuadTree} (hqt : (s.items i).qt = none) (hq : s.nodes n = some q)
    (ha : Attached s n)
    (hpar : ∀ p qp, q.parent = some p → s.nodes p = some qp →
      getChild qp (s.items i).bound = some n) :
    ∃ m qm s' tgt qt', Lands s (s.items i).bound n m ∧ s.nodes m = some qm ∧
      Attached s m ∧
      ((¬ qm.mustSplit ∧ s' = s) ∨ (qm.mustSplit ∧ 2 ≤ C ∧ subdivide s m = some s')) ∧
      Lands s' (s.items i).bound n tgt ∧ s'.nodes tgt = some qt' ∧ ¬ qt'.mustSplit ∧
      ∃ f, insert f s n i = some (true, s'.link tgt qt' i) := by
  obtain ⟨m, hm⟩ := lands_exists hw (s.items i).bound D n q hq (by omega)
  obtain ⟨qm, hqm, hrm⟩ := hm.stops
  have ham := hm.attached hw ha
  have hparm : ∀ p qp, qm.parent = some p → s.nodes p = some qp →
      getChild qp (s.items i).bound = some m := by
    rcases hm.parent hw with rfl | ⟨qm2, p2, qp2, hqm2, hp2, hqp2, hg2⟩
    · rw [hq] at hqm; cases hqm
      exact hpar
    · intro p qp hp hqp
      rw [hqm] at hqm2; cases hqm2
      rw [hp] at hp2; cases hp2
      rw [hqp] at hqp2; cases hqp2
      exact hg2
  by_cases hs : qm.mustSplit
  · have hC : 2 ≤ C := by
      rcases hA with h | h
      · exact h
      · have := hs.2.1
        rw [(hw.conf m qm hqm).2] at this
        omega
    obtain ⟨s', h'⟩ := subdivide_isSome hqm
    obtain ⟨tgt, qt', htgt, hns, hlands, hins⟩ :=
      insert_split_shape hw hC hqm hqt hs ham hparm h'
    obtain ⟨_, _, _, _, hold', _⟩ := hw.wf_subdivide_nodes hqm h'
    have hkeep : ∀ x qx, s.nodes x = some qx → qx.isLeaf = false → s'.nodes x = some qx := by
      intro x qx hx hxl
      have hxm : x ≠ m := by
        intro h
        rw [h, hqm] at hx
        cases hx
        rw [hs.1] at hxl; cases hxl
      rw [hold' x hxm (hw.lt_next hx)]
      exact hx
    exact ⟨m, qm, s', tgt, qt', hm, hqm, ham, Or.inr ⟨hs, hC, h'⟩, hm.prepend hkeep tgt hlands,
      htgt, hns, insert_along hm hqt 5 _ hins⟩
  · exact ⟨m, qm, s, m, qm, hm, hqm, ham, Or.inl ⟨hs, rfl⟩, hm, hqm, hs,
      insert_along hm hqt 1 _ (insert_eq_link 0 hqt hqm hrm hs)⟩

@[simp] theorem setBound_nodes (s : Heap) (i : Nat) (r : Rect) :
    (s.setBound i r).nodes = s.nodes := rfl

@[simp] theorem setBound_next (s : Heap) (i : Nat) (r : Rect) :
    (s.setBound i r).next = s.next := rfl

@[simp] theorem setBound_qt (s : Heap) (i : Nat) (r : Rect) (j : Nat) :
    ((s.setBound i r).items j).qt = (s.items j).qt := by
  unfold Heap.setBound
  by_cases hj : j = i <;> simp [hj]

@[simp] theorem setBound_bound (s : Heap) (i : Nat) (r : Rect) (j : Nat) :
    ((s.setBound i r).items j).bound = if j = i then r else (s.items j).bound := by
  unfold Heap.setBound
  by_cases hj : j = i <;> simp [hj]

theorem WF0.wf_setBound {C D : Nat} {s : Heap} (hw : WF0 C D s) (i : Nat) (r : Rect) :
    WF0 C D (s.setBound i r) :=
  hw.congr rfl rfl (fun j => setBound_qt s i r j)

theorem Prim.wf_after {C D : Nat} {free : Prop} {ok : Rect → Prop} {s t : Heap}
    (h : Prim C D free ok s t) : WF0 C D t := by
  cases h with
  | unlink hw hq hi => exact hw.wf_unlink hq hi
  | flip hw hq hc => exact hw.flip hq hc
  | split hw hq hs _ ha hsub =>
    exact hw.wf_subdivide hq hs.1 (by rw [← (hw.conf _ _ hq).2]; exact hs.2.1) ha hsub
  | link hw hqt hq _ hl _ => exact hw.wf_link hq hqt (hl.attached hw (Or.inl rfl))
  | clear _ hwt _ _ => exact hwt
  | setBound hw _ => exact hw.wf_setBound _ _

theorem Prims.single {C D : Nat} {free : Prop} {ok : Rect → Prop} {s t : Heap}
    (h : Prim C D free ok s t) : Prims C D free ok s t :=
  Prims.step h (Prims.refl t)

theorem Prims.append {C D : Nat} {free : Prop} {ok : Rect → Prop} {s t u : Heap}
    (h1 : Prims C D free ok s t) (h2 : Prims C D free ok t u) : Prims C D free ok s u := by
  induction h1 with
  | refl => exact h2
  | step hp _ ih => exact Prims.step hp (ih h2)

theorem Prims.wf_end {C D : Nat} {free : Prop} {ok : Rect → Prop} {s t : Heap}
    (h : Prims C D free ok s t) (hw : WF0 C D s) : WF0 C D t := by
  induction h with
  | refl => exact hw
  | step hp _ ih => exact ih hp.wf_after

theorem collapses_prims {C D : Nat} {free : Prop} {ok : Rect → Prop} {s t : Heap}
    (h : Collapses s t) : WF0 C D s → Prims C D free ok s t := by
  induction h with
  | refl => exact fun _ => Prims.refl _
  | step hq hc _ ih =>
    intro hw
    exact Prims.step (Prim.flip hw hq hc) (ih (hw.flip hq hc))

theorem remove_prims {C D : Nat} {free : Prop} {ok : Rect → Prop} {s t : Heap}
    (hw : WF0 C D s) (hnv : NonVoid s) {f this i : Nat} {b : Bool}
    (h : remove f s this i = some (b, t)) : Prims C D free ok s t := by
  rcases remove_outcome hw hnv h with ⟨_, _, rfl⟩ | ⟨n, q, _, hq, hmem, _, hcol, _, _⟩
  · exact Prims.refl _
  · exact Prims.step (Prim.unlink hw hq hmem) (collapses_prims hcol (hw.wf_unlink hq hmem))

/-- The result of `insert` on the root, for every recursion budget with which it
returns. -/
theorem insert_root_result {C D : Nat} (hA : 2 ≤ C ∨ D = 0) {s : Heap} (hw : WF0 C D s)
    {i : Nat} (hqt : (s.items i).qt = none) :
    ∃ m qm s' tgt qt', Lands s (s.items i).bound 0 m ∧ s.nodes m = some qm ∧
      Attached s m ∧
      ((¬ qm.mustSplit ∧ s' = s) ∨ (qm.mustSplit ∧ 2 ≤ C ∧ subdivide s m = some s')) ∧
      Lands s' (s.items i).bound 0 tgt ∧ s'.nodes tgt = some qt' ∧ ¬ qt'.mustSplit ∧
      (∀ f, D + 5 ≤ f → insert f s 0 i = some (true, s'.link tgt qt' i)) ∧
      ∀ f r, insert f s 0 i = some r → r = (true, s'.link tgt qt' i) := by
  obtain ⟨q0, hq0, hp0, hl0⟩ := hw.root
  have hpar : ∀ p qp, q0.parent = some p → s.nodes p = some qp →
      getChild qp (s.items i).bound = some 0 := by
    intro p qp hp _
    rw [hp0] at hp; cases hp
  obtain ⟨m, qm, s', tgt, qt', h1, h2, h3, h4, h5, h6, h7, g, hg⟩ :=
    insert_shape hA hw hqt hq0 (Or.inl rfl) hpar
  refine ⟨m, qm, s', tgt, qt', h1, h2, h3, h4, h5, h6, h7, fun f hf => ?_, fun f r hr => ?_⟩
  · obtain ⟨t, ht⟩ := insert_returns hA D s 0 i q0 hw hqt hq0 (by omega) (Or.inl rfl) hpar
    have a := insert_mono_le (Nat.le_max_left (D + 5) g) ht
    have b := insert_mono_le (Nat.le_max_right (D + 5) g) hg
    rw [a] at b
    cases b
    exact insert_mono_le hf ht
  · have a := insert_mono_le (Nat.le_max_left f g) hr
    have b := insert_mono_le (Nat.le_max_right f g) hg
    rw [a] at b
    exact Option.some.inj b

theorem insert_prims {C D : Nat} {free : Prop} {ok : Rect → Prop} (hA : 2 ≤ C ∨ D = 0)
    {s t : Heap} (hw : WF0 C D s) {i f : Nat} {b : Bool} (hok : ok (s.items i).bound)
    (h : insert f s 0 i = some (b, t)) : Prims C D free ok s t := by
  cases hqt : (s.items i).qt with
  | some n =>
    cases f with
    | zero => simp [insert] at h
    | succ f =>
      rcases insert_inv h with ⟨_, hr⟩ | ⟨hn, _⟩
      · cases hr; exact Prims.refl _
      · rw [hqt] at hn; cases hn
  | none =>
    obtain ⟨m, qm, s', tgt, qt', hm, hqm, ham, hcase, htgt, hqt', hns, _, hres⟩ :=
      insert_root_result hA hw hqt
    have := hres f _ h
    cases this
    rcases hcase with ⟨_, rfl⟩ | ⟨hs, hC, hsub⟩
    · exact Prims.single (Prim.link hw hqt hqt' hns htgt hok)
    · have hp : Prim C D free ok s s' := Prim.split hw hqm hs hC ham hsub
      obtain ⟨_, hitems, _⟩ := hw.wf_subdivide_nodes hqm hsub
      refine Prims.step hp (Prims.single (Prim.link hp.wf_after ?_ hqt' hns ?_ ?_))
      · rw [hitems]; exact hqt
      · rw [hitems]; exact htgt
      · rw [hitems]; exact hok

/-- What `update` on the root comes to: `false` and no change for an untracked item,
otherwise the state of `remove` and then the result of `insert` on the root. -/
theorem update_root_cases {C D : Nat} {s t : Heap} (hw : WF0 C D s) (hnv : NonVoid s)
    {f i : Nat} {b : Bool} (h : update f s 0 i = some (b, t)) :
    ((s.items i).qt = none ∧ b = false ∧ t = s) ∨
    (∃ n q s1 g, (s.items i).qt = some n ∧ s.nodes n = some q ∧ i ∈ q.objects ∧
      Collapses (s.unlink n q i) s1 ∧ WF0 C D s1 ∧ NonVoid s1 ∧
      insert g s1 0 i = some (b, t)) := by
  cases f with
  | zero => simp [update] at h
  | succ f =>
    obtain ⟨b1, s1, hrem, hcase⟩ := update_inv h
    rcases remove_outcome hw hnv hrem with ⟨hqt, rfl, rfl⟩ | ⟨n, q, hqt, hq, hmem, rfl, hcol, hw1, hnv1⟩
    · rcases hcase with ⟨_, hr⟩ | ⟨hb, _⟩
      · cases hr
        exact Or.inl ⟨hqt, rfl, rfl⟩
      · cases hb
    · right
      rcases hcase with ⟨hb, _⟩ | ⟨_, q0, hq0, hcase⟩
      · cases hb
      obtain ⟨q0', hq0', hp0, _⟩ := hw1.root
      rw [hq0] at hq0'; cases hq0'
      have hqt1 : (s1.items i).qt = none := by rw [hcol.frame.1]; simp
      rcases hcase with ⟨p, hp, _⟩ | ⟨_, hcase⟩
      · rw [hp0] at hp; cases hp
      rcases hcase with ⟨c, hc, hins⟩ | ⟨_, hins⟩
      · exact ⟨n, q, s1, f + 1, hqt, hq, hmem, hcol, hw1, hnv1,
          by rw [insert_eq_route f hqt1 hq0 hc]; exact hins⟩
      · exact ⟨n, q, s1, f, hqt, hq, hmem, hcol, hw1, hnv1, hins⟩

theorem update_prims {C D : Nat} {free : Prop} {ok : Rect → Prop} (hA : 2 ≤ C ∨ D = 0)
    {s t : Heap} (hw : WF0 C D s) (hnv : NonVoid s) {i f : Nat} {b : Bool}
    (hok : ok (s.items i).bound) (h : update f s 0 i = some (b, t)) :
    Prims C D free ok s t := by
  rcases update_root_cases hw hnv h with ⟨_, _, rfl⟩ | ⟨n, q, s1, g, _, hq, hmem, hcol, hw1, _, hins⟩
  · exact Prims.refl _
  · have hb1 : (s1.items i).bound = (s.items i).bound := by rw [hcol.frame.1]; simp
    exact (Prims.step (Prim.unlink hw hq hmem)
      (collapses_prims hcol (hw.wf_unlink hq hmem))).append
      (insert_prims hA hw1 (by rw [hb1]; exact hok) hins)

theorem unlink_setBound (s : Heap) (n : Nat) (q : QuadTree) (i : Nat) (r : Rect) :
    (s.setBound i r).unlink n q i = (s.unlink n q i).setBound i r := by
  refine heap_ext (fun x => rfl) rfl (fun j => ?_)
  have hb : (((s.setBound i r).unlink n q i).items j).bound
      = (((s.unlink n q i).setBound i r).items j).bound := by simp
  have hq : (((s.setBound i r).unlink n q i).items j).qt
      = (((s.unlink n q i).setBound i r).items j).qt := by simp
  cases hx : ((s.setBound i r).unlink n q i).items j
  cases hy : ((s.unlink n q i).setBound i r).items j
  rw [hx] at hb hq
  rw [hy] at hb hq
  simp only at hb hq
  rw [hb, hq]

theorem NonVoid.nv_setBound {s : Heap} (h : NonVoid s) (i : Nat) (r : Rect) :
    NonVoid (s.setBound i r) := h

/-- The owner writes a new bound into an item and calls `update` on the root: in
primitive transitions the item is unlinked first and its bound is written while it is
untracked. -/
theorem moved_update_prims {C D : Nat} {free : Prop} {ok : Rect → Prop}
    (hA : 2 ≤ C ∨ D = 0) {s t : Heap} (hw : WF0 C D s) (hnv : NonVoid s) {i f : Nat}
    {b : Bool} {r : Rect} (hok : ok r)
    (h : update f (s.setBound i r) 0 i = some (b, t)) : Prims C D free ok s t := by
  have hwu := hw.wf_setBound i r
  rcases update_root_cases hwu (hnv.nv_setBound i r) h with
    ⟨hqt, _, rfl⟩ | ⟨n, q, s1, g, _, hq, hmem, hcol, hw1, _, hins⟩
  · rw [setBound_qt] at hqt
    exact Prims.single (Prim.setBound hw (Or.inr hqt))
  · rw [unlink_setBound] at hcol
    have hq' : s.nodes n = some q := hq
    have hwl := hw.wf_unlink hq' hmem
    have hb1 : (s1.items i).bound = r := by rw [hcol.frame.1]; simp
    have hp2 : Prim C D free ok (s.unlink n q i) ((s.unlink n q i).setBound i r) :=
      Prim.setBound hwl (Or.inr (by simp))
    refine Prims.step (Prim.unlink hw hq' hmem) (Prims.step hp2 ?_)
    exact (collapses_prims hcol (hwl.wf_setBound i r)).append
      (insert_prims hA hw1 (by rw [hb1]; exact hok) hins)

/-- Every call on the root is a sequence of primitive transitions. -/
theorem run_prims {C D : Nat} {s t : Heap} (hinv : Inv C D s) (c : Call) {fuel : Nat}
    {b : Bool} (h : c.run fuel s = some (b, t)) :
    Prims C D True (fun _ => True) s t := by
  have hinv2 := inv_step hinv c h
  obtain ⟨hw, hnv, hreg⟩ := hinv
  by_cases hA : 2 ≤ C ∨ D = 0
  · cases c with
    | insert i => exact insert_prims hA hw trivial h
    | remove i => exact remove_prims hw hnv h
    | update i => exact update_prims hA hw hnv trivial h
    | clear =>
      simp only [Call.run, Option.map_eq_some', Prod.mk.injEq, true_and] at h
      obtain ⟨t2, ht2, _, rfl⟩ := h
      obtain ⟨hw2, hidle, hsh⟩ := clear_root_outcome hw ht2
      exact Prims.single (Prim.clear hw hw2 hidle hsh)
    | setBound i r =>
      simp only [Call.run, Option.some.injEq, Prod.mk.injEq, true_and] at h
      obtain ⟨_, rfl⟩ := h
      exact Prims.single (Prim.setBound hw (Or.inl trivial))
  · have hun : ∀ i, (s.items i).qt = none := by
      rcases hreg with h1 | ⟨_, h1⟩
      · exact absurd h1 hA
      · exact h1
    cases c with
    | insert i =>
      exfalso
      rcases hreg with h1 | ⟨⟨q0, hq0, hl0, he0⟩, _⟩
      · exact hA h1
      obtain ⟨q0', hq0', hp0, hlv0⟩ := hw.root
      rw [hq0] at hq0'; cases hq0'
      obtain ⟨hc, hm⟩ := hw.conf 0 q0 hq0
      have := insert_root_diverges fuel s i q0 hq0 hl0 he0 hp0 (by omega) (by omega) (hun i)
        (hw.lt_next hq0)
      simp only [Call.run] at h
      rw [this] at h; cases h
    | remove i => exact remove_prims hw hnv h
    | update i =>
      rcases update_root_cases hw hnv h with ⟨_, _, rfl⟩ | ⟨n, _, _, _, hqt, _⟩
      · exact Prims.refl _
      · rw [hun i] at hqt; cases hqt
    | clear =>
      simp only [Call.run, Option.map_eq_some', Prod.mk.injEq, true_and] at h
      obtain ⟨t2, ht2, _, rfl⟩ := h
      obtain ⟨hw2, hidle, hsh⟩ := clear_root_outcome hw ht2
      exact Prims.single (Prim.clear hw hw2 hidle hsh)
    | setBound i r =>
      simp only [Call.run, Option.some.injEq, Prod.mk.injEq, true_and] at h
      obtain ⟨_, rfl⟩ := h
      exact Prims.single (Prim.setBound hw (Or.inl trivial))

theorem steps_prims {C D : Nat} {allowed : Call → Prop} {s t : Heap}
    (h : Steps allowed s t) (hinv : Inv C D s) : Prims C D True (fun _ => True) s t := by
  induction h with
  | refl => exact Prims.refl _
  | step c fuel b hprev _ hrun ih =>
    exact ih.append (run_prims (inv_steps hprev hinv) c hrun)

theorem reach_prims {B : Rect} {C D : Nat} {s : Heap} (h : Reach B C D s) :
    ∃ bounds, Prims C D True (fun _ => True) (Heap.init B C D bounds) s := by
  obtain ⟨bounds, hs⟩ := h
  exact ⟨bounds, steps_prims hs (inv_init B C D bounds)⟩

theorem cap_prim {C D : Nat} {free : Prop} {ok : Rect → Prop} {s t : Heap}
    (h : Prim C D free ok s t) (hc : Cap C D s) : Cap C D t := by
  cases h with
  | @unlink n i q hw hq hi =>
    intro x qx hx
    rw [unlink_nodes] at hx
    by_cases hxn : x = n
    · rw [if_pos hxn] at hx
      cases hx
      obtain ⟨h1, h2⟩ := hc n q hq
      refine ⟨h1, fun hl hlev => le_trans ?_ (h2 hl hlev)⟩
      exact (List.erase_sublist i q.objects).length_le
    · rw [if_neg hxn] at hx
      exact hc x qx hx
  | @flip n q hw hq hcol =>
    intro x qx hx
    rw [setNode_nodes] at hx
    by_cases hxn : x = n
    · rw [if_pos hxn] at hx
      cases hx
      refine ⟨(hc n q hq).1, fun _ _ => ?_⟩
      show q.objects.length ≤ C - 1
      rw [hcol.1]
      exact Nat.zero_le _
    · rw [if_neg hxn] at hx
      exact hc x qx hx
  | @split _ m q hw hq hs hC ha hsub =>
    obtain ⟨_, _, hn2, hnew, hold, hfar⟩ := hw.wf_subdivide_nodes hq hsub
    have hD : q.level < D := by rw [← (hw.conf m q hq).2]; exact hs.2.1
    intro x qx hx
    by_cases hxm : x = m
    · rw [hxm, hn2] at hx
      cases hx
      exact ⟨(hc m q hq).1, fun hl _ => by cases hl⟩
    · rcases Nat.lt_or_ge x s.next with hlt | hge
      · rw [hold x hxm hlt] at hx
        exact hc x qx hx
      · rcases Nat.lt_or_ge x (s.next + 4) with hlt4 | hge4
        · obtain ⟨k, hk, rfl⟩ : ∃ k, k < 4 ∧ x = s.next + k :=
            ⟨x - s.next, by omega, by omega⟩
          rw [hnew k hk] at hx
          cases hx
          exact ⟨by show q.level + 1 ≤ D; omega, fun _ _ => Nat.zero_le _⟩
        · rw [hfar x hge4] at hx
          cases hx
  | @link n i q hw hqt hq hns hl hok =>
    intro x qx hx
    rw [link_nodes] at hx
    by_cases hxn : x = n
    · rw [if_pos hxn] at hx
      cases hx
      obtain ⟨hcap, hmax⟩ := hw.conf n q hq
      refine ⟨(hc n q hq).1, fun hleaf hlev => ?_⟩
      have h1 : ¬ q.capacity ≤ q.objects.length + 1 :=
        fun h => hns ⟨hleaf, by rw [hmax]; exact hlev, h⟩
      show (q.objects ++ [i]).length ≤ C - 1
      rw [List.length_append, List.length_singleton]
      omega
    · rw [if_neg hxn] at hx
      exact hc x qx hx
  | clear hw hwt hidle hsh =>
    intro x qx hx
    obtain ⟨_, ho⟩ := hwt.all_idle hidle hx
    obtain ⟨_, _, hnodes⟩ := hsh
    refine ⟨?_, fun _ _ => by rw [ho]; exact Nat.zero_le _⟩
    cases hsx : s.nodes x with
    | none => rw [(hnodes x).1 hsx] at hx; cases hx
    | some qs =>
      obtain ⟨q2, hq2, hsf, _⟩ := (hnodes x).2 qs hsx
      rw [hx] at hq2; cases hq2
      rw [hsf.1]
      exact (hc x qs hsx).1
  | setBound hw _ => exact hc

theorem cap_prims {C D : Nat} {free : Prop} {ok : Rect → Prop} {s t : Heap}
    (h : Prims C D free ok s t) (hc : Cap C D s) : Cap C D t := by
  induction h with
  | refl => exact hc
  | step hp _ ih => exact ih (cap_prim hp hc)

theorem cap_init (B : Rect) (C D : Nat) (bounds : Nat → Rect) :
    Cap C D (Heap.init B C D bounds) := by
  intro n q hq
  simp only [Heap.init] at hq
  by_cases h0 : n = 0
  · rw [if_pos h0] at hq
    cases hq
    exact ⟨Nat.zero_le _, fun _ _ => Nat.zero_le _⟩
  · rw [if_neg h0] at hq
    cases hq

theorem cap_of_reach {B : Rect} {C D : Nat} {s : Heap} (h : Reach B C D s) : Cap C D s := by
  obtain ⟨bounds, hp⟩ := reach_prims h
  exact cap_prims hp (cap_init B C D bounds)

/-- C12. Capacity bound (P3): in a reachable state every leaf below max depth holds at
most `capacity` direct items, and fewer than `capacity` when the capacity is positive
(reaching the capacity makes `insert` subdivide the leaf). -/
theorem C12_capacity_bound {B : Rect} {C D : Nat} {s : Heap} (h : Reach B C D s) (n : Nat)
    (q : QuadTree) (hq : s.nodes n = some q) (hl : q.isLeaf = true)
    (hlev : q.level < q.maxLevel) :
    q.objects.length ≤ q.capacity ∧ (0 < q.capacity → q.objects.length < q.capacity) := by
  obtain ⟨hw, _, _⟩ := inv_of_reach h
  obtain ⟨hcap, hmax⟩ := hw.conf n q hq
  have := (cap_of_reach h n q hq).2 hl (by rw [← hmax]; exact hlev)
  rw [hcap]
  constructor
  · omega
  · intro hpos; omega

theorem C12_witness :
    e1TopLeft.objects.length ≤ e1TopLeft.capacity ∧
      (0 < e1TopLeft.capacity → e1TopLeft.objects.length < e1TopLeft.capacity) :=
  C12_capacity_bound e1_reach 2 e1TopLeft (by decide!) rfl (by decide)

/-- A node that is subdivided or holds objects has a tracked item in its subtree. -/
theorem busy_has_item {C D : Nat} {s : Heap} (hw : WF0 C D s) (hnv : NonVoid s) :
    ∀ (k n : Nat) (q : QuadTree), s.nodes n = some q → D ≤ q.level + k → q.busy →
      ∃ i m, (s.items i).qt = some m ∧ Below s n m := by
  intro k
  induction k with
  | zero =>
    intro n q hq hlev hb
    rcases hb with hl | hne
    · have := (hw.kids n q hq hl).1
      omega
    · obtain ⟨i, hi⟩ := List.exists_mem_of_ne_nil _ hne
      exact ⟨i, n, hw.owner n q i hq hi, Below.refl n⟩
  | succ k ih =>
    intro n q hq hlev hb
    by_cases hne : q.objects = []
    · have hl : q.isLeaf = false := by
        rcases hb with hl | h
        · exact hl
        · exact absurd hne h
      obtain ⟨_, hlen, _, hkids⟩ := hw.kids n q hq hl
      have hnc := hnv n q hq hl
      have : ∃ c ∈ q.children, ¬ Idle s c := by
        by_contra hall
        push_neg at hall
        exact hnc ⟨hne, Or.inr ⟨hlen, hall⟩⟩
      obtain ⟨c, hc, hidle⟩ := this
      obtain ⟨qc, hqc, hcp⟩ := hkids c hc
      obtain ⟨qn, hqn, hlevel⟩ := hw.par c qc n hqc hcp
      rw [hq] at hqn; cases hqn
      have hbc : qc.busy := by
        by_contra hnb
        unfold QuadTree.busy at hnb
        push_neg at hnb
        exact hidle ⟨qc, hqc, by simpa using hnb.1, hnb.2⟩
      obtain ⟨i, m, hi, hbm⟩ := ih c qc hqc (by omega) hbc
      exact ⟨i, m, hi, Below.of_child hqc hcp hbm⟩
    · obtain ⟨i, hi⟩ := List.exists_mem_of_ne_nil _ hne
      exact ⟨i, n, hw.owner n q i hq hi, Below.refl n⟩

/-- C14. No empty internal nodes (I5): in a reachable state no subdivided node holds no
direct items while its four children are all empty leaves; and every subdivided node
has a tracked item in its subtree (held by the node or by a node below it). -/
theorem C14_no_empty_internal_nodes {B : Rect} {C D : Nat} {s : Heap} (h : Reach B C D s)
    (n : Nat) (q : QuadTree) (hq : s.nodes n = some q) (hl : q.isLeaf = false) :
    ¬ (q.objects = [] ∧ ∀ c ∈ q.children, Idle s c) ∧
    ∃ i m, (s.items i).qt = some m ∧ Below s n m := by
  obtain ⟨hw, hnv, _⟩ := inv_of_reach h
  refine ⟨fun hc => hnv n q hq hl ⟨hc.1, Or.inr ⟨(hw.kids n q hq hl).2.1, hc.2⟩⟩, ?_⟩
  exact busy_has_item hw hnv D n q hq (by omega) (Or.inl hl)

theorem C14_witness :
    ¬ (e1Root.objects = [] ∧ ∀ c ∈ e1Root.children, Idle (finalHeap 10 e1Init e1Calls) c) ∧
    ∃ i m, ((finalHeap 10 e1Init e1Calls).items i).qt = some m ∧
      Below (finalHeap 10 e1Init e1Calls) 0 m :=
  C14_no_empty_internal_nodes e1_reach 0 e1Root (by decide!) rfl

theorem totalChildren_succ (f : Nat) (s : Heap) (n : Nat) :
    totalChildren (f + 1) s n =
      match s.nodes n with
      | none => none
      | some q =>
        if q.isLeaf then some 0
        else (q.kids.bind fun cs => sumOver (fun c => totalChildren f s c) cs).map
          fun total => 4 + total := by
  rw [totalChildren]
  cases s.nodes n with
  | none => rfl
  | some q =>
    dsimp only
    by_cases hl : q.isLeaf = true
    · simp only [hl, if_true]
    · simp only [hl, if_false]
      cases q.kids with
      | none => rfl
      | some cs =>
        simp only [Option.some_bind]
        cases sumOver (fun c => totalChildren f s c) cs <;> rfl

theorem sumOver_le {g : Nat → Option Nat} {M : Nat} : ∀ (cs : List Nat),
    (∀ c ∈ cs, ∃ k, g c = some k ∧ k ≤ M) →
    ∃ T, sumOver g cs = some T ∧ T ≤ cs.length * M := by
  intro cs
  induction cs with
  | nil => intro _; exact ⟨0, rfl, Nat.zero_le _⟩
  | cons c rest ih =>
    intro h
    obtain ⟨k, hk, hkM⟩ := h c (List.mem_cons_self _ _)
    obtain ⟨T, hT, hTM⟩ := ih (fun c' hc' => h c' (List.mem_cons_of_mem _ hc'))
    refine ⟨k + T, by simp only [sumOver, hk, hT], ?_⟩
    rw [List.length_cons, Nat.succ_mul]
    omega

theorem totalChildren_mono : ∀ (f : Nat) (s : Heap) (n k : Nat),
    totalChildren f s n = some k → totalChildren (f + 1) s n = some k := by
  intro f
  induction f with
  | zero => intro s n k h; simp [totalChildren] at h
  | succ f ih =>
    intro s n k h
    rw [totalChildren_succ] at h ⊢
    cases hq : s.nodes n with
    | none => rw [hq] at h; cases h
    | some q =>
      rw [hq] at h
      dsimp only at h ⊢
      by_cases hl : q.isLeaf = true
      · rw [if_pos hl] at h ⊢; exact h
      · rw [if_neg hl] at h ⊢
        cases hk : q.kids with
        | none => rw [hk] at h; cases h
        | some cs =>
          rw [hk] at h
          rw [Option.some_bind] at h ⊢
          cases ht : sumOver (fun c => totalChildren f s c) cs with
          | none => rw [ht] at h; cases h
          | some t =>
            rw [ht] at h
            rw [sumOver_congr cs t (fun c _ k hck => ih s c k hck) ht]
            exact h

theorem totalChildren_mono_le {f g : Nat} (hfg : f ≤ g) {s : Heap} {n k : Nat}
    (h : totalChildren f s n = some k) : totalChildren g s n = some k := by
  induction hfg with
  | refl => exact h
  | step _ ih => exact totalChildren_mono _ _ _ _ ih

theorem totalObjects_mono : ∀ (f : Nat) (s : Heap) (n k : Nat),
    totalObjects f s n = some k → totalObjects (f + 1) s n = some k := by
  intro f
  induction f with
  | zero => intro s n k h; simp [totalObjects] at h
  | succ f ih =>
    intro s n k h
    rw [totalObjects_succ] at h ⊢
    cases hq : s.nodes n with
    | none => rw [hq] at h; cases h
    | some q =>
      rw [hq] at h
      dsimp only at h ⊢
      by_cases hl : q.isLeaf = true
      · rw [if_pos hl] at h ⊢; exact h
      · rw [if_neg hl] at h ⊢
        cases hk : q.kids with
        | none => rw [hk] at h; cases h
        | some cs =>
          rw [hk] at h
          rw [Option.some_bind] at h ⊢
          cases ht : sumOver (fun c => totalObjects f s c) cs with
          | none => rw [ht] at h; cases h
          | some t =>
            rw [ht] at h
            rw [sumOver_congr cs t (fun c _ k hck => ih s c k hck) ht]
            exact h

theorem totalObjects_mono_le {f g : Nat} (hfg : f ≤ g) {s : Heap} {n k : Nat}
    (h : totalObjects f s n = some k) : totalObjects g s n = some k := by
  induction hfg with
  | refl => exact h
  | step _ ih => exact totalObjects_mono _ _ _ _ ih

/-- The count of `totalChildren()` below a node with `k` levels left is at most
`4 + 16 + ... + 4^k`. -/
theorem totalChildren_bound {C D : Nat} {s : Heap} (hw : WF0 C D s) :
    ∀ (k n : Nat) (q : QuadTree), s.nodes n = some q → D ≤ q.level + k →
      ∃ t, totalChildren (k + 1) s n = some t ∧ 3 * t + 4 ≤ 4 * 4 ^ k := by
  intro k
  induction k with
  | zero =>
    intro n q hq hk
    have hl : q.isLeaf = true := by
      by_contra hl
      have := (hw.kids n q hq (by simpa using hl)).1
      omega
    exact ⟨0, by rw [totalChildren_succ, hq]; simp [hl], by norm_num⟩
  | succ k ih =>
    intro n q hq hk
    by_cases hl : q.isLeaf = true
    · refine ⟨0, by rw [totalChildren_succ, hq]; simp [hl], ?_⟩
      have : 0 < 4 ^ (k + 1) := Nat.pow_pos (by norm_num)
      omega
    · obtain ⟨_, h4, _, hkids⟩ := hw.kids n q hq (by simpa using hl)
      obtain ⟨T, hT, hTM⟩ := sumOver_le (g := fun c => totalChildren (k + 1) s c)
        (M := (4 * 4 ^ k - 4) / 3) q.children
        (fun c hc => by
          obtain ⟨qc, hqc, hcp⟩ := hkids c hc
          obtain ⟨qp, hqp, hlv⟩ := hw.par c qc n hqc hcp
          rw [hq] at hqp; cases hqp
          obtain ⟨t, ht, hb⟩ := ih c qc hqc (by omega)
          exact ⟨t, ht, by omega⟩)
      refine ⟨4 + T, ?_, ?_⟩
      · rw [totalChildren_succ, hq]
        dsimp only
        rw [if_neg hl, kids_eq_some.2 ⟨h4, rfl⟩, Option.some_bind, hT]
        rfl
      · rw [h4] at hTM
        have h3 : 3 * ((4 * 4 ^ k - 4) / 3) ≤ 4 * 4 ^ k - 4 := Nat.mul_div_le _ _
        have hpos : 0 < 4 ^ k := Nat.pow_pos (by norm_num)
        rw [pow_succ]
        omega

/-- C15. Depth bound (I4): in a reachable state the root has depth 0; every child of a
subdivided node has the parent's depth plus one and the parent's capacity and max
depth; no node is deeper than max depth; `totalChildren()` on the root returns a number
that is at most `4 * (4^maxLevel - 1) / 3`; and with max depth 0 it returns 0. -/
theorem C15_depth_bound {B : Rect} {C D : Nat} {s : Heap} (h : Reach B C D s) :
    (∃ q0, s.nodes 0 = some q0 ∧ q0.level = 0 ∧ q0.maxLevel = D) ∧
    (∀ n q c qc, s.nodes n = some q → q.isLeaf = false → c ∈ q.children →
      s.nodes c = some qc →
      qc.level = q.level + 1 ∧ qc.capacity = q.capacity ∧ qc.maxLevel = q.maxLevel) ∧
    (∀ n q, s.nodes n = some q → q.level ≤ q.maxLevel) ∧
    (∃ k, (∀ f, D + 1 ≤ f → totalChildren f s 0 = some k) ∧ k ≤ 4 * (4 ^ D - 1) / 3) ∧
    (D = 0 → ∀ f, totalChildren (f + 1) s 0 = some 0) := by
  obtain ⟨hw, _, _⟩ := inv_of_reach h
  obtain ⟨q0, hq0, _, hl0⟩ := hw.root
  refine ⟨⟨q0, hq0, hl0, (hw.conf 0 q0 hq0).2⟩, ?_, ?_, ?_, ?_⟩
  · intro n q c qc hq hl hc hqc
    obtain ⟨qc2, hqc2, hcp⟩ := (hw.kids n q hq hl).2.2.2 c hc
    rw [hqc] at hqc2; cases hqc2
    obtain ⟨qp, hqp, hlv⟩ := hw.par c qc n hqc hcp
    rw [hq] at hqp; cases hqp
    obtain ⟨a1, a2⟩ := hw.conf n q hq
    obtain ⟨b1, b2⟩ := hw.conf c qc hqc
    exact ⟨hlv, by rw [a1, b1], by rw [a2, b2]⟩
  · intro n q hq
    rw [(hw.conf n q hq).2]
    exact (cap_of_reach h n q hq).1
  · obtain ⟨t, ht, hb⟩ := totalChildren_bound hw D 0 q0 hq0 (by omega)
    refine ⟨t, fun f hf => totalChildren_mono_le hf ht, ?_⟩
    rw [Nat.le_div_iff_mul_le (by norm_num)]
    have hpos : 0 < 4 ^ D := Nat.pow_pos (by norm_num)
    have : 4 * (4 ^ D - 1) = 4 * 4 ^ D - 4 := by omega
    omega
  · intro hD f
    have hl : q0.isLeaf = true := by
      by_contra hl
      have := (hw.kids 0 q0 hq0 (by simpa using hl)).1
      omega
    rw [totalChildren_succ, hq0]
    simp [hl]

theorem C15_witness :
    (∃ q0, (finalHeap 10 e1Init e1Calls).nodes 0 = some q0 ∧ q0.level = 0 ∧ q0.maxLevel = 4) ∧
    (∀ n q c qc, (finalHeap 10 e1Init e1Calls).nodes n = some q → q.isLeaf = false →
      c ∈ q.children → (finalHeap 10 e1Init e1Calls).nodes c = some qc →
      qc.level = q.level + 1 ∧ qc.capacity = q.capacity ∧ qc.maxLevel = q.maxLevel) ∧
    (∀ n q, (finalHeap 10 e1Init e1Calls).nodes n = some q → q.level ≤ q.maxLevel) ∧
    (∃ k, (∀ f, 4 + 1 ≤ f → totalChildren f (finalHeap 10 e1Init e1Calls) 0 = some k) ∧
      k ≤ 4 * (4 ^ 4 - 1) / 3) ∧
    (4 = 0 → ∀ f, totalChildren (f + 1) (finalHeap 10 e1Init e1Calls) 0 = some 0) :=
  C15_depth_bound e1_reach

theorem link_unlink {s : Heap} {n i : Nat} {q : QuadTree} (hq : s.nodes n = some q)
    (hqt : (s.items i).qt = none) (hni : i ∉ q.objects) :
    (s.link n q i).unlink n { q with objects := q.objects ++ [i] } i = s := by
  refine heap_ext (fun x => ?_) rfl (fun j => ?_)
  · rw [unlink_nodes]
    by_cases hxn : x = n
    · rw [if_pos hxn, hxn, hq]
      show some ({ q with objects := (q.objects ++ [i]).erase i } : QuadTree) = some q
      rw [erase_append_self hni]
    · rw [if_neg hxn, link_nodes, if_neg hxn]
  · have hb : (((s.link n q i).unlink n { q with objects := q.objects ++ [i] } i).items j).bound
        = (s.items j).bound := by simp
    have hq2 : (((s.link n q i).unlink n { q with objects := q.objects ++ [i] } i).items j).qt
        = (s.items j).qt := by
      rw [unlink_qt, link_qt]
      by_cases hji : j = i
      · rw [if_pos hji, hji, hqt]
      · rw [if_neg hji, if_neg hji]
    cases hx : ((s.link n q i).unlink n { q with objects := q.objects ++ [i] } i).items j
    cases hy : s.items j
    rw [hx] at hb hq2
    rw [hy] at hb hq2
    simp only at hb hq2
    rw [hb, hq2]

/-- Subdividing a leaf does not change any `totalObjects()`; the recursion goes one
level deeper. -/
theorem totalObjects_subdivide {C D : Nat} {s s' : Heap} (hw : WF0 C D s) {m : Nat}
    {q : QuadTree} (hq : s.nodes m = some q) (hl : q.isLeaf = true)
    (hsub : subdivide s m = some s') :
    ∀ (f n k : Nat), totalObjects f s n = some k → totalObjects (f + 1) s' n = some k := by
  obtain ⟨_, _, hn2, hnew, hold, _⟩ := hw.wf_subdivide_nodes hq hsub
  intro f
  induction f with
  | zero => intro n k h; simp [totalObjects] at h
  | succ f ih =>
    intro n k h
    rw [totalObjects_succ] at h ⊢
    cases hn : s.nodes n with
    | none => rw [hn] at h; cases h
    | some qn =>
      rw [hn] at h
      dsimp only at h
      by_cases hnm : n = m
      · rw [hnm] at hn
        rw [hq] at hn; cases hn
        rw [if_pos hl] at h
        rw [hnm, hn2]
        dsimp only
        have hidle : ∀ c ∈ [s.next, s.next + 1, s.next + 2, s.next + 3], Idle s' c := by
          intro c hc
          simp only [List.mem_cons, List.mem_singleton, List.not_mem_nil, or_false] at hc
          rcases hc with rfl | rfl | rfl | rfl
          · exact ⟨_, hnew 0 (by omega), rfl, rfl⟩
          · exact ⟨_, hnew 1 (by omega), rfl, rfl⟩
          · exact ⟨_, hnew 2 (by omega), rfl, rfl⟩
          · exact ⟨_, hnew 3 (by omega), rfl, rfl⟩
        have hsum : sumOver (fun c => totalObjects (f + 1) s' c)
            [s.next, s.next + 1, s.next + 2, s.next + 3] = some 0 := by
          have e0 := totalObjects_idle (hidle s.next (by simp)) f
          have e1 := totalObjects_idle (hidle (s.next + 1) (by simp)) f
          have e2 := totalObjects_idle (hidle (s.next + 2) (by simp)) f
          have e3 := totalObjects_idle (hidle (s.next + 3) (by simp)) f
          simp only [sumOver, e0, e1, e2, e3]
        simp only [Bool.false_eq_true, if_false, QuadTree.kids, List.length_cons,
          List.length_nil, if_true, Option.some_bind, hsum, Option.map_some', Nat.add_zero]
        exact h
      · rw [hold n hnm (hw.lt_next hn), hn]
        dsimp only
        by_cases hln : qn.isLeaf = true
        · rw [if_pos hln] at h ⊢; exact h
        · rw [if_neg hln] at h ⊢
          cases hk : qn.kids with
          | none => rw [hk] at h; cases h
          | some cs =>
            rw [hk] at h
            rw [Option.some_bind] at h ⊢
            cases ht : sumOver (fun c => totalObjects f s c) cs with
            | none => rw [ht] at h; cases h
            | some t =>
              rw [ht] at h
              rw [sumOver_congr cs t (fun c _ k hck => ih c k hck) ht]
              exact h

theorem totalObjects_det {f g : Nat} {s : Heap} {n k k2 : Nat}
    (h1 : totalObjects f s n = some k) (h2 : totalObjects g s n = some k2) : k = k2 := by
  have a := totalObjects_mono_le (Nat.le_max_left f g) h1
  have b := totalObjects_mono_le (Nat.le_max_right f g) h2
  rw [a] at b
  exact Option.some.inj b

theorem totalObjects_root {C D : Nat} {s : Heap} (hw : WF0 C D s) :
    ∃ k, ∀ f, D + 1 ≤ f → totalObjects f s 0 = some k := by
  obtain ⟨q0, hq0, _, hl0⟩ := hw.root
  obtain ⟨k, hk⟩ := totalObjects_total hw D 0 q0 hq0 (by omega)
  exact ⟨k, fun f hf => totalObjects_mono_le hf hk⟩

/-- Pushing an untracked item onto an attached node raises `totalObjects()` on the root
by one. -/
theorem count_link {C D : Nat} {s : Heap} (hw : WF0 C D s) {n i : Nat} {q : QuadTree}
    (hq : s.nodes n = some q) (hqt : (s.items i).qt = none) (ha : Attached s n) {f k : Nat}
    (hf : D + 1 ≤ f) (h : totalObjects f s 0 = some k) :
    totalObjects f (s.link n q i) 0 = some (k + 1) := by
  have hwt := hw.wf_link hq hqt ha
  have hqn : (s.link n q i).nodes n = some { q with objects := q.objects ++ [i] } := by simp
  obtain ⟨kt, hkt⟩ := totalObjects_root hwt
  have hbelow : Below (s.link n q i) 0 n :=
    Below.root_of_busy hwt q.level n _ hqn (Nat.le_refl _) (Or.inr (by simp))
  have himem : i ∈ ({ q with objects := q.objects ++ [i] } : QuadTree).objects :=
    List.mem_append_right _ (List.mem_singleton_self i)
  obtain ⟨h1, h2⟩ := (totalObjects_unlink hwt hqn himem f 0 kt (hkt f hf)).1 hbelow
  rw [link_unlink hq hqt (hw.not_mem_of_untracked hqt hq)] at h2
  have := totalObjects_det h h2
  rw [hkt f hf]
  congr 1
  omega

theorem count_subdivide {C D : Nat} {s s' : Heap} (hw : WF0 C D s) (hw' : WF0 C D s')
    {m : Nat} {q : QuadTree} (hq : s.nodes m = some q) (hl : q.isLeaf = true)
    (hsub : subdivide s m = some s') {f k : Nat} (hf : D + 1 ≤ f)
    (h : totalObjects f s 0 = some k) : totalObjects f s' 0 = some k := by
  obtain ⟨k', hk'⟩ := totalObjects_root hw'
  have := totalObjects_det (totalObjects_subdivide hw hq hl hsub f 0 k h) (hk' f hf)
  rw [hk' f hf, this]

theorem count_unlink {C D : Nat} {s t : Heap} (hw : WF0 C D s) {n i : Nat} {q : QuadTree}
    (hq : s.nodes n = some q) (hmem : i ∈ q.objects) (hcol : Collapses (s.unlink n q i) t)
    {f k : Nat} (h : totalObjects f s 0 = some k) :
    1 ≤ k ∧ totalObjects f t 0 = some (k - 1) := by
  have hbelow : Below s 0 n :=
    Below.root_of_busy hw q.level n q hq (Nat.le_refl _) (Or.inr (List.ne_nil_of_mem hmem))
  obtain ⟨hk1, hk2⟩ := (totalObjects_unlink hw hq hmem f 0 k h).1 hbelow
  exact ⟨hk1, totalObjects_collapses hcol f 0 (k - 1) hk2⟩

/-- Closed form of `update` on the root for a tracked item: the item is erased from
its node, empty nodes collapse, and `insert` on the root places it again. -/
theorem update_root_shape {C D : Nat} (hA : 2 ≤ C ∨ D = 0) {s : Heap} (hw : WF0 C D s)
    (hnv : NonVoid s) {i n : Nat} (hn : (s.items i).qt = some n) :
    ∃ q s1 m qm s' tgt qt', s.nodes n = some q ∧ i ∈ q.objects ∧
      Collapses (s.unlink n q i) s1 ∧ WF0 C D s1 ∧ NonVoid s1 ∧ (s1.items i).qt = none ∧
      (∀ this f, remove (f + D + 5) s this i = some (true, s1)) ∧
      Lands s1 (s1.items i).bound 0 m ∧ s1.nodes m = some qm ∧ Attached s1 m ∧
      ((¬ qm.mustSplit ∧ s' = s1) ∨ (qm.mustSplit ∧ 2 ≤ C ∧ subdivide s1 m = some s')) ∧
      Lands s' (s1.items i).bound 0 tgt ∧ s'.nodes tgt = some qt' ∧ ¬ qt'.mustSplit ∧
      (∀ f, D + 5 ≤ f → insert f s1 0 i = some (true, s'.link tgt qt' i)) ∧
      ∀ f, D + 7 ≤ f → update f s 0 i = some (true, s'.link tgt qt' i) := by
  obtain ⟨q, s1, hq, hmem, hcol, hw1, hnv1, hrem⟩ := remove_spec hw hnv hn
  have hqt1 : (s1.items i).qt = none := by rw [hcol.frame.1]; simp
  obtain ⟨m, qm, s', tgt, qt', h1, h2, h3, h4, h5, h6, h7, hins, _⟩ :=
    insert_root_result hA hw1 hqt1
  refine ⟨q, s1, m, qm, s', tgt, qt', hq, hmem, hcol, hw1, hnv1, hqt1, hrem, h1, h2, h3, h4,
    h5, h6, h7, hins, fun f hf => ?_⟩
  obtain ⟨q0, hq0, hp0, _⟩ := hw1.root
  have hremf : remove (D + 6) s 0 i = some (true, s1) := by
    have := hrem 0 1
    rwa [show 1 + D + 5 = D + 6 by omega] at this
  have hu : update (D + 6 + 1) s 0 i = some (true, s'.link tgt qt' i) := by
    rw [update_eq_of_root hremf hq0 hp0]
    cases hc : q0.route (s1.items i).bound with
    | none => exact hins _ (by omega)
    | some c =>
      show insert (D + 6) s1 c i = some (true, s'.link tgt qt' i)
      rw [← insert_eq_route (D + 6) hqt1 hq0 hc]
      exact hins _ (by omega)
  exact update_mono_le hf hu

theorem asLeaf_eq_self {q : QuadTree} (h : q.isLeaf = true) : q.asLeaf = q := by
  cases q
  simp only [QuadTree.asLeaf]
  simp only at h
  rw [h]

/-- Where no subdivided node is collapsible, `discardEmptyBuckets` changes nothing. -/
theorem collapses_eq_of_nonvoid {s t : Heap} (h : Collapses s t) : NonVoid s → t = s := by
  induction h with
  | refl => exact fun _ => rfl
  | @step s t n q hq hc _ ih =>
    intro hnv
    have hl : q.isLeaf = true := by
      by_contra hl
      exact hnv n q hq (by simpa using hl) hc
    have hsame : s.setNode n q.asLeaf = s := by
      rw [asLeaf_eq_self hl]
      exact setNode_same hq
    rw [hsame] at ih
    exact ih hnv

/-- The state in which `insert` pushes the item (after a possible subdivision) is
well-formed, has no collapsible subdivided node, and does not track the item. -/
theorem landing_state {C D : Nat} {s s' : Heap} (hw : WF0 C D s) (hnv : NonVoid s) {m : Nat}
    {qm : QuadTree} (hqm : s.nodes m = some qm) (ham : Attached s m)
    (hcase : (¬ qm.mustSplit ∧ s' = s) ∨ (qm.mustSplit ∧ 2 ≤ C ∧ subdivide s m = some s')) :
    WF0 C D s' ∧ NonVoid s' ∧ s'.items = s.items ∧
      ∀ f k, D + 1 ≤ f → totalObjects f s 0 = some k → totalObjects f s' 0 = some k := by
  rcases hcase with ⟨_, rfl⟩ | ⟨hs, hC, hsub⟩
  · exact ⟨hw, hnv, rfl, fun f k _ h => h⟩
  · obtain ⟨hcap, hmax⟩ := hw.conf m qm hqm
    have hw' := hw.wf_subdivide hqm hs.1 (by rw [← hmax]; exact hs.2.1) ham hsub
    have hne : qm.objects ≠ [] := by
      intro h0
      have := hs.2.2
      rw [h0, hcap] at this
      simp at this
      omega
    exact ⟨hw', hnv.nv_subdivide hw hqm hne hsub, (hw.wf_subdivide_nodes hqm hsub).2.1,
      fun f k hf h => count_subdivide hw hw' hqm hs.1 hsub hf h⟩

/-- C11. Update without motion (P5): in a reachable state, `update` on the root of a
tracked item returns `true`, leaves `totalObjects()` on the root unchanged, and leaves
the item tracked: its owner lists it exactly once, is a node of the tree, and no other
node lists it. -/
theorem C11_update_without_motion {B : Rect} {C D : Nat} {s : Heap} (h : Reach B C D s)
    (i : Nat) (ht : (s.items i).qt ≠ none) :
    ∃ t, (∀ f, D + 7 ≤ f → update f s 0 i = some (true, t)) ∧
      (∃ k, ∀ f, D + 1 ≤ f → totalObjects f s 0 = some k ∧ totalObjects f t 0 = some k) ∧
      ∃ n q, (t.items i).qt = some n ∧ t.nodes n = some q ∧ q.objects.count i = 1 ∧
        Live t n ∧ ∀ m qm, t.nodes m = some qm → m ≠ n → i ∉ qm.objects := by
  obtain ⟨hw, hnv, hreg⟩ := inv_of_reach h
  have hA : 2 ≤ C ∨ D = 0 := by
    rcases hreg with hA | ⟨_, hun⟩
    · exact hA
    · exact absurd (hun i) ht
  obtain ⟨n0, hn0⟩ : ∃ n, (s.items i).qt = some n := by
    cases hq : (s.items i).qt with
    | none => exact absurd hq ht
    | some n => exact ⟨n, rfl⟩
  obtain ⟨q, s1, m, qm, s', tgt, qt', hq, hmem, hcol, hw1, hnv1, hqt1, _, _, hqm, ham, hcase,
    hlands, htgt, _, _, hupd⟩ := update_root_shape hA hw hnv hn0
  obtain ⟨hw', _, hitems', hcount'⟩ := landing_state hw1 hnv1 hqm ham hcase
  have hqt' : (s'.items i).qt = none := by rw [hitems']; exact hqt1
  have hat : Attached s' tgt := hlands.attached hw' (Or.inl rfl)
  have hwt := hw'.wf_link htgt hqt' hat
  have hnode : (s'.link tgt qt' i).nodes tgt = some { qt' with objects := qt'.objects ++ [i] } := by
    simp
  have himem : i ∈ ({ qt' with objects := qt'.objects ++ [i] } : QuadTree).objects :=
    List.mem_append_right _ (List.mem_singleton_self i)
  refine ⟨s'.link tgt qt' i, hupd, ?_, tgt, _, by simp, hnode,
    List.count_eq_one_of_mem (hwt.nodup tgt _ hnode) himem,
    hwt.live_of_busy qt'.level tgt _ hnode (Nat.le_refl _) (Or.inr (List.ne_nil_of_mem himem)),
    fun m2 qm2 hm2 hne hmem2 => ?_⟩
  · obtain ⟨k, hk⟩ := totalObjects_root hw
    refine ⟨k, fun f hf => ⟨hk f hf, ?_⟩⟩
    obtain ⟨hk1, hk2⟩ := count_unlink hw hq hmem hcol (hk f hf)
    have := count_link hw' htgt hqt' hat hf (hcount' f _ hf hk2)
    rw [this]
    congr 1
    omega
  · have := hwt.owner m2 qm2 i hm2 hmem2
    rw [link_qt, if_pos rfl] at this
    exact hne (Option.some.inj this).symm

theorem C11_witness :
    ∃ t, (∀ f, 4 + 7 ≤ f → update f (finalHeap 10 e1Init e1Calls) 0 0 = some (true, t)) ∧
      (∃ k, ∀ f, 4 + 1 ≤ f → totalObjects f (finalHeap 10 e1Init e1Calls) 0 = some k ∧
        totalObjects f t 0 = some k) ∧
      ∃ n q, (t.items 0).qt = some n ∧ t.nodes n = some q ∧ q.objects.count 0 = 1 ∧
        Live t n ∧ ∀ m qm, t.nodes m = some qm → m ≠ n → 0 ∉ qm.objects :=
  C11_update_without_motion e1_reach 0 (by decide!)

/-- C20. Update is idempotent: in a reachable state, `update` on the root of a tracked
item returns a state on which a second `update` of the item returns exactly that
state again (same nodes, same lists in the same order, same owners). -/
theorem C20_update_is_idempotent {B : Rect} {C D : Nat} {s : Heap} (h : Reach B C D s)
    (i : Nat) (ht : (s.items i).qt ≠ none) :
    ∃ t, (∀ f, D + 7 ≤ f → update f s 0 i = some (true, t)) ∧
      ∀ f, D + 7 ≤ f → update f t 0 i = some (true, t) := by
  obtain ⟨hw, hnv, hreg⟩ := inv_of_reach h
  have hA : 2 ≤ C ∨ D = 0 := by
    rcases hreg with hA | ⟨_, hun⟩
    · exact hA
    · exact absurd (hun i) ht
  obtain ⟨n0, hn0⟩ : ∃ n, (s.items i).qt = some n := by
    cases hq : (s.items i).qt with
    | none => exact absurd hq ht
    | some n => exact ⟨n, rfl⟩
  obtain ⟨q, s1, m, qm, s', tgt, qt', hq, hmem, hcol, hw1, hnv1, hqt1, _, _, hqm, ham, hcase,
    hlands, htgt, hns, _, hupd⟩ := update_root_shape hA hw hnv hn0
  obtain ⟨hw', hnv', hitems', _⟩ := landing_state hw1 hnv1 hqm ham hcase
  have hqt' : (s'.items i).qt = none := by rw [hitems']; exact hqt1
  have hat : Attached s' tgt := hlands.attached hw' (Or.inl rfl)
  have hwt := hw'.wf_link htgt hqt' hat
  have hnvt : NonVoid (s'.link tgt qt' i) := hnv'.nv_link hw' qt' i
  refine ⟨s'.link tgt qt' i, hupd, ?_⟩
  -- the second call
  obtain ⟨q2, s2, m2, qm2, s2', tgt2, qt2', hq2, _, hcol2, _, _, _, _, hl2, hqm2, _, hcase2,
    hlands2, htgt2, _, _, hupd2⟩ :=
    update_root_shape hA hwt hnvt (show ((s'.link tgt qt' i).items i).qt = some tgt by simp)
  have hq2' : q2 = { qt' with objects := qt'.objects ++ [i] } := by
    have : (s'.link tgt qt' i).nodes tgt = some { qt' with objects := qt'.objects ++ [i] } := by
      simp
    rw [hq2] at this
    exact Option.some.inj this
  subst hq2'
  rw [link_unlink htgt hqt' (hw'.not_mem_of_untracked hqt' htgt)] at hcol2
  have hs2 : s2 = s' := collapses_eq_of_nonvoid hcol2 hnv'
  subst hs2
  have hb : (s2.items i).bound = (s1.items i).bound := by rw [hitems']
  rw [hb] at hl2 hlands2
  have hm2 : m2 = tgt := hlands.lands_unique m2 hl2
  subst hm2
  rw [htgt] at hqm2
  cases hqm2
  rcases hcase2 with ⟨_, rfl⟩ | ⟨hs, _⟩
  · have ht2 : tgt2 = m2 := hlands.lands_unique tgt2 hlands2
    subst ht2
    rw [htgt] at htgt2
    cases htgt2
    exact hupd2
  · exact absurd hs hns

theorem C20_witness :
    ∃ t, (∀ f, 4 + 7 ≤ f → update f (finalHeap 10 e1Init e1Calls) 0 0 = some (true, t)) ∧
      ∀ f, 4 + 7 ≤ f → update f t 0 0 = some (true, t) :=
  C20_update_is_idempotent e1_reach 0 (by decide!)

theorem runs_steps {ok : Rect → Prop} {s t : Heap} (h : Runs ok s t) :
    Steps (fun _ => True) s t := by
  induction h with
  | refl => exact Steps.refl _
  | @insert s1 s2 i f b _ _ hrun ih => exact Steps.step (.insert i) f b ih trivial hrun
  | @remove s1 s2 i f b _ hrun ih => exact Steps.step (.remove i) f b ih trivial hrun
  | @update s1 s2 i f b r _ _ hrun ih =>
    exact Steps.step (.update i) f b (Steps.step (.setBound i r) 0 true ih trivial rfl)
      trivial hrun
  | @clear s1 s2 f _ hrun ih =>
    refine Steps.step .clear f true ih trivial ?_
    simp only [Call.run, hrun, Option.map_some']
  | @setBound s1 i r _ _ ih => exact Steps.step (.setBound i r) 0 true ih trivial rfl

theorem runs_reach {ok : Rect → Prop} {B : Rect} {C D : Nat} {bounds : Nat → Rect} {s : Heap}
    (h : Runs ok (Heap.init B C D bounds) s) : Reach B C D s :=
  ⟨bounds, runs_steps h⟩

/-- A run in which the owner respects the bounds is a sequence of primitive
transitions in which bounds are only written for untracked items. -/
theorem runs_prims {ok : Rect → Prop} {C D : Nat} {s t : Heap} (h : Runs ok s t)
    (hinv : Inv C D s) : Prims C D False ok s t := by
  induction h with
  | refl => exact Prims.refl _
  | @insert s1 s2 i f b hprev hok hrun ih =>
    refine ih.append ?_
    have hinv1 := inv_steps (runs_steps hprev) hinv
    obtain ⟨hw, hnv, hreg⟩ := hinv1
    rcases hreg with hA | ⟨⟨q0, hq0, hl0, he0⟩, hun⟩
    · exact insert_prims hA hw hok hrun
    · by_cases hA : 2 ≤ C ∨ D = 0
      · exact insert_prims hA hw hok hrun
      · exfalso
        obtain ⟨q0', hq0', hp0, hlv0⟩ := hw.root
        rw [hq0] at hq0'; cases hq0'
        obtain ⟨hc, hm⟩ := hw.conf 0 q0 hq0
        have := insert_root_diverges f s1 i q0 hq0 hl0 he0 hp0 (by omega) (by omega) (hun i)
          (hw.lt_next hq0)
        rw [this] at hrun; cases hrun
  | @remove s1 s2 i f b hprev hrun ih =>
    obtain ⟨hw, hnv, _⟩ := inv_steps (runs_steps hprev) hinv
    exact ih.append (remove_prims hw hnv hrun)
  | @update s1 s2 i f b r hprev hok hrun ih =>
    refine ih.append ?_
    obtain ⟨hw, hnv, hreg⟩ := inv_steps (runs_steps hprev) hinv
    by_cases hA : 2 ≤ C ∨ D = 0
    · exact moved_update_prims hA hw hnv hok hrun
    · have hun : ∀ j, (s1.items j).qt = none := by
        rcases hreg with h1 | ⟨_, h1⟩
        · exact absurd h1 hA
        · exact h1
      rcases update_root_cases (hw.wf_setBound i r) (hnv.nv_setBound i r) hrun with
        ⟨_, _, rfl⟩ | ⟨n, _, _, _, hqt, _⟩
      · exact Prims.single (Prim.setBound hw (Or.inr (hun i)))
      · rw [setBound_qt, hun i] at hqt; cases hqt
  | @clear s1 s2 f hprev hrun ih =>
    obtain ⟨hw, _, _⟩ := inv_steps (runs_steps hprev) hinv
    obtain ⟨hw2, hidle, hsh⟩ := clear_root_outcome hw hrun
    exact ih.append (Prims.single (Prim.clear hw hw2 hidle hsh))
  | @setBound s1 i r hprev hqt ih =>
    obtain ⟨hw, _, _⟩ := inv_steps (runs_steps hprev) hinv
    exact ih.append (Prims.single (Prim.setBound hw (Or.inr hqt)))

theorem Runs.weaken {ok ok2 : Rect → Prop} (hok : ∀ r, ok r → ok2 r) {s t : Heap}
    (h : Runs ok s t) : Runs ok2 s t := by
  induction h with
  | refl => exact Runs.refl _
  | insert _ h1 hrun ih => exact Runs.insert ih (hok _ h1) hrun
  | remove _ hrun ih => exact Runs.remove ih hrun
  | update _ h1 hrun ih => exact Runs.update ih (hok _ h1) hrun
  | clear _ hrun ih => exact Runs.clear ih hrun
  | setBound _ hqt ih => exact Runs.setBound ih hqt

/-- Inserts of items inside the root's region, removals and `clear` form a run that
respects the bounds. -/
theorem runs_of_inside {B : Rect} {C D : Nat} {bounds : Nat → Rect} {s0 s : Heap}
    (h : Steps (Call.inside B bounds) s0 s) (hinv : Inv C D s0) (hr : Routed s0)
    (hf : Framed B bounds s0) : Runs (fun r => B.contains r = true) s0 s := by
  induction h with
  | refl => exact Runs.refl _
  | step c fuel b hprev hc hrun ih =>
    obtain ⟨_, _, hf1⟩ := routed_steps hprev hinv hr hf
    cases c with
    | insert i => exact Runs.insert ih (by rw [hf1.2 i]; exact hc) hrun
    | remove i => exact Runs.remove ih hrun
    | clear =>
      simp only [Call.run, Option.map_eq_some', Prod.mk.injEq, true_and] at hrun
      obtain ⟨t2, ht2, _, rfl⟩ := hrun
      exact Runs.clear ih ht2
    | update i => exact absurd hc id
    | setBound i r => exact absurd hc id

/-- Scenario E1 as a run that respects the bounds. -/
theorem e1_runs :
    Runs (fun r => (⟨0, 0, 100, 100⟩ : Rect).contains r = true) e1Init
      (finalHeap 10 e1Init e1Calls) :=
  runs_of_inside (steps_finalHeap e1_inside (by decide!)) (inv_init _ 2 4 _)
    (routed_of_untracked fun _ => rfl) ⟨⟨_, rfl, rfl⟩, fun _ => rfl⟩

theorem getChild_objects (q : QuadTree) (l : List Nat) (b : Rect) :
    getChild { q with objects := l } b = getChild q b := rfl

theorem fit_same_node {C : Nat} {s t : Heap} {q p : QuadTree}
    (hb : p.bounds = q.bounds) (hc : p.children = q.children)
    (ho : p.objects.Sublist q.objects)
    (hitems : ∀ j ∈ p.objects, (t.items j).bound = (s.items j).bound)
    (h : (q.objects.filter (fits s q)).length ≤ C - 1) :
    (p.objects.filter (fits t p)).length ≤ C - 1 := by
  have h1 : p.objects.filter (fits t p) = p.objects.filter (fits s q) := by
    apply List.filter_congr
    intro j hj
    unfold fits
    rw [hitems j hj, getChild_congr hb hc]
  rw [h1]
  exact le_trans (ho.filter _).length_le h

theorem fit_prim {C D : Nat} {ok : Rect → Prop} {s t : Heap}
    (h : Prim C D False ok s t) (hcap : Cap C D s) (hf : Fit C s) : Fit C t := by
  cases h with
  | @unlink n i q hw hq hi =>
    intro x qx hx hl
    rw [unlink_nodes] at hx
    by_cases hxn : x = n
    · rw [if_pos hxn] at hx
      cases hx
      exact fit_same_node (q := q) rfl rfl (List.erase_sublist i q.objects)
        (fun j _ => unlink_bound s n q i j) (hf n q hq hl)
    · rw [if_neg hxn] at hx
      exact fit_same_node rfl rfl (List.Sublist.refl _)
        (fun j _ => unlink_bound s n q i j) (hf x qx hx hl)
  | @flip n q hw hq hcol =>
    intro x qx hx hl
    rw [setNode_nodes] at hx
    by_cases hxn : x = n
    · rw [if_pos hxn] at hx
      cases hx
      cases hl
    · rw [if_neg hxn] at hx
      exact hf x qx hx hl
  | @split _ m q hw hq hs hC ha hsub =>
    obtain ⟨_, hitems, hn2, hnew, hold, hfar⟩ := hw.wf_subdivide_nodes hq hsub
    have hD : q.level < D := by rw [← (hw.conf m q hq).2]; exact hs.2.1
    intro x qx hx hl
    by_cases hxm : x = m
    · rw [hxm, hn2] at hx
      cases hx
      exact le_trans (List.length_filter_le _ _) ((hcap m q hq).2 hs.1 hD)
    · rcases Nat.lt_or_ge x s.next with hlt | hge
      · rw [hold x hxm hlt] at hx
        exact fit_same_node rfl rfl (List.Sublist.refl _)
          (fun j _ => by rw [hitems]) (hf x qx hx hl)
      · rcases Nat.lt_or_ge x (s.next + 4) with hlt4 | hge4
        · obtain ⟨k, hk, rfl⟩ : ∃ k, k < 4 ∧ x = s.next + k :=
            ⟨x - s.next, by omega, by omega⟩
          rw [hnew k hk] at hx
          cases hx
          cases hl
        · rw [hfar x hge4] at hx
          cases hx
  | @link n i q hw hqt hq hns hlands hok =>
    intro x qx hx hl
    rw [link_nodes] at hx
    by_cases hxn : x = n
    · rw [if_pos hxn] at hx
      cases hx
      obtain ⟨qn, hqn, hroute⟩ := hlands.stops
      rw [hq] at hqn; cases hqn
      have hl' : q.isLeaf = false := hl
      have hnone : getChild q (s.items i).bound = none := by
        rw [← route_eq_getChild hl']; exact hroute
      have h1 : (q.objects ++ [i]).filter (fits (s.link n q i)
          { q with objects := q.objects ++ [i] }) = q.objects.filter (fits s q) := by
        rw [List.filter_append]
        have h2 : [i].filter (fits (s.link n q i) { q with objects := q.objects ++ [i] })
            = [] := by
          rw [List.filter_singleton]
          have : fits (s.link n q i) { q with objects := q.objects ++ [i] } i = false := by
            unfold fits
            rw [link_bound]
            show (getChild { q with objects := q.objects ++ [i] } (s.items i).bound).isSome
              = false
            rw [getChild_objects, hnone]
            rfl
          rw [this]
          rfl
        rw [h2, List.append_nil]
        apply List.filter_congr
        intro j _
        unfold fits
        rw [link_bound, getChild_objects]
      show ((q.objects ++ [i]).filter _).length ≤ C - 1
      rw [h1]
      exact hf n q hq hl'
    · rw [if_neg hxn] at hx
      exact fit_same_node rfl rfl (List.Sublist.refl _)
        (fun j _ => link_bound s n q i j) (hf x qx hx hl)
  | clear hw hwt hidle hsh =>
    intro x qx hx hl
    rw [(hwt.all_idle hidle hx).1] at hl
    cases hl
  | @setBound i r hw hfree =>
    rcases hfree with hfalse | hqt
    · exact absurd hfalse id
    intro x qx hx hl
    have hx' : s.nodes x = some qx := hx
    refine fit_same_node rfl rfl (List.Sublist.refl _) (fun j hj => ?_) (hf x qx hx' hl)
    have hji : j ≠ i := by
      intro h
      rw [h] at hj
      exact hw.not_mem_of_untracked hqt hx' hj
    rw [setBound_bound, if_neg hji]

theorem fit_prims {C D : Nat} {ok : Rect → Prop} {s t : Heap}
    (h : Prims C D False ok s t) (hcap : Cap C D s) (hf : Fit C s) : Cap C D t ∧ Fit C t := by
  induction h with
  | refl => exact ⟨hcap, hf⟩
  | step hp _ ih => exact ih (cap_prim hp hcap) (fit_prim hp hcap hf)

theorem fit_init (B : Rect) (C D : Nat) (bounds : Nat → Rect) :
    Fit C (Heap.init B C D bounds) := by
  intro n q hq hl
  simp only [Heap.init] at hq
  by_cases h0 : n = 0
  · rw [if_pos h0] at hq
    cases hq
    cases hl
  · rw [if_neg h0] at hq
    cases hq

theorem PathOK.path_transfer {C D : Nat} {s t : Heap} (hw : WF0 C D s)
    (hk : KeepsRoutes s t) {n : Nat} {b : Rect} {qn : QuadTree} (hqn : s.nodes n = some qn)
    (ha : Attached s n) (h : PathOK s n b) : PathOK t n b := by
  intro c qc2 p qp2 hb hqc2 hp hqp2
  have hbs := hb.of_keeps hw hk qn hqn
  obtain ⟨qc, hqc⟩ := hbs.exists_node hw hqn
  obtain ⟨qc2', hqc2', hpar, _⟩ := hk c qc hqc
  rw [hqc2] at hqc2'; cases hqc2'
  have hp' : qc.parent = some p := hpar.symm.trans hp
  obtain ⟨qp, hqp, hpl, _⟩ := hbs.parent_internal hw ha qc p hqc hp'
  obtain ⟨qp2', hqp2', _, hbd, hch⟩ := hk p qp hqp
  rw [hqp2] at hqp2'; cases hqp2'
  rw [getChild_congr hbd (hch hpl)]
  exact h c qc p qp hbs hqc hp' hqp

theorem Pathed.pathed_transfer {C D : Nat} {s t : Heap} (hw : WF0 C D s) (hr : Pathed s)
    (hk : KeepsRoutes s t)
    (hitems : ∀ j m, (t.items j).qt = some m →
      (s.items j).qt = some m ∧ (t.items j).bound = (s.items j).bound) : Pathed t := by
  intro j m hj
  obtain ⟨hjs, hb⟩ := hitems j m hj
  obtain ⟨qm, hqm, hmem⟩ := hw.ownedBy j m hjs
  rw [hb]
  exact (hr j m hjs).path_transfer hw hk hqm
    (hw.live m qm hqm (Or.inr (List.ne_nil_of_mem hmem)))

theorem pathOK_root {C D : Nat} {s : Heap} (hw : WF0 C D s) (b : Rect) : PathOK s 0 b := by
  intro c qc p qp hb hqc hp _
  have := hb.root hw rfl
  subst this
  obtain ⟨q, hq, hpn, _⟩ := hw.root
  rw [hqc] at hq; cases hq
  rw [hpn] at hp; cases hp

theorem PathOK.path_child {C D : Nat} {s : Heap} (hw : WF0 C D s) {n c : Nat} {q : QuadTree}
    {b : Rect} (hq : s.nodes n = some q) (hl : q.isLeaf = false) (hc : getChild q b = some c)
    (h : PathOK s n b) : PathOK s c b := by
  have hmem := getChild_mem hc
  obtain ⟨qc, hqc, hcp⟩ := (hw.kids n q hq hl).2.2.2 c hmem
  intro c' qc' p qp hb hqc' hp hqp
  cases hb with
  | refl =>
    rw [hqc] at hqc'; cases hqc'
    rw [hcp] at hp; cases hp
    rw [hq] at hqp; cases hqp
    exact hc
  | step hq1 hp1 hb1 =>
    rw [hqc] at hq1; cases hq1
    rw [hcp] at hp1; cases hp1
    exact h c' qc' p qp hb1 hqc' hp hqp

theorem Lands.pathOK {C D : Nat} {s : Heap} (hw : WF0 C D s) {b : Rect} {n m : Nat}
    (h : Lands s b n m) : PathOK s n b → PathOK s m b := by
  induction h with
  | here _ _ => exact id
  | down hq hr _ ih =>
    intro hp
    obtain ⟨hl, _⟩ := route_some hr
    exact ih (hp.path_child hw hq hl (by rw [← route_eq_getChild hl]; exact hr))

theorem Lands.chainOK {C D : Nat} {s : Heap} (hw : WF0 C D s) {b : Rect} {n m : Nat}
    (h : Lands s b n m) : ChainOK s n b → ChainOK s m b := by
  induction h with
  | here _ _ => exact id
  | down hq hr _ ih =>
    intro hp
    obtain ⟨hl, _⟩ := route_some hr
    exact ih (hp.child hw hq hl (by rw [← route_eq_getChild hl]; exact hr))

theorem keepsRoutes_flip {s : Heap} {n : Nat} {q : QuadTree} (hq : s.nodes n = some q)
    (hc : Collapsible s q) : KeepsRoutes s (s.setNode n q.asLeaf) :=
  keepsRoutes_collapses (Collapses.step hq hc (Collapses.refl _))

theorem keepsRoutes_clear {s t : Heap} (h : Shrinks s t) : KeepsRoutes s t := by
  intro a qa ha
  obtain ⟨q2, hq2, hsf, _⟩ := (h.2.2 a).2 qa ha
  exact ⟨q2, hq2, hsf.2.2.2.2.1, hsf.2.2.2.1, fun _ => hsf.2.2.2.2.2⟩

theorem keepsRoutes_setBound (s : Heap) (i : Nat) (r : Rect) :
    KeepsRoutes s (s.setBound i r) :=
  fun _ qa ha => ⟨qa, ha, rfl, rfl, fun _ => rfl⟩

theorem pathed_prim {C D : Nat} {ok : Rect → Prop} {s t : Heap}
    (h : Prim C D False ok s t) (hp : Pathed s) : Pathed t := by
  cases h with
  | @unlink n i q hw hq hi =>
    refine hp.pathed_transfer hw (keepsRoutes_unlink s n q i hq) ?_
    intro j m hj
    rw [unlink_qt] at hj
    rw [unlink_bound]
    by_cases hji : j = i
    · rw [if_pos hji] at hj; cases hj
    · rw [if_neg hji] at hj; exact ⟨hj, rfl⟩
  | @flip n q hw hq hcol =>
    exact hp.pathed_transfer hw (keepsRoutes_flip hq hcol) (fun j m hj => ⟨hj, rfl⟩)
  | @split _ m q hw hq hs hC ha hsub =>
    obtain ⟨_, hitems, _⟩ := hw.wf_subdivide_nodes hq hsub
    refine hp.pathed_transfer hw (keepsRoutes_subdivide hw hq hs.1 hsub) ?_
    intro j m hj
    rw [hitems] at hj ⊢
    exact ⟨hj, rfl⟩
  | @link n i q hw hqt hq hns hlands hok =>
    have ha : Attached s n := hlands.attached hw (Or.inl rfl)
    intro j m hj
    rw [link_bound]
    rw [link_qt] at hj
    by_cases hji : j = i
    · subst hji
      rw [if_pos rfl] at hj; cases hj
      exact (hlands.pathOK hw (pathOK_root hw _)).path_transfer hw
        (keepsRoutes_link s n q j hq) hq ha
    · rw [if_neg hji] at hj
      obtain ⟨qm, hqm, hmem⟩ := hw.ownedBy j m hj
      exact (hp j m hj).path_transfer hw (keepsRoutes_link s n q i hq) hqm
        (hw.live m qm hqm (Or.inr (List.ne_nil_of_mem hmem)))
  | clear hw hwt hidle hsh =>
    intro j m hj
    rw [hwt.untracked_of_root_idle hidle j] at hj
    cases hj
  | @setBound i r hw hfree =>
    rcases hfree with hfalse | hqt
    · exact absurd hfalse id
    refine hp.pathed_transfer hw (keepsRoutes_setBound s i r) ?_
    intro j m hj
    rw [setBound_qt] at hj
    have hji : j ≠ i := by
      intro h
      rw [h, hqt] at hj
      cases hj
    exact ⟨hj, by rw [setBound_bound, if_neg hji]⟩

theorem pathed_prims {C D : Nat} {ok : Rect → Prop} {s t : Heap}
    (h : Prims C D False ok s t) (hp : Pathed s) : Pathed t := by
  induction h with
  | refl => exact hp
  | step hs _ ih => exact ih (pathed_prim hs hp)

theorem Prim.keeps {C D : Nat} {free : Prop} {ok : Rect → Prop} {s t : Heap}
    (h : Prim C D free ok s t) : KeepsRoutes s t := by
  cases h with
  | @unlink n i q hw hq hi => exact keepsRoutes_unlink s n q i hq
  | @flip n q hw hq hcol => exact keepsRoutes_flip hq hcol
  | @split _ m q hw hq hs hC ha hsub => exact keepsRoutes_subdivide hw hq hs.1 hsub
  | @link n i q hw hqt hq hns hlands hok => exact keepsRoutes_link s n q i hq
  | clear hw hwt hidle hsh => exact keepsRoutes_clear hsh
  | @setBound i r hw hfree => exact keepsRoutes_setBound s i r

theorem rootBox_prim {C D : Nat} {free : Prop} {ok : Rect → Prop} {B : Rect} {s t : Heap}
    (h : Prim C D free ok s t) (hb : RootBox B s) : RootBox B t := by
  obtain ⟨q, hq, hqb⟩ := hb
  obtain ⟨q2, hq2, _, hbd, _⟩ := h.keeps 0 q hq
  exact ⟨q2, hq2, hbd.trans hqb⟩

theorem routed_prim {C D : Nat} {B : Rect} {s t : Heap}
    (h : Prim C D False (fun r => B.contains r = true) s t) (hr : Routed s)
    (hb : RootBox B s) : Routed t := by
  have hk := h.keeps
  cases h with
  | @unlink n i q hw hq hi => exact hr.routed_unlink hw hq i
  | @flip n q hw hq hcol =>
    exact hr.routed_transfer hw hk (fun j m hj => ⟨hj, rfl⟩)
  | @split _ m q hw hq hs hC ha hsub =>
    obtain ⟨_, hitems, _⟩ := hw.wf_subdivide_nodes hq hsub
    refine hr.routed_transfer hw hk ?_
    intro j m hj
    rw [hitems] at hj ⊢
    exact ⟨hj, rfl⟩
  | @link n i q hw hqt hq hns hlands hok =>
    obtain ⟨q0, hq0, hqb⟩ := hb
    have hc0 : q0.bounds.contains (s.items i).bound = true := by rw [hqb]; exact hok
    exact hr.routed_link hw hq (hlands.attached hw (Or.inl rfl))
      (hlands.chainOK hw (chainOK_root hw hq0 hc0))
  | clear hw hwt hidle hsh => exact routed_of_untracked (hwt.untracked_of_root_idle hidle)
  | @setBound i r hw hfree =>
    rcases hfree with hfalse | hqt
    · exact absurd hfalse id
    refine hr.routed_transfer hw hk ?_
    intro j m hj
    rw [setBound_qt] at hj
    have hji : j ≠ i := by
      intro h
      rw [h, hqt] at hj
      cases hj
    exact ⟨hj, by rw [setBound_bound, if_neg hji]⟩

theorem routed_prims {C D : Nat} {B : Rect} {s t : Heap}
    (h : Prims C D False (fun r => B.contains r = true) s t) (hr : Routed s)
    (hb : RootBox B s) : Routed t ∧ RootBox B t := by
  induction h with
  | refl => exact ⟨hr, hb⟩
  | step hs _ ih => exact ih (routed_prim hs hr hb) (rootBox_prim hs hb)

/-- C19, as stated, fails when the query rectangle is the bound object of a tracked
item: in scenario E1 (all three bounds inside the root's region, all inserts returning
`true`) the query with the first item's own bound returns only the third item, although
the first item is tracked and its bound intersects the query rectangle. -/
theorem C19_counterexample :
    ([0, 1, 2].map fun k => (⟨0, 0, 100, 100⟩ : Rect).contains (e1Bounds k))
      = [true, true, true] ∧
    (runCalls 10 e1Init e1Calls).map Prod.fst = some [true, true, true] ∧
    ((finalHeap 10 e1Init e1Calls).items 0).qt ≠ none ∧
    ((finalHeap 10 e1Init e1Calls).items 0).bound.intersects
      ((RectRef.ofItem 0).deref (finalHeap 10 e1Init e1Calls)) = true ∧
    getObjectsInBound 10 (finalHeap 10 e1Init e1Calls) 0 (.ofItem 0) = some [2] := by
  refine ⟨?_, ?_, ?_, ?_, ?_⟩ <;> decide!

/-- C19 (amended). Query completeness for in-region items: in every state reached from
an empty root by `insert`, `remove`, `update` and `clear` on the root, where the bound an
item has at `insert` or `update` lies inside the root's region and is not changed while
the item is tracked, a query on the root returns (for a recursion budget above the max
depth) every tracked item whose bound intersects the query rectangle, except the item
whose own bound object was passed; it returns nothing else and nothing twice. -/
theorem C19_query_complete_inside_root {B : Rect} {C D : Nat} {bounds : Nat → Rect}
    {s : Heap} (h : Runs (fun r => B.contains r = true) (Heap.init B C D bounds) s)
    (Q : RectRef) (f : Nat) (hf : D + 1 ≤ f) :
    ∃ res, getObjectsInBound f s 0 Q = some res ∧
      (∀ i, (s.items i).qt ≠ none → RectRef.ofItem i ≠ Q →
        (s.items i).bound.intersects (Q.deref s) = true → i ∈ res) ∧
      (∀ i, i ∈ res → (s.items i).qt ≠ none ∧ RectRef.ofItem i ≠ Q ∧
        (s.items i).bound.intersects (Q.deref s) = true) ∧
      res.Nodup := by
  obtain ⟨hw, _, _⟩ := inv_of_reach (runs_reach h)
  obtain ⟨hr, _⟩ := routed_prims (runs_prims h (inv_init B C D bounds))
    (routed_of_untracked fun _ => rfl) ⟨_, rfl, rfl⟩
  obtain ⟨q0, hq0, _, hl0⟩ := hw.root
  obtain ⟨k, rfl⟩ : ∃ k, f = k + 1 := ⟨f - 1, by omega⟩
  obtain ⟨res, hres, hnd, hmem⟩ := query_spec hw hr Q k 0 q0 hq0 (by omega)
  refine ⟨res, hres, fun i hqt hne hint => ?_, fun i hi => ?_, hnd⟩
  · cases hm : (s.items i).qt with
    | none => exact absurd hm hqt
    | some m =>
      obtain ⟨qm, hqm, hmem2⟩ := hw.ownedBy i m hm
      exact (hmem i).2 ⟨⟨m, hm, Below.root_of_busy hw qm.level m qm hqm (Nat.le_refl _)
        (Or.inr (List.ne_nil_of_mem hmem2))⟩, hne, hint⟩
  · obtain ⟨⟨m, hqt, _⟩, hc⟩ := (hmem i).1 hi
    exact ⟨by rw [hqt]; simp, hc⟩

theorem C19_witness :
    ∃ res, getObjectsInBound 5 (finalHeap 10 e1Init e1Calls) 0 (.ofItem 0) = some res ∧
      (∀ i, ((finalHeap 10 e1Init e1Calls).items i).qt ≠ none → RectRef.ofItem i ≠ .ofItem 0 →
        ((finalHeap 10 e1Init e1Calls).items i).bound.intersects
          ((RectRef.ofItem 0).deref (finalHeap 10 e1Init e1Calls)) = true → i ∈ res) ∧
      (∀ i, i ∈ res → ((finalHeap 10 e1Init e1Calls).items i).qt ≠ none ∧
        RectRef.ofItem i ≠ .ofItem 0 ∧
        ((finalHeap 10 e1Init e1Calls).items i).bound.intersects
          ((RectRef.ofItem 0).deref (finalHeap 10 e1Init e1Calls)) = true) ∧
      res.Nodup :=
  C19_query_complete_inside_root e1_runs (.ofItem 0) 5 (by decide)

/-- C13, as stated, fails in scenario E1: after the three inserts the root is subdivided
and still holds the first item `{10,10,5,5}` directly, although the bounds of its
top-left child (address 2) contain that bound and `getChild` selects that child for it;
the owners of the three items are the root, the bottom-right child (address 4) and the
top-left child, so the first and third item are not held by the same child. -/
theorem C13_counterexample :
    ((finalHeap 10 e1Init e1Calls).nodes 0).map
        (fun q => (q.isLeaf, q.children, q.objects, getChild q (e1Bounds 0)))
      = some (false, [1, 2, 3, 4], [0], some 2) ∧
    ((finalHeap 10 e1Init e1Calls).nodes 2).map (fun q => q.bounds.contains (e1Bounds 0))
      = some true ∧
    ([0, 1, 2].map fun i => ((finalHeap 10 e1Init e1Calls).items i).qt)
      = [some 0, some 4, some 2] := by
  refine ⟨?_, ?_, ?_⟩ <;> decide!

/-- C13 (amended). Routing fit: in every state reached from an empty root by `insert`,
`remove`, `update` and `clear` on the root, the bound of a tracked item being written
only right before `update` is called for it, every subdivided node holds at most
`capacity - 1` direct items for which `getChild` selects a child (the items it held when
it subdivided), and every tracked item lies in the subtree that `getChild` selects for
its bound at each ancestor of its owner.  In scenario E1 the items are held by the
root, the bottom-right child and the top-left child, in this order. -/
theorem C13_routing_fit_amended {B : Rect} {C D : Nat} {bounds : Nat → Rect} {s : Heap}
    (h : Runs (fun _ => True) (Heap.init B C D bounds) s) :
    (∀ n q, s.nodes n = some q → q.isLeaf = false →
      (q.objects.filter (fits s q)).length ≤ q.capacity - 1) ∧
    Pathed s ∧
    ([0, 1, 2].map fun i => ((finalHeap 10 e1Init e1Calls).items i).qt)
      = [some 0, some 4, some 2] := by
  obtain ⟨hw, _, _⟩ := inv_of_reach (runs_reach h)
  have hp := runs_prims h (inv_init B C D bounds)
  obtain ⟨_, hfit⟩ := fit_prims hp (cap_init B C D bounds) (fit_init B C D bounds)
  refine ⟨fun n q hq hl => ?_, pathed_prims hp (fun i m hi => by cases hi), by decide!⟩
  rw [(hw.conf n q hq).1]
  exact hfit n q hq hl

theorem C13_witness :
    (∀ n q, (finalHeap 10 e1Init e1Calls).nodes n = some q → q.isLeaf = false →
      (q.objects.filter (fits (finalHeap 10 e1Init e1Calls) q)).length ≤ q.capacity - 1) ∧
    Pathed (finalHeap 10 e1Init e1Calls) ∧
    ([0, 1, 2].map fun i => ((finalHeap 10 e1Init e1Calls).items i).qt)
      = [some 0, some 4, some 2] :=
  C13_routing_fit_amended (e1_runs.weaken fun _ _ => trivial)

end QuadTreeCpp
